import Mathlib

/-!
# Library Management System: the record store

A shallow embedding of `src/src/Book.cpp` and `src/src/LibraryManager.cpp`
(and of the duplicated `src/library_manager_single.cpp`) together with the
properties of the store that are proved about it.

* `std::string` is a sequence of bytes (`List (Fin 256)`), compared byte-wise.
* `int` is a Lean `Int`; where the source can overflow the result is wrapped
  to 32 bits.
* `std::vector<Book> books` is a `List Book`; every operation takes the
  vector and returns what the C++ function returns together with the vector
  it leaves behind.
-/

namespace LibraryManagement

/-! ## Strings and machine integers -/

/-- One `char` of a `std::string`, as an unsigned value. -/
abbrev Byte := Fin 256

/-- The type `std::string`: a finite sequence of bytes. -/
abbrev CppString := List Byte

/-- The bytes of an ASCII string literal. -/
def lit (s : String) : CppString := s.data.map (fun ch => Fin.ofNat ch.toNat)

/-- Reduction of a mathematical integer to the range of a 32-bit `int`. -/
def wrapInt32 (n : Int) : Int := (n + 2147483648) % 4294967296 - 2147483648

/-- The largest value of a 32-bit `int`. -/
def INT_MAX : Int := 2147483647

/-- The smallest value of a 32-bit `int`. -/
def INT_MIN : Int := -2147483648

/-! ## Book (`Book.h`) -/

/-- The data members of `class Book`. -/
structure Book where
  id : Int
  title : CppString
  author : CppString
  year : Int
  isbn : CppString
  category : CppString
  isAvailable : Bool
  deriving DecidableEq, Repr

/-- The default constructor `Book::Book()`. -/
def Book.default : Book :=
  { id := 0, title := [], author := [], year := 0, isbn := [], category := [], isAvailable := true }

/-! ## LibraryManager: validation and id generation -/

/-- The function `LibraryManager::generateNextId`: 1 on an empty vector, otherwise one more
than the largest id found by a scan that starts from `maxId = 0`. -/
def generateNextId (books : List Book) : Int :=
  if books.isEmpty then 1
  else wrapInt32 (books.foldl (fun maxId book => if book.id > maxId then book.id else maxId) 0 + 1)

/-- The function `LibraryManager::isValidYear`. -/
def isValidYear (year : Int) : Bool := decide (year ≥ 1000) && decide (year ≤ 2030)

/-- The character class `\d` of the ISBN pattern. -/
def isDigit (b : Byte) : Bool := decide (48 ≤ b.val) && decide (b.val ≤ 57)

/-- The character class `[\d-]` of the ISBN pattern. -/
def isDigitOrHyphen (b : Byte) : Bool := isDigit b || decide (b.val = 45)

/-- The function `LibraryManager::isValidISBN`: a whole-string match of
`^(?:\d{10}|\d{13}|[\d-]{13,17})$`, one disjunct per alternative. -/
def isValidISBN (isbn : CppString) : Bool :=
  (decide (isbn.length = 10) && isbn.all isDigit)
  || (decide (isbn.length = 13) && isbn.all isDigit)
  || (decide (13 ≤ isbn.length) && decide (isbn.length ≤ 17) && isbn.all isDigitOrHyphen)

/-! ## LibraryManager: create -/

/-- What `addRecord` reports: the message it prints and, through `returned`, its `bool`. -/
inductive AddResult where
  /-- "Book added successfully with ID: ..." -/
  | added (newId : Int)
  /-- "Error: Title and author cannot be empty." -/
  | emptyTitleOrAuthor
  /-- "Error: Invalid year. Must be between 1000 and 2030." -/
  | invalidYear
  /-- "Error: Invalid ISBN format." -/
  | invalidIsbn
  /-- "Error: A book with this ISBN already exists." -/
  | duplicateIsbn
  deriving DecidableEq, Repr

/-- The `bool` that `addRecord` returns. -/
def AddResult.returned : AddResult → Bool
  | .added _ => true
  | _ => false

/-- The function `LibraryManager::addRecord`. -/
def addRecord (books : List Book) (title author : CppString) (year : Int)
    (isbn category : CppString) : AddResult × List Book :=
  if title.isEmpty || author.isEmpty then (.emptyTitleOrAuthor, books)
  else if !isValidYear year then (.invalidYear, books)
  else if !isValidISBN isbn then (.invalidIsbn, books)
  else if books.any (fun book => decide (book.isbn = isbn)) then (.duplicateIsbn, books)
  else
    let newId := generateNextId books
    (.added newId,
      books ++ [{ id := newId, title := title, author := author, year := year, isbn := isbn,
                  category := category, isAvailable := true }])

/-! ## LibraryManager: lookup, delete, update, lending -/

/-- The algorithm `std::find_if` over a vector: the position of the first element that
satisfies `p`, or `none` for the end iterator. -/
def findIf {α : Type} (p : α → Bool) : List α → Option Nat
  | [] => none
  | x :: xs => if p x then some 0 else (findIf p xs).map (· + 1)

/-- The function `LibraryManager::searchRecordByID`: the returned pointer is the position of
the record in the vector, `none` is `nullptr`. A dereference `book->...` of the pointer `p`
reads `books.getD p Book.default`, and a setter called through it is `books.modify _ p`. -/
def searchRecordByID (books : List Book) (id : Int) : Option Nat :=
  findIf (fun book => decide (book.id = id)) books

/-- The function `LibraryManager::deleteRecord`. -/
def deleteRecord (books : List Book) (id : Int) : Bool × List Book :=
  match findIf (fun book => decide (book.id = id)) books with
  | some it => (true, books.eraseIdx it)
  | none => (false, books)

/-- The values that `getValidatedIntInput(prompt, min, max)` can return: a number from `min`
to `max` that was typed, or 0 for an empty line when `min` is 0. Any other line is asked for
again. -/
def getValidatedIntInputReturns (min max value : Int) : Prop :=
  (min = 0 ∧ value = 0) ∨ (min ≤ value ∧ value ≤ max)

instance (min max value : Int) : Decidable (getValidatedIntInputReturns min max value) := by
  unfold getValidatedIntInputReturns; infer_instance

/-- The function `LibraryManager::updateRecord` of `LibraryManager.cpp`. The five values typed
at the prompts are the arguments `newTitle`, `newAuthor`, `newYear`, `newIsbn`, `newCategory`
(`newYear` is what `getValidatedIntInput("", 0, 2030)` returned, so a run of the program calls
it with `getValidatedIntInputReturns 0 2030 newYear`). -/
def updateRecord (books : List Book) (id : Int) (newTitle newAuthor : CppString) (newYear : Int)
    (newIsbn newCategory : CppString) : Bool × List Book :=
  match searchRecordByID books id with
  | none => (false, books)
  | some p =>
    let books := if !newTitle.isEmpty then books.modify (fun b => { b with title := newTitle }) p
                 else books
    let books := if !newAuthor.isEmpty then books.modify (fun b => { b with author := newAuthor }) p
                 else books
    let books := if decide (newYear > 0) && isValidYear newYear
                 then books.modify (fun b => { b with year := newYear }) p else books
    let books := if !newIsbn.isEmpty && isValidISBN newIsbn
                 then books.modify (fun b => { b with isbn := newIsbn }) p else books
    let books := if !newCategory.isEmpty
                 then books.modify (fun b => { b with category := newCategory }) p else books
    (true, books)

/-- The function `LibraryManager::updateRecord` of `library_manager_single.cpp`, which applies
a positive year and a non-empty ISBN without validating them. The arguments are the values
typed at the prompts, as for `updateRecord`: `newYear` is what
`getValidatedIntInput("", 0, 2030)` returned, so a run of the program calls it with
`getValidatedIntInputReturns 0 2030 newYear`. -/
def updateRecordSingle (books : List Book) (id : Int) (newTitle newAuthor : CppString)
    (newYear : Int) (newIsbn newCategory : CppString) : Bool × List Book :=
  match searchRecordByID books id with
  | none => (false, books)
  | some p =>
    let books := if !newTitle.isEmpty then books.modify (fun b => { b with title := newTitle }) p
                 else books
    let books := if !newAuthor.isEmpty then books.modify (fun b => { b with author := newAuthor }) p
                 else books
    let books := if decide (newYear > 0)
                 then books.modify (fun b => { b with year := newYear }) p else books
    let books := if !newIsbn.isEmpty
                 then books.modify (fun b => { b with isbn := newIsbn }) p else books
    let books := if !newCategory.isEmpty
                 then books.modify (fun b => { b with category := newCategory }) p else books
    (true, books)

/-- What `borrowBook` and `returnBook` report. -/
inductive LendResult where
  /-- "Book with ID ... not found." -/
  | notFound
  /-- "Book is already borrowed." (from `borrowBook`) -/
  | alreadyBorrowed
  /-- "Book is already available." (from `returnBook`) -/
  | alreadyAvailable
  /-- "Book '...' borrowed successfully." or "Book '...' returned successfully." -/
  | ok
  deriving DecidableEq, Repr

/-- The `bool` that `borrowBook` and `returnBook` return. -/
def LendResult.returned : LendResult → Bool
  | .ok => true
  | _ => false

/-- The function `LibraryManager::borrowBook`. -/
def borrowBook (books : List Book) (id : Int) : LendResult × List Book :=
  match searchRecordByID books id with
  | none => (.notFound, books)
  | some p =>
    if !(books.getD p Book.default).isAvailable then (.alreadyBorrowed, books)
    else (.ok, books.modify (fun b => { b with isAvailable := false }) p)

/-- The function `LibraryManager::returnBook`. -/
def returnBook (books : List Book) (id : Int) : LendResult × List Book :=
  match searchRecordByID books id with
  | none => (.notFound, books)
  | some p =>
    if (books.getD p Book.default).isAvailable then (.alreadyAvailable, books)
    else (.ok, books.modify (fun b => { b with isAvailable := true }) p)

/-! ## Sequences of create and delete operations -/

/-- One request of a session that only creates and deletes records. -/
inductive Op where
  | create (title author : CppString) (year : Int) (isbn category : CppString)
  | delete (id : Int)
  deriving DecidableEq, Repr

/-- The vector after one request. -/
def Op.apply (books : List Book) : Op → List Book
  | .create title author year isbn category => (addRecord books title author year isbn category).2
  | .delete id => (deleteRecord books id).2

/-- The id that a request assigns: the new id of a successful `addRecord`, nothing otherwise. -/
def Op.assigned (books : List Book) : Op → Option Int
  | .create title author year isbn category =>
    match (addRecord books title author year isbn category).1 with
    | .added newId => some newId
    | _ => none
  | .delete _ => none

/-- The vector after a sequence of requests, starting from `books`. -/
def runOps : List Book → List Op → List Book
  | books, [] => books
  | books, op :: ops => runOps (op.apply books) ops

/-- The ids assigned by a sequence of requests, in the order they were assigned. -/
def assignedIds : List Book → List Op → List Int
  | _, [] => []
  | books, op :: ops =>
    match op.assigned books with
    | some newId => newId :: assignedIds (op.apply books) ops
    | none => assignedIds (op.apply books) ops

/-! ## LibraryManager: the record a pointer designates, and the two substring searches -/

/-- The record `*p` that the pointer returned by `searchRecordByID` designates, `none` for
`nullptr`. -/
def recordByID (books : List Book) (id : Int) : Option Book :=
  (searchRecordByID books id).bind fun p => books[p]?

/-- The function `::tolower` of the "C" locale, applied to one `char`: the letters `A` to `Z`
become `a` to `z`, every other byte is kept. -/
def tolower (b : Byte) : Byte :=
  if 65 ≤ b.val ∧ b.val ≤ 90 then Fin.ofNat (b.val + 32) else b

/-- The call `std::transform(s.begin(), s.end(), s.begin(), ::tolower)`. -/
def lowerCase (s : CppString) : CppString := s.map tolower

/-- Whether the characters of `str` stand at the front of `s`: the test
`traits_type::compare(first, str, n) == 0` of `std::string::find`. -/
def startsWith : CppString → CppString → Bool
  | _, [] => true
  | [], _ :: _ => false
  | x :: xs, y :: ys => decide (x = y) && startsWith xs ys

/-- The function `std::string::find(str)`: the lowest position at which `str` occurs in the
string, `none` for `npos`. The empty `str` is found at position 0. -/
def stringFind : CppString → CppString → Option Nat
  | [], str => if str.isEmpty then some 0 else none
  | x :: xs, str =>
    if startsWith (x :: xs) str then some 0 else (stringFind xs str).map (· + 1)

/-- The loop `for (auto& book : books)` of the two search functions: `results` receives a
pointer to every record that satisfies the test, in the order of the vector. The pointer to
the record at position `i` is `i`. -/
def collectMatches (test : Book → Bool) : List Book → Nat → List Nat
  | [], _ => []
  | book :: rest, i =>
    if test book then i :: collectMatches test rest (i + 1)
    else collectMatches test rest (i + 1)

/-- The function `LibraryManager::searchRecordsByTitle`. -/
def searchRecordsByTitle (books : List Book) (title : CppString) : List Nat :=
  let lowerTitle := lowerCase title
  collectMatches (fun book => (stringFind (lowerCase book.title) lowerTitle).isSome) books 0

/-- The function `LibraryManager::searchRecordsByAuthor`. -/
def searchRecordsByAuthor (books : List Book) (author : CppString) : List Nat :=
  let lowerAuthor := lowerCase author
  collectMatches (fun book => (stringFind (lowerCase book.author) lowerAuthor).isSome) books 0

/-! ## Binary persistence (`Book::writeToFile`, `Book::readFromFile`, load and save)

Integers are stored the way the machine holds them: little-endian, `int` in 4 bytes and
`size_t` in `sizeofSizeT` bytes. -/

/-- The value `sizeof(size_t)` of a 64-bit platform. -/
def sizeofSizeT : Nat := 8

/-- The `w` bytes of the object representation of the unsigned value `n`, lowest byte first. -/
def encodeLE : Nat → Nat → List Byte
  | 0, _ => []
  | w + 1, n => Fin.ofNat (n % 256) :: encodeLE w (n / 256)

/-- The unsigned value held by an object representation. -/
def decodeLE : List Byte → Nat
  | [] => 0
  | b :: bs => b.val + 256 * decodeLE bs

/-- The four bytes of an `int` (two's complement). -/
def encodeInt32 (n : Int) : List Byte := encodeLE 4 (n % 4294967296).toNat

/-- The `int` held by four bytes. -/
def decodeInt32 (bs : List Byte) : Int := wrapInt32 (decodeLE bs)

/-- The bytes appended to the file by one length-prefixed text: `size_t` size, then the
characters. -/
def writeString (s : CppString) : List Byte := encodeLE sizeofSizeT s.length ++ s

/-- The function `Book::writeToFile`: the bytes it appends to the output stream. -/
def writeToFile (book : Book) : List Byte :=
  encodeInt32 book.id
  ++ writeString book.title
  ++ writeString book.author
  ++ encodeInt32 book.year
  ++ writeString book.isbn
  ++ writeString book.category
  ++ [if book.isAvailable then 1 else 0]

/-- The function `LibraryManager::saveBooksToFile`: the content of the data file it leaves
(the file is opened for writing, which truncates it). -/
def saveBooksToFile (books : List Book) : List Byte :=
  books.foldl (fun file book => file ++ writeToFile book) []

/-- A `std::ifstream`: the bytes not yet extracted, and whether the stream is `good()`
(neither `eofbit` nor `failbit` set). -/
structure IStream where
  bytes : List Byte
  good : Bool
  deriving DecidableEq, Repr

/-- The call `in.read(p, n)`: the bytes stored through `p`, and the stream afterwards. A
stream that is not good extracts nothing; running into the end of the file stores the bytes
that were left and sets `eofbit` and `failbit`. -/
def IStream.read (s : IStream) (n : Nat) : List Byte × IStream :=
  if s.good then
    if n ≤ s.bytes.length then (s.bytes.take n, { bytes := s.bytes.drop n, good := true })
    else (s.bytes, { bytes := [], good := false })
  else ([], s)

/-- The test `file.peek() != EOF`. -/
def IStream.peekNotEOF (s : IStream) : Bool := s.good && !s.bytes.isEmpty

/-- Reading an `int` member whose value was `old`: the bytes extracted overwrite the first
bytes of the member. -/
def readInt32 (old : Int) (s : IStream) : Int × IStream :=
  let r := s.read 4
  (decodeInt32 (r.1 ++ (encodeInt32 old).drop r.1.length), r.2)

/-- Reading one length-prefixed text: `size_t size; in.read(&size, sizeof(size));
text.resize(size); in.read(&text[0], size);`. The local `size` is not initialised, so unless
all of its bytes are extracted `resize` is called with an indeterminate value: that is
undefined behaviour and the result is `none`. Memory allocation is taken to succeed. -/
def readString (s : IStream) : Option (CppString × IStream) :=
  let r := s.read sizeofSizeT
  if r.1.length = sizeofSizeT then
    let size := decodeLE r.1
    let t := r.2.read size
    some (t.1 ++ List.replicate (size - t.1.length) 0, t.2)
  else none

/-- Reading the `bool` member whose value was `old`: `in.read(&isAvailable, sizeof(bool))`.
`writeToFile` writes the bytes 0 and 1 only; for another byte the source stores the raw byte
in the `bool`, whose value is then not defined by the language, and the model reads it as
`true`. -/
def readBool (old : Bool) (s : IStream) : Bool × IStream :=
  let r := s.read 1
  match r.1 with
  | b :: _ => (decide (b ≠ 0), r.2)
  | [] => (old, r.2)

/-- The function `Book::readFromFile`, called on the object `book`. -/
def readFromFile (book : Book) (s : IStream) : Option (Book × IStream) := do
  let (id, s) := readInt32 book.id s
  let (title, s) ← readString s
  let (author, s) ← readString s
  let (year, s) := readInt32 book.year s
  let (isbn, s) ← readString s
  let (category, s) ← readString s
  let (isAvailable, s) := readBool book.isAvailable s
  pure ({ id := id, title := title, author := author, year := year, isbn := isbn,
          category := category, isAvailable := isAvailable }, s)

/-- The loop `while (file.peek() != EOF)` of `loadBooksFromFile`; `rounds` bounds the number
of iterations. -/
def loadLoop : Nat → IStream → List Book → Option (List Book)
  | 0, _, _ => none
  | rounds + 1, s, books =>
    if s.peekNotEOF then
      match readFromFile Book.default s with
      | none => none
      | some (book, s) => loadLoop rounds s (if s.good then books ++ [book] else books)
    else some books

/-- The function `LibraryManager::loadBooksFromFile` on a data file that exists: the vector it
builds, or `none` when the run has undefined behaviour. An iteration that leaves the stream
good has extracted at least one byte, so one round per byte and one more are enough. -/
def loadBooksFromFile (file : List Byte) : Option (List Book) :=
  loadLoop (file.length + 1) { bytes := file, good := true } []

/-- The values a `Book` object can hold: `id` and `year` fit an `int`, and the size of each
text fits a `size_t`. -/
def Book.Representable (b : Book) : Prop :=
  (INT_MIN ≤ b.id ∧ b.id ≤ INT_MAX) ∧ (INT_MIN ≤ b.year ∧ b.year ≤ INT_MAX) ∧
  b.title.length < 256 ^ sizeofSizeT ∧ b.author.length < 256 ^ sizeofSizeT ∧
  b.isbn.length < 256 ^ sizeofSizeT ∧ b.category.length < 256 ^ sizeofSizeT

instance (b : Book) : Decidable b.Representable := by
  unfold Book.Representable; infer_instance

/-! ## Counts (`LibraryManager.h`, `LibraryManager.cpp`) -/

/-- The function `LibraryManager::getTotalBooks`: `books.size()` converted to `int`. -/
def getTotalBooks (books : List Book) : Int := wrapInt32 books.length

/-- The function `LibraryManager::getAvailableBooks`: the result of `std::count_if` with the
test `getAvailability()`, converted to `int`. -/
def getAvailableBooks (books : List Book) : Int :=
  wrapInt32 (books.countP fun book => book.isAvailable)

/-- The function `LibraryManager::getBorrowedBooks`: `books.size() - getAvailableBooks()` is
computed in `size_t`, to which the `int` is converted, and the difference is converted to
`int`. -/
def getBorrowedBooks (books : List Book) : Int :=
  wrapInt32 (((books.length : Int) - getAvailableBooks books) % 2 ^ (8 * sizeofSizeT))

/-! ## CSV export (`Book.cpp`, `LibraryManager.cpp`) -/

/-- The character of the decimal digit `d`. -/
def digitByte (d : Nat) : Byte := Fin.ofNat (48 + d % 10)

/-- The decimal digits of `n` put in front of `acc`, the last digit first; `fuel` bounds the
number of digits. -/
def digitsAux : Nat → Nat → CppString → CppString
  | 0, _, acc => acc
  | fuel + 1, n, acc =>
    if n < 10 then digitByte n :: acc else digitsAux fuel (n / 10) (digitByte n :: acc)

/-- The decimal digits of a natural number. -/
def natDigits (n : Nat) : CppString := digitsAux (n + 1) n []

/-- What `oss << n` inserts for an `int` in the "C" locale: the decimal digits, after a minus
sign for a negative number. -/
def decimal (n : Int) : CppString :=
  if n < 0 then 45 :: natDigits n.natAbs else natDigits n.natAbs

/-- The number that a sequence of decimal digits denotes. -/
def decimalValue (s : CppString) : Nat := s.foldl (fun acc b => 10 * acc + (b.val - 48)) 0

/-- The function `Book::toCSV`. -/
def toCSV (b : Book) : CppString :=
  decimal b.id ++ lit "," ++ b.title ++ lit "," ++ b.author ++ lit "," ++ decimal b.year
    ++ lit "," ++ b.isbn ++ lit "," ++ b.category ++ lit ","
    ++ (if b.isAvailable then lit "Available" else lit "Borrowed")

/-- The function `LibraryManager::exportToCSV`: the value returned and the characters
inserted into the file stream, `isOpen` telling whether the file could be created. -/
def exportToCSV (books : List Book) (isOpen : Bool) : Bool × CppString :=
  if !isOpen then (false, [])
  else
    (true, books.foldl (fun file book => file ++ toCSV book ++ lit "\n")
      (lit "ID,Title,Author,Year,ISBN,Category,Status\n"))

/-- The number of commas in a text. -/
def commas (s : CppString) : Nat := s.count 44

/-! ## The ISBN pattern as a regular expression (`LibraryManager.cpp`) -/

/-- The syntax the ISBN pattern is written with: a character class, a counted repetition
`r{min,max}` and an alternative `r|s`. -/
inductive Regex where
  | cls (p : Byte → Bool)
  | rep (r : Regex) (min max : Nat)
  | alt (r s : Regex)

/-- The remainders of `s` after `min` to `max` matches of a pattern one after another, where
`step` gives the remainders after one match. -/
def repeatFrom (step : CppString → List CppString) : Nat → Nat → CppString → List CppString
  | 0, min, s => if min = 0 then [s] else []
  | max + 1, min, s =>
    (if min = 0 then [s] else []) ++ (step s).flatMap (repeatFrom step max (min - 1))

/-- The remainders of `s` after each way in which a pattern matches at the start of `s`. -/
def Regex.remainders : Regex → CppString → List CppString
  | .cls p, s =>
    match s with
    | [] => []
    | c :: rest => if p c then [rest] else []
  | .rep r min max, s => repeatFrom r.remainders max min s
  | .alt r t, s => r.remainders s ++ t.remainders s

/-- The function `std::regex_match`: the pattern matches the whole of `s`. -/
def regexMatch (r : Regex) (s : CppString) : Bool := (r.remainders s).any List.isEmpty

/-- The pattern `^(?:\d{10}|\d{13}|[\d-]{13,17})$`; the anchors hold at the two ends of the
string, where `std::regex_match` starts and ends the match. -/
def isbnPattern : Regex :=
  .alt (.rep (.cls isDigit) 10 10)
    (.alt (.rep (.cls isDigit) 13 13) (.rep (.cls isDigitOrHyphen) 13 17))

/-! ## The algorithm `std::sort` (libstdc++, `bits/stl_algo.h` and `bits/stl_heap.h`)

The three sort operations of the store call `std::sort` with a comparison lambda. The
algorithm is the introsort of the GNU C++ library, the library of the `g++` named in the
build line of the source. A random-access range `[first, last)` is a `List`, an iterator is
an index into it, and `comp` is the comparison. Dereferencing an iterator outside the range
is undefined behaviour: the function then returns `none`. -/

section StdSort

variable {α : Type}

/-- The constant `_S_threshold`. -/
def S_threshold : Nat := 16

/-- The assignment `*(first + i) = x`. -/
def assign (v : List α) (i : Nat) (x : α) : Option (List α) :=
  if i < v.length then some (v.set i x) else none

/-- The call `std::iter_swap(first + i, first + j)`. -/
def iterSwap (v : List α) (i j : Nat) : Option (List α) := do
  let x ← v[i]?
  let y ← v[j]?
  pure ((v.set i y).set j x)

/-- The function `std::__move_median_to_first`. -/
def moveMedianToFirst (comp : α → α → Bool) (v : List α) (result a b c : Nat) :
    Option (List α) := do
  let va ← v[a]?
  let vb ← v[b]?
  let vc ← v[c]?
  if comp va vb then
    if comp vb vc then iterSwap v result b
    else if comp va vc then iterSwap v result c
    else iterSwap v result a
  else if comp va vc then iterSwap v result a
  else if comp vb vc then iterSwap v result c
  else iterSwap v result b

/-- The loop `while (comp(first, pivot)) ++first;` over the elements from `first` on: the
iterator at which it stops. -/
def scanUp (comp : α → α → Bool) (pivot : α) : List α → Nat → Option Nat
  | [], _ => none
  | x :: rest, first => if comp x pivot then scanUp comp pivot rest (first + 1) else some first

/-- The loop `while (comp(pivot, last)) --last;`: the iterator at which it stops. -/
def scanDown (comp : α → α → Bool) (pivot : α) (v : List α) : Nat → Option Nat
  | 0 => do
    let x ← v[0]?
    if comp pivot x then none else pure 0
  | last + 1 => do
    let x ← v[last + 1]?
    if comp pivot x then scanDown comp pivot v last else pure (last + 1)

/-- The function `std::__unguarded_partition`: the cut and the range as it leaves it. Every
round lowers `last`, so `rounds = last` rounds are enough. -/
def unguardedPartition (comp : α → α → Bool) :
    Nat → List α → Nat → Nat → Nat → Option (Nat × List α)
  | 0, _, _, _, _ => none
  | rounds + 1, v, first, last, pivot => do
    let p ← v[pivot]?
    let first ← scanUp comp p (v.drop first) first
    if last = 0 then none
    else
      let last ← scanDown comp p v (last - 1)
      if !(decide (first < last)) then pure (first, v)
      else
        let v ← iterSwap v first last
        unguardedPartition comp rounds v (first + 1) last pivot

/-- The function `std::__unguarded_partition_pivot` on the range `v`. -/
def unguardedPartitionPivot (comp : α → α → Bool) (v : List α) : Option (Nat × List α) := do
  let mid := v.length / 2
  let v ← moveMedianToFirst comp v 0 1 mid (v.length - 1)
  unguardedPartition comp v.length v 1 v.length 0

/-- The function `std::__push_heap`. Every round lowers `holeIndex`, so `rounds = holeIndex`
rounds are enough. For `holeIndex = 0` the signed `(holeIndex - 1) / 2` of the source is 0,
as is the truncated subtraction here. -/
def pushHeap (comp : α → α → Bool) : Nat → List α → Nat → Nat → α → Option (List α)
  | 0, v, holeIndex, _, value => assign v holeIndex value
  | rounds + 1, v, holeIndex, topIndex, value =>
    let parent := (holeIndex - 1) / 2
    if holeIndex > topIndex then do
      let vp ← v[parent]?
      if comp vp value then do
        let v ← assign v holeIndex vp
        pushHeap comp rounds v parent topIndex value
      else assign v holeIndex value
    else assign v holeIndex value

/-- The first loop of `std::__adjust_heap`, `while (secondChild < (len - 1) / 2)`: the range
and `holeIndex` (equal to `secondChild`) when it ends. -/
def adjustHeapDown (comp : α → α → Bool) (len : Nat) : Nat → List α → Nat → Option (List α × Nat)
  | 0, _, _ => none
  | rounds + 1, v, holeIndex =>
    if holeIndex < (len - 1) / 2 then do
      let secondChild := 2 * (holeIndex + 1)
      let right ← v[secondChild]?
      let left ← v[secondChild - 1]?
      let secondChild := if comp right left then secondChild - 1 else secondChild
      let x ← v[secondChild]?
      let v ← assign v holeIndex x
      adjustHeapDown comp len rounds v secondChild
    else pure (v, holeIndex)

/-- The function `std::__adjust_heap`. It is only called with `len` at least 1, where the
truncated subtractions `len - 1` and `len - 2` (read for an even `len` only) are the signed
ones of the source. -/
def adjustHeap (comp : α → α → Bool) (v : List α) (holeIndex len : Nat) (value : α) :
    Option (List α) := do
  let topIndex := holeIndex
  let (v, secondChild) ← adjustHeapDown comp len (len + 1) v holeIndex
  if len % 2 = 0 ∧ secondChild = (len - 2) / 2 then do
    let x ← v[2 * (secondChild + 1) - 1]?
    let v ← assign v secondChild x
    pushHeap comp (2 * (secondChild + 1) - 1) v (2 * (secondChild + 1) - 1) topIndex value
  else pushHeap comp secondChild v secondChild topIndex value

/-- The loop of `std::__make_heap`, from `parent` down to 0. -/
def makeHeapLoop (comp : α → α → Bool) (len : Nat) : Nat → List α → Option (List α)
  | 0, v => do
    let value ← v[0]?
    adjustHeap comp v 0 len value
  | parent + 1, v => do
    let value ← v[parent + 1]?
    let v ← adjustHeap comp v (parent + 1) len value
    makeHeapLoop comp len parent v

/-- The function `std::__make_heap` on the range `v`. -/
def makeHeap (comp : α → α → Bool) (v : List α) : Option (List α) :=
  if v.length < 2 then some v else makeHeapLoop comp v.length ((v.length - 2) / 2) v

/-- The function `std::__pop_heap(first, last, result)` with `result = last`. -/
def popHeap (comp : α → α → Bool) (v : List α) (last : Nat) : Option (List α) := do
  let value ← v[last]?
  let top ← v[0]?
  let v ← assign v last top
  adjustHeap comp v 0 last value

/-- The function `std::__sort_heap` on the heap `[first, first + last)`. -/
def sortHeap (comp : α → α → Bool) : Nat → List α → Option (List α)
  | 0, v => some v
  | last + 1, v =>
    if last + 1 > 1 then do
      let v ← popHeap comp v last
      sortHeap comp last v
    else some v

/-- The function `std::__partial_sort(first, last, last)`: `__heap_select` makes a heap of
the whole range and has no element left to select from, then `__sort_heap` sorts it. -/
def partialSort (comp : α → α → Bool) (v : List α) : Option (List α) := do
  let v ← makeHeap comp v
  sortHeap comp v.length v

/-- The function `std::__introsort_loop` on the range `v`: the range as it leaves it. The
recursive call works on `[cut, last)` and the next round of the loop on `[first, cut)`. -/
def introsortLoop (comp : α → α → Bool) : Nat → List α → Option (List α)
  | 0, v => if v.length > S_threshold then partialSort comp v else some v
  | depthLimit + 1, v =>
    if v.length > S_threshold then do
      let (cut, v) ← unguardedPartitionPivot comp v
      let right ← introsortLoop comp depthLimit (v.drop cut)
      let left ← introsortLoop comp depthLimit (v.take cut)
      pure (left ++ right)
    else some v

/-- The loop of `std::__unguarded_linear_insert`, entered with `val` taken out of position
`last`: while `comp(val, next)` the element at `next = last - 1` moves up one place. -/
def unguardedLinearInsert (comp : α → α → Bool) (val : α) : Nat → List α → Option (List α)
  | 0, _ => none
  | next + 1, v => do
    let x ← v[next]?
    if comp val x then do
      let v ← assign v (next + 1) x
      unguardedLinearInsert comp val next v
    else assign v (next + 1) val

/-- One round of the loop of `std::__insertion_sort`, for the iterator `i`. -/
def insertionStep (comp : α → α → Bool) (v : List α) (i : Nat) : Option (List α) := do
  let val ← v[i]?
  let front ← v[0]?
  if comp val front then pure (val :: (v.take i ++ v.drop (i + 1)))
  else unguardedLinearInsert comp val i v

/-- The loop `for (i = ...; i != last; ++i)` of `std::__insertion_sort`, with `count` rounds
left. -/
def insertionLoop (comp : α → α → Bool) : Nat → Nat → List α → Option (List α)
  | 0, _, v => some v
  | count + 1, i, v => do
    let v ← insertionStep comp v i
    insertionLoop comp count (i + 1) v

/-- The function `std::__insertion_sort` on `[first, first + last)`. -/
def insertionSort (comp : α → α → Bool) (v : List α) (last : Nat) : Option (List α) :=
  if last = 0 then some v else insertionLoop comp (last - 1) 1 v

/-- The function `std::__unguarded_insertion_sort` on `[first + i, first + i + count)`. -/
def unguardedInsertionSort (comp : α → α → Bool) : Nat → Nat → List α → Option (List α)
  | 0, _, v => some v
  | count + 1, i, v => do
    let val ← v[i]?
    let v ← unguardedLinearInsert comp val i v
    unguardedInsertionSort comp count (i + 1) v

/-- The function `std::__final_insertion_sort`. -/
def finalInsertionSort (comp : α → α → Bool) (v : List α) : Option (List α) :=
  if v.length > S_threshold then do
    let v ← insertionSort comp v S_threshold
    unguardedInsertionSort comp (v.length - S_threshold) S_threshold v
  else insertionSort comp v v.length

/-- The function `std::__lg`: the floor of the binary logarithm. -/
def lg : Nat → Nat → Nat
  | 0, _ => 0
  | rounds + 1, n => if n ≥ 2 then lg rounds (n / 2) + 1 else 0

/-- The function `std::sort(first, last, comp)`. -/
def stdSort (comp : α → α → Bool) (v : List α) : Option (List α) :=
  if v.length = 0 then some v
  else do
    let v ← introsortLoop comp (lg v.length v.length * 2) v
    finalInsertionSort comp v

end StdSort

/-! ## LibraryManager: the sort operations -/

/-- The lexicographic comparison `a < b` of two `std::string`s, byte by byte. -/
def stringLess : CppString → CppString → Bool
  | _, [] => false
  | [], _ :: _ => true
  | x :: xs, y :: ys => if x < y then true else if y < x then false else stringLess xs ys

/-- The function `LibraryManager::sortByTitle`: `none` if `std::sort` has undefined
behaviour. -/
def sortByTitle (books : List Book) : Option (List Book) :=
  stdSort (fun a b => stringLess a.title b.title) books

/-- The function `LibraryManager::sortByAuthor`. -/
def sortByAuthor (books : List Book) : Option (List Book) :=
  stdSort (fun a b => stringLess a.author b.author) books

/-- The function `LibraryManager::sortByYear`. -/
def sortByYear (books : List Book) : Option (List Book) :=
  stdSort (fun a b => decide (a.year < b.year)) books

/-! ## What the sort operations are expected to establish -/

/-- The requirement of `std::sort` on `comp`: a strict weak ordering. -/
structure StrictWeakOrder {α : Type} (comp : α → α → Bool) : Prop where
  irrefl : ∀ a, comp a a = false
  trans : ∀ a b c, comp a b = true → comp b c = true → comp a c = true
  negTrans : ∀ a b c, comp a b = false → comp b c = false → comp a c = false

/-- A range is sorted with respect to `comp` when no element compares less than an element
that stands before it. -/
def SortedBy {α : Type} (comp : α → α → Bool) (v : List α) : Prop :=
  v.Pairwise (fun a b => comp b a = false)

/-- Every element from position `S_threshold` on has an element in front of it that it is not
less than: the sentinel that `__unguarded_insertion_sort` relies on. -/
def Guarded {α : Type} (comp : α → α → Bool) (v : List α) : Prop :=
  ∀ i x, v[i]? = some x → S_threshold ≤ i → ∃ j y, j < i ∧ v[j]? = some y ∧ comp x y = false

/-- The positions of the subtree of the implicit binary heap that is rooted at `top`. -/
inductive Desc (top : Nat) : Nat → Prop where
  | root : Desc top top
  | left {k : Nat} : Desc top k → Desc top (2 * k + 1)
  | right {k : Nat} : Desc top k → Desc top (2 * k + 2)

/-- The heap property of `[first, first + len)` for every position whose parent is at `top` or
behind it: the parent is not less than the child. -/
def HeapFrom {α : Type} (comp : α → α → Bool) (v : List α) (top len : Nat) : Prop :=
  ∀ i x y, 0 < i → i < len → top ≤ (i - 1) / 2 → v[i]? = some x → v[(i - 1) / 2]? = some y →
    comp y x = false

/-- The state of `__adjust_heap` and `__push_heap` while `value` is held aside and the
position `hole` is free: the range `v` came from `v0` with the hole at `top`. -/
structure HoleInv {α : Type} (comp : α → α → Bool) (v0 : List α) (top len : Nat) (value : α)
    (v : List α) (hole : Nat) : Prop where
  length_eq : v.length = v0.length
  desc : Desc top hole
  lt : hole < len
  pairs : ∀ i x y, 0 < i → i < len → top ≤ (i - 1) / 2 → i ≠ hole → (i - 1) / 2 ≠ hole →
    v[i]? = some x → v[(i - 1) / 2]? = some y → comp y x = false
  above : hole ≠ top → ∀ c x y, 0 < c → c < len → (c - 1) / 2 = hole → v[c]? = some x →
    v[(hole - 1) / 2]? = some y → comp y x = false
  perm : (v.set hole value).Perm (v0.set top value)
  frame : ∀ i, len ≤ i → v[i]? = v0[i]?

/-- A class of elements none of which is less than another, such as the records with one
given title under the comparison of titles. -/
def EquivClass {α : Type} (comp : α → α → Bool) (q : α → Bool) : Prop :=
  ∀ a b, q a = true → q b = true → comp a b = false

/-- Records with equal titles stand in `after` in the order in which they stand in
`before`: for every title, the records that carry it form the same sequence. -/
def KeepsOrderOfEqualTitles (before after : List Book) : Prop :=
  ∀ t : CppString,
    after.filter (fun b => decide (b.title = t)) = before.filter (fun b => decide (b.title = t))

/-- What an update with the patch `newTitle`, `newAuthor`, `newYear`, `newIsbn`,
`newCategory` may do to the record `old`, leaving `new`: the id and the lending flag are
kept, a text that is absent from the patch (empty) is kept and a title, author or category
that is present replaces the old one, the year is kept when the patch year is 0, and the
ISBN is kept when the patch ISBN is empty. -/
def KeepsAbsentFields (newTitle newAuthor : CppString) (newYear : Int)
    (newIsbn newCategory : CppString) (old new : Book) : Prop :=
  new.id = old.id ∧ new.isAvailable = old.isAvailable
  ∧ new.title = (if newTitle = [] then old.title else newTitle)
  ∧ new.author = (if newAuthor = [] then old.author else newAuthor)
  ∧ new.category = (if newCategory = [] then old.category else newCategory)
  ∧ (newYear = 0 → new.year = old.year)
  ∧ (newIsbn = [] → new.isbn = old.isbn)


/-- The constraints on the fields of a record: a title and an author that are not empty, a
year from 1000 to 2030 and an ISBN that `isValidISBN` accepts. -/
def Book.Valid (b : Book) : Prop :=
  b.title ≠ [] ∧ b.author ≠ [] ∧ (1000 ≤ b.year ∧ b.year ≤ 2030) ∧ isValidISBN b.isbn = true

instance (b : Book) : Decidable b.Valid := by
  unfold Book.Valid; infer_instance

/-- The lending flags after one operation, compared with the flags before: `after` holds the
records of `before` with the record at one position replaced by a record that differs from
it in the lending flag only, which went from `old` to `new`. -/
def FlagMoved (old new : Bool) (before after : List Book) : Prop :=
  ∃ pre b post, before = pre ++ b :: post ∧ b.isAvailable = old
    ∧ after = pre ++ { id := b.id, title := b.title, author := b.author, year := b.year,
                       isbn := b.isbn, category := b.category, isAvailable := new } :: post
/-! ## Records used in examples -/

/-- A record with the given id, for use in examples: "Emma" by Austen, ISBN-10 `1234567890`. -/
def emma (id : Int) : Book :=
  { id := id, title := lit "Emma", author := lit "Austen", year := 1815,
    isbn := lit "1234567890", category := [], isAvailable := true }

/-- A record with the given id, for use in examples: "Dune" by Herbert. -/
def dune (id : Int) : Book :=
  { id := id, title := lit "Dune", author := lit "Herbert", year := 1965,
    isbn := lit "9780441013593", category := lit "SciFi", isAvailable := true }

/-- Seventeen copies of one title, for use in examples: ids 1 to 17, years 1990 to 2006, and
ISBN-13 values that differ in the last two digits. -/
def shelf : List Book :=
  (List.range 17).map fun (i : Nat) =>
    { id := (i : Int) + 1, title := lit "Dune", author := lit "Herbert", year := 1990 + (i : Int),
      isbn := lit "97804410135" ++ [Fin.ofNat (48 + i / 10), Fin.ofNat (48 + i % 10)],
      category := lit "SciFi", isAvailable := true }

theorem findIf_eq_none {α : Type} (p : α → Bool) (l : List α) :
    findIf p l = none ↔ ∀ x ∈ l, p x = false := by
  induction l with
  | nil => simp [findIf]
  | cons x xs ih =>
    by_cases hx : p x = true
    · simp [findIf, hx]
    · simp only [Bool.not_eq_true] at hx
      simp [findIf, hx, ih]

theorem findIf_eq_some {α : Type} (p : α → Bool) (l : List α) (i : Nat) (h : findIf p l = some i) :
    ∃ pre x post, l = pre ++ x :: post ∧ pre.length = i ∧ p x = true ∧ ∀ y ∈ pre, p y = false := by
  induction l generalizing i with
  | nil => simp [findIf] at h
  | cons x xs ih =>
    by_cases hx : p x = true
    · simp [findIf, hx] at h
      exact ⟨[], x, xs, by simp, by simpa using h, hx, by simp⟩
    · simp only [Bool.not_eq_true] at hx
      simp only [findIf, hx, Bool.false_eq_true, if_false, Option.map_eq_some'] at h
      obtain ⟨j, hj, rfl⟩ := h
      obtain ⟨pre, y, post, rfl, hlen, hy, hpre⟩ := ih j hj
      refine ⟨x :: pre, y, post, by simp, by simp [hlen], hy, ?_⟩
      intro z hz
      rcases List.mem_cons.mp hz with rfl | hz
      · exact hx
      · exact hpre z hz

theorem findIf_append_cons {α : Type} (p : α → Bool) (pre : List α) (x : α) (post : List α)
    (hpre : ∀ y ∈ pre, p y = false) (hx : p x = true) :
    findIf p (pre ++ x :: post) = some pre.length := by
  induction pre with
  | nil => simp [findIf, hx]
  | cons y ys ih =>
    have hy : p y = false := hpre y (List.mem_cons_self _ _)
    have := ih (fun z hz => hpre z (List.mem_cons_of_mem _ hz))
    simp [findIf, hy, this]

theorem exists_first {α : Type} (p : α → Bool) (l : List α) (h : ∃ x ∈ l, p x = true) :
    ∃ pre x post, l = pre ++ x :: post ∧ p x = true ∧ ∀ y ∈ pre, p y = false := by
  cases hf : findIf p l with
  | none =>
    obtain ⟨x, hx, hpx⟩ := h
    rw [findIf_eq_none] at hf
    simp [hf x hx] at hpx
  | some i =>
    obtain ⟨pre, x, post, h1, _, h3, h4⟩ := findIf_eq_some p l i hf
    exact ⟨pre, x, post, h1, h3, h4⟩

theorem modify_append_cons {α : Type} (f : α → α) (pre : List α) (x : α) (post : List α) :
    (pre ++ x :: post).modify f pre.length = pre ++ f x :: post := by
  induction pre with
  | nil => simp
  | cons y ys ih => simp [ih]

theorem getD_append_cons {α : Type} (pre : List α) (x : α) (post : List α) (d : α) :
    (pre ++ x :: post).getD pre.length d = x := by
  induction pre with
  | nil => simp
  | cons y ys ih => simpa using ih

theorem eraseIdx_append_cons {α : Type} (pre : List α) (x : α) (post : List α) :
    (pre ++ x :: post).eraseIdx pre.length = pre ++ post := by
  induction pre with
  | nil => simp
  | cons y ys ih => simp [ih]

/-! ## Lemmas on `generateNextId` -/

/-- The scan of `generateNextId`, started from `m`. -/
theorem foldl_max_spec (books : List Book) (m : Int) :
    let r := books.foldl (fun maxId book => if book.id > maxId then book.id else maxId) m
    m ≤ r ∧ (∀ b ∈ books, b.id ≤ r) ∧ (r = m ∨ ∃ b ∈ books, b.id = r) := by
  induction books generalizing m with
  | nil => simp
  | cons b bs ih =>
    simp only [List.foldl_cons]
    by_cases hb : b.id > m
    · simp only [hb, if_true]
      obtain ⟨h1, h2, h3⟩ := ih b.id
      refine ⟨by omega, ?_, ?_⟩
      · intro x hx
        rcases List.mem_cons.mp hx with rfl | hx
        · exact h1
        · exact h2 x hx
      · rcases h3 with h3 | ⟨x, hx, hx2⟩
        · exact Or.inr ⟨b, List.mem_cons_self _ _, h3.symm⟩
        · exact Or.inr ⟨x, List.mem_cons_of_mem _ hx, hx2⟩
    · simp only [hb, if_false]
      obtain ⟨h1, h2, h3⟩ := ih m
      refine ⟨h1, ?_, ?_⟩
      · intro x hx
        rcases List.mem_cons.mp hx with rfl | hx
        · omega
        · exact h2 x hx
      · rcases h3 with h3 | ⟨x, hx, hx2⟩
        · exact Or.inl h3
        · exact Or.inr ⟨x, List.mem_cons_of_mem _ hx, hx2⟩

theorem wrapInt32_of_range (n : Int) (h1 : -2147483648 ≤ n) (h2 : n ≤ 2147483647) :
    wrapInt32 n = n := by
  unfold wrapInt32; omega

/-- Below `INT_MAX` the generated id exceeds every id of the vector, is 1 when no id is
positive and otherwise follows an id of the vector. -/
theorem generateNextId_spec (books : List Book) (h : ∀ b ∈ books, b.id < INT_MAX) :
    (∀ b ∈ books, b.id < generateNextId books) ∧
    1 ≤ generateNextId books ∧
    ((∀ b ∈ books, b.id ≤ 0) → generateNextId books = 1) ∧
    ((∃ b ∈ books, 0 ≤ b.id) → ∃ b ∈ books, generateNextId books = b.id + 1) := by
  unfold INT_MAX at h
  cases books with
  | nil => simp [generateNextId]
  | cons b bs =>
    obtain ⟨h1, h2, h3⟩ := foldl_max_spec (b :: bs) 0
    have hr : (b :: bs).foldl (fun maxId book => if book.id > maxId then book.id else maxId) 0
        < 2147483647 := by
      rcases h3 with h3 | ⟨x, hx, hx2⟩
      · omega
      · have := h x hx; omega
    have hgen : generateNextId (b :: bs)
        = (b :: bs).foldl (fun maxId book => if book.id > maxId then book.id else maxId) 0 + 1 := by
      simp only [generateNextId, List.isEmpty_cons, Bool.false_eq_true, if_false]
      exact wrapInt32_of_range _ (by omega) (by omega)
    rw [hgen]
    refine ⟨fun x hx => by have := h2 x hx; omega, by omega, ?_, ?_⟩
    · intro hneg
      rcases h3 with h3 | ⟨x, hx, hx2⟩
      · omega
      · have := hneg x hx; omega
    · rintro ⟨x, hx, hx0⟩
      rcases h3 with h3 | ⟨y, hy, hy2⟩
      · have := h2 x hx
        exact ⟨x, hx, by omega⟩
      · exact ⟨y, hy, by omega⟩

/-! ## Lemmas on `addRecord` -/

/-- The five tests of `addRecord`, one after the other. -/
theorem addRecord_eq (books : List Book) (title author : CppString) (year : Int)
    (isbn category : CppString) :
    addRecord books title author year isbn category =
      (if title = [] then (AddResult.emptyTitleOrAuthor, books)
       else if author = [] then (AddResult.emptyTitleOrAuthor, books)
       else if ¬ (1000 ≤ year ∧ year ≤ 2030) then (AddResult.invalidYear, books)
       else if isValidISBN isbn = false then (AddResult.invalidIsbn, books)
       else if ∃ b ∈ books, b.isbn = isbn then (AddResult.duplicateIsbn, books)
       else (AddResult.added (generateNextId books),
             books ++ [{ id := generateNextId books, title := title, author := author,
                         year := year, isbn := isbn, category := category,
                         isAvailable := true }])) := by
  unfold addRecord
  by_cases ht : title = []
  · simp [ht]
  by_cases ha : author = []
  · simp [ht, ha]
  by_cases hy : 1000 ≤ year ∧ year ≤ 2030
  · by_cases hi : isValidISBN isbn = true
    · by_cases hd : ∃ b ∈ books, b.isbn = isbn
      · have : (books.any fun book => decide (book.isbn = isbn)) = true := by
          simpa using hd
        simp [ht, ha, hy, hi, isValidYear, hd, this]
      · have : (books.any fun book => decide (book.isbn = isbn)) = false := by
          simpa using hd
        simp [ht, ha, hy, hi, isValidYear, hd, this]
    · simp only [Bool.not_eq_true] at hi
      simp [ht, ha, hy, hi, isValidYear]
  · have hy2 : isValidYear year = false := by
      simp only [isValidYear, Bool.and_eq_false_iff, decide_eq_false_iff_not]
      omega
    simp [ht, ha, hy, hy2]

/-- A failing `addRecord` leaves the vector as it was. -/
theorem addRecord_unchanged_of_false (books : List Book) (title author : CppString) (year : Int)
    (isbn category : CppString)
    (h : (addRecord books title author year isbn category).1.returned = false) :
    (addRecord books title author year isbn category).2 = books := by
  revert h
  unfold addRecord
  split
  · simp
  split
  · simp
  split
  · simp
  split
  · simp
  · simp [AddResult.returned]

/-! ## Lemmas on sequences of requests -/

theorem generateNextId_le (books : List Book) (k : Int) (hk0 : 0 ≤ k) (hk : k < INT_MAX)
    (h : ∀ b ∈ books, b.id ≤ k) : generateNextId books ≤ k + 1 := by
  have hmax : ∀ b ∈ books, b.id < INT_MAX := fun b hb => by have := h b hb; omega
  obtain ⟨_, _, h3, h4⟩ := generateNextId_spec books hmax
  by_cases hex : ∃ b ∈ books, 0 ≤ b.id
  · obtain ⟨b, hb, hb2⟩ := h4 hex
    have := h b hb
    omega
  · have : ∀ b ∈ books, b.id ≤ 0 := by
      intro b hb
      by_contra hcon
      exact hex ⟨b, hb, by omega⟩
    rw [h3 this]; omega

theorem deleteRecord_mem (books : List Book) (id : Int) (b : Book)
    (hb : b ∈ (deleteRecord books id).2) : b ∈ books := by
  unfold deleteRecord at hb
  split at hb
  · exact (List.eraseIdx_sublist _ _).subset hb
  · exact hb

theorem addRecord_mem (books : List Book) (title author : CppString) (year : Int)
    (isbn category : CppString) (b : Book)
    (hb : b ∈ (addRecord books title author year isbn category).2) :
    b ∈ books ∨ ((addRecord books title author year isbn category).1
        = AddResult.added (generateNextId books) ∧ b.id = generateNextId books) := by
  revert hb
  unfold addRecord
  split
  · exact Or.inl
  split
  · exact Or.inl
  split
  · exact Or.inl
  split
  · exact Or.inl
  · intro hb
    simp only [List.mem_append, List.mem_singleton] at hb
    rcases hb with hb | rfl
    · exact Or.inl hb
    · exact Or.inr ⟨rfl, rfl⟩

theorem Op.apply_bound (books : List Book) (op : Op) (k : Int) (hk0 : 0 ≤ k) (hk : k < INT_MAX)
    (h : ∀ b ∈ books, b.id ≤ k) : ∀ b ∈ op.apply books, b.id ≤ k + 1 := by
  intro b hb
  cases op with
  | create title author year isbn category =>
    rcases addRecord_mem books title author year isbn category b hb with h1 | ⟨_, h2⟩
    · have := h b h1; omega
    · rw [h2]; exact generateNextId_le books k hk0 hk h
  | delete id =>
    have := h b (deleteRecord_mem books id b hb); omega

theorem runOps_bound (ops : List Op) (books : List Book) (k : Int) (hk0 : 0 ≤ k)
    (hk : k + ops.length ≤ INT_MAX) (h : ∀ b ∈ books, b.id ≤ k) :
    ∀ b ∈ runOps books ops, b.id ≤ k + ops.length := by
  induction ops generalizing books k with
  | nil => simpa [runOps] using h
  | cons op ops ih =>
    simp only [List.length_cons, Nat.cast_add, Nat.cast_one] at hk ⊢
    intro b hb
    have := ih (op.apply books) (k + 1) (by omega) (by omega)
      (Op.apply_bound books op k hk0 (by omega) h) b hb
    omega

/-! ## Lemmas on lending -/

theorem searchRecordByID_append_cons (pre : List Book) (b : Book) (post : List Book) (id : Int)
    (hb : b.id = id) (hpre : ∀ x ∈ pre, x.id ≠ id) :
    searchRecordByID (pre ++ b :: post) id = some pre.length := by
  unfold searchRecordByID
  apply findIf_append_cons
  · intro y hy; simpa using hpre y hy
  · simpa using hb

/-- The vector after `borrowBook`, when the first record with the id is `b`. -/
theorem borrowBook_append_cons (pre : List Book) (b : Book) (post : List Book) (id : Int)
    (hb : b.id = id) (hpre : ∀ x ∈ pre, x.id ≠ id) :
    borrowBook (pre ++ b :: post) id =
      if b.isAvailable then (LendResult.ok, pre ++ { b with isAvailable := false } :: post)
      else (LendResult.alreadyBorrowed, pre ++ b :: post) := by
  unfold borrowBook
  rw [searchRecordByID_append_cons pre b post id hb hpre]
  simp only [getD_append_cons, modify_append_cons]
  cases b.isAvailable <;> simp

/-- The vector after `returnBook`, when the first record with the id is `b`. -/
theorem returnBook_append_cons (pre : List Book) (b : Book) (post : List Book) (id : Int)
    (hb : b.id = id) (hpre : ∀ x ∈ pre, x.id ≠ id) :
    returnBook (pre ++ b :: post) id =
      if b.isAvailable then (LendResult.alreadyAvailable, pre ++ b :: post)
      else (LendResult.ok, pre ++ { b with isAvailable := true } :: post) := by
  unfold returnBook
  rw [searchRecordByID_append_cons pre b post id hb hpre]
  simp only [getD_append_cons, modify_append_cons]

theorem exists_first_id (books : List Book) (id : Int) (h : ∃ b ∈ books, b.id = id) :
    ∃ pre b post, books = pre ++ b :: post ∧ b.id = id ∧ ∀ x ∈ pre, x.id ≠ id := by
  obtain ⟨pre, b, post, h1, h2, h3⟩ :=
    exists_first (fun book : Book => decide (book.id = id)) books (by simpa using h)
  exact ⟨pre, b, post, h1, by simpa using h2, fun x hx => by simpa using h3 x hx⟩

/-! ## Lemmas on the binary file format -/

theorem encodeLE_length (w n : Nat) : (encodeLE w n).length = w := by
  induction w generalizing n with
  | zero => rfl
  | succ w ih => simp [encodeLE, ih]

theorem decodeLE_encodeLE (w n : Nat) : decodeLE (encodeLE w n) = n % 256 ^ w := by
  induction w generalizing n with
  | zero => simp [encodeLE, decodeLE, Nat.mod_one]
  | succ w ih =>
    simp only [encodeLE, decodeLE, ih]
    have h1 : (Fin.ofNat (n % 256) : Byte).val = n % 256 := by
      simp [Fin.ofNat]
    rw [h1, pow_succ, Nat.mul_comm (256 ^ w) 256, Nat.mod_mul]

theorem decodeLE_encodeLE_of_lt (w n : Nat) (h : n < 256 ^ w) :
    decodeLE (encodeLE w n) = n := by
  rw [decodeLE_encodeLE, Nat.mod_eq_of_lt h]

theorem encodeInt32_length (n : Int) : (encodeInt32 n).length = 4 := encodeLE_length 4 _

theorem decodeInt32_encodeInt32 (n : Int) (h1 : INT_MIN ≤ n) (h2 : n ≤ INT_MAX) :
    decodeInt32 (encodeInt32 n) = n := by
  unfold INT_MIN at h1
  unfold INT_MAX at h2
  unfold decodeInt32 encodeInt32
  rw [decodeLE_encodeLE]
  unfold wrapInt32
  have h256 : (256 : Nat) ^ 4 = 4294967296 := by norm_num
  rw [h256]
  omega

theorem IStream.read_append (xs rest : List Byte) :
    IStream.read { bytes := xs ++ rest, good := true } xs.length
      = (xs, { bytes := rest, good := true }) := by
  simp [IStream.read]

theorem readInt32_append (old n : Int) (rest : List Byte) (h1 : INT_MIN ≤ n) (h2 : n ≤ INT_MAX) :
    readInt32 old { bytes := encodeInt32 n ++ rest, good := true }
      = (n, { bytes := rest, good := true }) := by
  have h := IStream.read_append (encodeInt32 n) rest
  rw [encodeInt32_length] at h
  have hd : List.drop 4 (encodeInt32 old) = [] :=
    List.drop_of_length_le (by rw [encodeInt32_length])
  simp only [readInt32, h, encodeInt32_length, hd, List.append_nil]
  rw [decodeInt32_encodeInt32 n h1 h2]

theorem readString_append (t : CppString) (rest : List Byte) (ht : t.length < 256 ^ sizeofSizeT) :
    readString { bytes := writeString t ++ rest, good := true }
      = some (t, { bytes := rest, good := true }) := by
  have h := IStream.read_append (encodeLE sizeofSizeT t.length) (t ++ rest)
  rw [encodeLE_length] at h
  unfold readString writeString
  rw [List.append_assoc, h]
  simp only [encodeLE_length, if_true, decodeLE_encodeLE_of_lt _ _ ht, IStream.read_append]
  simp

theorem readBool_append (old v : Bool) (rest : List Byte) :
    readBool old { bytes := (if v then (1 : Byte) else 0) :: rest, good := true }
      = (v, { bytes := rest, good := true }) := by
  cases v <;> simp [readBool, IStream.read]

theorem readFromFile_writeToFile (old b : Book) (rest : List Byte) (hb : b.Representable) :
    readFromFile old { bytes := writeToFile b ++ rest, good := true }
      = some (b, { bytes := rest, good := true }) := by
  obtain ⟨⟨hi1, hi2⟩, ⟨hy1, hy2⟩, ht, ha, hs, hc⟩ := hb
  unfold readFromFile writeToFile
  simp only [List.append_assoc, List.singleton_append]
  rw [readInt32_append _ _ _ hi1 hi2]
  simp only [bind, Option.bind, pure]
  rw [readString_append _ _ ht]
  simp only
  rw [readString_append _ _ ha]
  simp only
  rw [readInt32_append _ _ _ hy1 hy2]
  simp only
  rw [readString_append _ _ hs]
  simp only
  rw [readString_append _ _ hc]
  simp only
  rw [readBool_append]

theorem writeToFile_ne_nil (b : Book) : writeToFile b ≠ [] := by
  simp [writeToFile]

theorem saveBooksToFile_foldl (books : List Book) (init : List Byte) :
    books.foldl (fun file book => file ++ writeToFile book) init
      = init ++ (books.map writeToFile).flatten := by
  induction books generalizing init with
  | nil => simp
  | cons b bs ih => simp [ih]

theorem saveBooksToFile_eq (books : List Book) :
    saveBooksToFile books = (books.map writeToFile).flatten := by
  simp [saveBooksToFile, saveBooksToFile_foldl]

theorem length_le_length_join_writeToFile (books : List Book) :
    books.length ≤ (books.map writeToFile).flatten.length := by
  induction books with
  | nil => simp
  | cons b bs ih =>
    have : 0 < (writeToFile b).length := List.length_pos.mpr (writeToFile_ne_nil b)
    simp only [List.map_cons, List.flatten_cons, List.length_append, List.length_cons]
    omega

theorem loadLoop_saved (books acc : List Book) (rounds : Nat) (hr : books.length < rounds)
    (hb : ∀ b ∈ books, b.Representable) :
    loadLoop rounds { bytes := (books.map writeToFile).flatten, good := true } acc
      = some (acc ++ books) := by
  induction books generalizing acc rounds with
  | nil =>
    cases rounds with
    | zero => simp at hr
    | succ r => simp [loadLoop, IStream.peekNotEOF]
  | cons b bs ih =>
    cases rounds with
    | zero => simp at hr
    | succ r =>
      have hne : writeToFile b ++ (bs.map writeToFile).flatten ≠ [] := by
        simp [writeToFile_ne_nil]
      have hemp : (writeToFile b ++ (bs.map writeToFile).flatten).isEmpty = false := by
        cases h : writeToFile b ++ (bs.map writeToFile).flatten with
        | nil => exact absurd h hne
        | cons _ _ => rfl
      rw [List.map_cons, List.flatten_cons, loadLoop]
      have hpeek : IStream.peekNotEOF
          { bytes := writeToFile b ++ (bs.map writeToFile).flatten, good := true } = true := by
        rw [IStream.peekNotEOF, hemp]; rfl
      rw [if_pos hpeek, readFromFile_writeToFile _ b _ (hb b (List.mem_cons_self _ _))]
      simp only [if_true]
      rw [ih (acc ++ [b]) r (by simpa using hr) (fun x hx => hb x (List.mem_cons_of_mem _ hx))]
      simp

/-- The empty vector is saved as the empty file and loaded back as the empty vector. -/
theorem load_save_empty : saveBooksToFile [] = [] ∧ loadBooksFromFile [] = some [] := by
  decide

theorem decodeInt32_encodeInt32_wrap (n : Int) : decodeInt32 (encodeInt32 n) = wrapInt32 n := by
  unfold decodeInt32 encodeInt32
  rw [decodeLE_encodeLE]
  unfold wrapInt32
  have h256 : (256 : Nat) ^ 4 = 4294967296 := by norm_num
  rw [h256]
  omega

/-! ## Lemmas on `std::sort` -/

section SortLemmas

variable {α : Type}


theorem StrictWeakOrder.asymm {comp : α → α → Bool} (h : StrictWeakOrder comp) (a b : α)
    (hab : comp a b = true) : comp b a = false := by
  cases hba : comp b a with
  | false => rfl
  | true =>
    have := h.trans a b a hab hba
    rw [h.irrefl a] at this
    exact absurd this (by simp)

/-! ### Lists as ranges -/

theorem getElem?_append_cons_length (p : List α) (x : α) (s : List α) :
    (p ++ x :: s)[p.length]? = some x := by
  rw [List.getElem?_append_right (Nat.le_refl _)]
  simp

theorem set_append_cons_length (p : List α) (x y : α) (s : List α) :
    (p ++ x :: s).set p.length y = p ++ y :: s := by
  rw [List.set_append_right _ _ (Nat.le_refl _)]
  simp

theorem assign_append_cons (p : List α) (x y : α) (s : List α) :
    assign (p ++ x :: s) p.length y = some (p ++ y :: s) := by
  unfold assign
  rw [if_pos (by simp), set_append_cons_length]

/-- An element for which `q` fails splits the list at the last such element. -/
theorem exists_last_split (q : α → Bool) (p : List α) (h : ∃ y ∈ p, q y = false) :
    ∃ p1 z p2, p = p1 ++ z :: p2 ∧ q z = false ∧ ∀ y ∈ p2, q y = true := by
  induction p with
  | nil => simp at h
  | cons a p ih =>
    by_cases hp : ∃ y ∈ p, q y = false
    · obtain ⟨p1, z, p2, rfl, hz, hp2⟩ := ih hp
      exact ⟨a :: p1, z, p2, rfl, hz, hp2⟩
    · obtain ⟨y, hy, hqy⟩ := h
      have hall : ∀ y ∈ p, q y = true := by
        intro y hy
        cases hq : q y with
        | true => rfl
        | false => exact absurd ⟨y, hy, hq⟩ hp
      rcases List.mem_cons.mp hy with rfl | hy
      · exact ⟨[], y, p, rfl, hqy, hall⟩
      · rw [hall y hy] at hqy
        exact absurd hqy (by simp)

/-! ### Insertion sort -/

/-- The linear insertion stops behind the last element that `val` is not less than. -/
theorem unguardedLinearInsert_split (comp : α → α → Bool) (val : α) (p1 : List α) (z : α)
    (p2 : List α) (hz : comp val z = false) (hp2 : ∀ y ∈ p2, comp val y = true) :
    ∀ (h : α) (s : List α),
      unguardedLinearInsert comp val (p1 ++ z :: p2).length ((p1 ++ z :: p2) ++ h :: s)
        = some (p1 ++ z :: val :: p2 ++ s) := by
  induction p2 using List.reverseRecOn with
  | nil =>
    intro h s
    have hlen : (p1 ++ [z]).length = p1.length + 1 := by simp
    rw [hlen, unguardedLinearInsert]
    have hget : ((p1 ++ [z]) ++ h :: s)[p1.length]? = some z := by
      rw [List.append_assoc]
      exact getElem?_append_cons_length p1 z _
    rw [hget]
    simp only [Option.bind_eq_bind, Option.some_bind, hz, Bool.false_eq_true, if_false]
    rw [← hlen, assign_append_cons]
    simp
  | append_singleton q y ih =>
    intro h s
    have hq : ∀ w ∈ q, comp val w = true := fun w hw => hp2 w (by simp [hw])
    have hy : comp val y = true := hp2 y (by simp)
    have hlen : (p1 ++ z :: (q ++ [y])).length = (p1 ++ z :: q).length + 1 := by
      simp; omega
    have hv : (p1 ++ z :: (q ++ [y])) ++ h :: s = (p1 ++ z :: q) ++ y :: h :: s := by simp
    rw [hlen, unguardedLinearInsert, hv, getElem?_append_cons_length]
    simp only [Option.bind_eq_bind, Option.some_bind, hy, if_true]
    have hv2 : (p1 ++ z :: q) ++ y :: h :: s = ((p1 ++ z :: q) ++ [y]) ++ h :: s := by simp
    have hlen2 : (p1 ++ z :: q).length + 1 = ((p1 ++ z :: q) ++ [y]).length := by
      simp; omega
    rw [hv2, hlen2, assign_append_cons]
    simp only [Option.some_bind]
    have hv3 : ((p1 ++ z :: q) ++ [y]) ++ y :: s = (p1 ++ z :: q) ++ y :: y :: s := by simp
    rw [hv3, ih hq y (y :: s)]
    simp


/-! ### Swaps and assignments -/

theorem lt_length_of_getElem? {v : List α} {i : Nat} {x : α} (h : v[i]? = some x) :
    i < v.length := by
  rw [List.getElem?_eq_some] at h
  exact h.1

theorem mem_of_getElem? {v : List α} {i : Nat} {x : α} (h : v[i]? = some x) : x ∈ v :=
  List.mem_iff_getElem?.mpr ⟨i, h⟩

theorem iterSwap_eq (v : List α) (i j : Nat) (x y : α) (hi : v[i]? = some x)
    (hj : v[j]? = some y) : iterSwap v i j = some ((v.set i y).set j x) := by
  simp [iterSwap, hi, hj]

theorem getElem?_swap (v : List α) (i j k : Nat) (x y : α) (hi : v[i]? = some x)
    (hj : v[j]? = some y) :
    ((v.set i y).set j x)[k]? = if k = j then some x else if k = i then some y else v[k]? := by
  have hil := lt_length_of_getElem? hi
  have hjl := lt_length_of_getElem? hj
  rw [List.getElem?_set, List.getElem?_set]
  by_cases hkj : k = j
  · subst hkj
    simp [hjl]
  · have hjk : ¬ j = k := fun h => hkj h.symm
    rw [if_neg hjk, if_neg hkj]
    by_cases hki : k = i
    · subst hki
      simp [hil]
    · have hik : ¬ i = k := fun h => hki h.symm
      rw [if_neg hik, if_neg hki]

theorem count_set_of_getElem? [DecidableEq α] (v : List α) (i : Nat) (x y b : α)
    (hi : v[i]? = some x) :
    (v.set i y).count b + (if x = b then 1 else 0) = v.count b + (if y = b then 1 else 0) := by
  have hil := lt_length_of_getElem? hi
  have hx : v[i] = x := by
    rw [List.getElem?_eq_some] at hi
    exact hi.2
  rw [List.count_set y b v i hil, hx]
  have hpos : (if x = b then 1 else 0) ≤ v.count b := by
    split
    · rename_i h
      subst h
      exact List.count_pos_iff.mpr (mem_of_getElem? hi)
    · exact Nat.zero_le _
  simp only [beq_iff_eq]
  omega

theorem swap_perm (v : List α) (i j : Nat) (x y : α) (hi : v[i]? = some x)
    (hj : v[j]? = some y) : ((v.set i y).set j x).Perm v := by
  classical
  rw [List.perm_iff_count]
  intro b
  have hj' : (v.set i y)[j]? = some y := by
    rw [List.getElem?_set]
    split
    · rename_i h
      subst h
      simp [lt_length_of_getElem? hi]
    · exact hj
  have h1 := count_set_of_getElem? (v.set i y) j y x b hj'
  have h2 := count_set_of_getElem? v i x y b hi
  omega


theorem sortedBy_insert (comp : α → α → Bool) (hc : StrictWeakOrder comp) (val : α)
    (p1 : List α) (z : α) (p2 : List α) (hs : SortedBy comp (p1 ++ z :: p2))
    (hz : comp val z = false) (hp2 : ∀ y ∈ p2, comp val y = true) :
    SortedBy comp (p1 ++ z :: val :: p2) := by
  unfold SortedBy at hs ⊢
  rw [List.pairwise_append] at hs ⊢
  obtain ⟨h1, h2, h3⟩ := hs
  rw [List.pairwise_cons] at h2
  refine ⟨h1, ?_, ?_⟩
  · rw [List.pairwise_cons, List.pairwise_cons]
    refine ⟨?_, ?_, h2.2⟩
    · intro a ha
      rcases List.mem_cons.mp ha with rfl | ha
      · exact hz
      · exact h2.1 a ha
    · intro a ha
      exact hc.asymm val a (hp2 a ha)
  · intro a ha b hb
    rcases List.mem_cons.mp hb with rfl | hb
    · exact h3 a ha b (List.mem_cons_self _ _)
    rcases List.mem_cons.mp hb with rfl | hb
    · exact hc.negTrans b z a hz (h3 a ha z (List.mem_cons_self _ _))
    · exact h3 a ha b (List.mem_cons_of_mem _ hb)

/-- With an element in front of it that `val` is not less than, the linear insertion puts
`val` into the sorted range in front of it. -/
theorem unguardedLinearInsert_sorted (comp : α → α → Bool) (hc : StrictWeakOrder comp) (val : α)
    (p : List α) (hp : SortedBy comp p) (hex : ∃ y ∈ p, comp val y = false) (h : α)
    (s : List α) :
    ∃ p', unguardedLinearInsert comp val p.length (p ++ h :: s) = some (p' ++ s)
      ∧ p'.Perm (val :: p) ∧ SortedBy comp p'
      ∧ ∀ q, EquivClass comp q → p'.filter q = (p ++ [val]).filter q := by
  obtain ⟨p1, z, p2, rfl, hz, hp2⟩ := exists_last_split (fun y => comp val y) p hex
  refine ⟨p1 ++ z :: val :: p2, ?_, ?_, sortedBy_insert comp hc val p1 z p2 hp hz hp2, ?_⟩
  · rw [unguardedLinearInsert_split comp val p1 z p2 hz hp2 h s]
  rotate_left
  · intro q hq
    cases hqv : q val with
    | false => simp [List.filter_cons, hqv]
    | true =>
      have hp2q : p2.filter q = [] := by
        rw [List.filter_eq_nil_iff]
        intro y hy hqy
        have := hq val y hqv hqy
        rw [hp2 y hy] at this
        exact absurd this (by simp)
      simp [List.filter_cons, hqv, hp2q]
  · have h1 : (p1 ++ z :: val :: p2).Perm (z :: val :: (p1 ++ p2)) := by
      refine List.perm_middle.trans (List.Perm.cons _ ?_)
      exact List.perm_middle
    have h2 : (val :: (p1 ++ z :: p2)).Perm (val :: z :: (p1 ++ p2)) :=
      List.Perm.cons _ List.perm_middle
    exact h1.trans ((List.Perm.swap val z _).trans h2.symm)

theorem sortedBy_cons_of_lt_head (comp : α → α → Bool) (hc : StrictWeakOrder comp) (val a : α)
    (p : List α) (hp : SortedBy comp (a :: p)) (hlt : comp val a = true) :
    SortedBy comp (val :: a :: p) := by
  unfold SortedBy at hp ⊢
  rw [List.pairwise_cons]
  refine ⟨?_, hp⟩
  rw [List.pairwise_cons] at hp
  intro b hb
  rcases List.mem_cons.mp hb with rfl | hb
  · exact hc.asymm val b hlt
  · cases hbv : comp b val with
    | false => rfl
    | true =>
      have := hc.trans b val a hbv hlt
      rw [hp.1 b hb] at this
      exact absurd this (by simp)

/-- One round of `__insertion_sort` extends the sorted front of the range by one element. -/
theorem insertionStep_sorted (comp : α → α → Bool) (hc : StrictWeakOrder comp) (p : List α)
    (x : α) (s : List α) (hne : p ≠ []) (hp : SortedBy comp p) :
    ∃ p', insertionStep comp (p ++ x :: s) p.length = some (p' ++ s)
      ∧ p'.Perm (x :: p) ∧ SortedBy comp p'
      ∧ ∀ q, EquivClass comp q → p'.filter q = (p ++ [x]).filter q := by
  cases p with
  | nil => exact absurd rfl hne
  | cons a p =>
    unfold insertionStep
    rw [getElem?_append_cons_length]
    have h0 : ((a :: p) ++ x :: s)[0]? = some a := by simp
    rw [h0]
    simp only [Option.bind_eq_bind, Option.some_bind]
    cases hlt : comp x a with
    | true =>
      refine ⟨x :: a :: p, ?_, List.Perm.refl _, sortedBy_cons_of_lt_head comp hc x a p hp hlt,
        ?_⟩
      · simp only [if_true, pure, List.take_left, Option.some.injEq]
        have : List.drop ((a :: p).length + 1) ((a :: p) ++ x :: s) = s := by
          simp
        rw [this]
        simp
      · intro q hq
        cases hqx : q x with
        | false => simp [List.filter_cons, hqx]
        | true =>
          have hpq : (a :: p).filter q = [] := by
            rw [List.filter_eq_nil_iff]
            intro y hy hqy
            have h1 : comp x y = false := hq x y hqx hqy
            have h2 : comp y a = false := by
              rcases List.mem_cons.mp hy with rfl | hy
              · exact hc.irrefl _
              · unfold SortedBy at hp
                rw [List.pairwise_cons] at hp
                exact hp.1 y hy
            have := hc.negTrans x y a h1 h2
            rw [hlt] at this
            exact absurd this (by simp)
          rw [List.filter_append, hpq]
          simp [List.filter_cons, hqx, hpq]
    | false =>
      simp only [Bool.false_eq_true, if_false]
      exact unguardedLinearInsert_sorted comp hc x (a :: p) hp
        ⟨a, List.mem_cons_self _ _, hlt⟩ x s

theorem insertionLoop_sorted (comp : α → α → Bool) (hc : StrictWeakOrder comp) (count : Nat) :
    ∀ (p r : List α), p ≠ [] → SortedBy comp p → count ≤ r.length →
      ∃ p', insertionLoop comp count p.length (p ++ r) = some (p' ++ r.drop count)
        ∧ p'.Perm (p ++ r.take count) ∧ SortedBy comp p'
        ∧ ∀ q, EquivClass comp q → p'.filter q = (p ++ r.take count).filter q := by
  induction count with
  | zero =>
    intro p r _ hp _
    exact ⟨p, by simp [insertionLoop], by simp, hp, by simp⟩
  | succ count ih =>
    intro p r hne hp hlen
    cases r with
    | nil => simp at hlen
    | cons x r =>
      obtain ⟨p1, h1, h2, h3, hst1⟩ := insertionStep_sorted comp hc p x r hne hp
      have hne1 : p1 ≠ [] := by
        intro h
        rw [h] at h2
        exact absurd h2.length_eq (by simp)
      have hlen1 : p1.length = p.length + 1 := by
        have := h2.length_eq
        simpa using this
      obtain ⟨p2, h4, h5, h6, hst2⟩ := ih p1 r hne1 h3 (by simpa using hlen)
      refine ⟨p2, ?_, ?_, h6, ?_⟩
      rotate_left 2
      · intro q hq
        rw [hst2 q hq, List.filter_append, hst1 q hq]
        have : x :: List.take count r = [x] ++ List.take count r := rfl
        simp only [List.take_succ_cons, this, List.filter_append, List.append_assoc]
      · rw [insertionLoop, h1]
        simp only [Option.bind_eq_bind, Option.some_bind]
        rw [← hlen1, h4]
        simp
      · refine h5.trans ?_
        simp only [List.take_succ_cons]
        exact (List.Perm.append_right _ h2).trans List.perm_middle.symm

/-- The function `__insertion_sort` sorts the first `last` elements and leaves the others. -/
theorem insertionSort_sorted (comp : α → α → Bool) (hc : StrictWeakOrder comp) (v : List α)
    (last : Nat) (hlast : last ≤ v.length) :
    ∃ p', insertionSort comp v last = some (p' ++ v.drop last)
      ∧ p'.Perm (v.take last) ∧ SortedBy comp p'
      ∧ ∀ q, EquivClass comp q → p'.filter q = (v.take last).filter q := by
  unfold insertionSort
  cases last with
  | zero => exact ⟨[], by simp, by simp, by simp [SortedBy], by simp⟩
  | succ n =>
    cases v with
    | nil => simp at hlast
    | cons a v =>
      simp only [Nat.add_one_ne_zero, if_false, Nat.add_sub_cancel]
      obtain ⟨p', h1, h2, h3, h4⟩ := insertionLoop_sorted comp hc n [a] v (by simp)
        (by simp [SortedBy]) (by simpa using hlast)
      exact ⟨p', by simpa using h1, by simpa using h2, h3, by simpa using h4⟩

theorem unguardedInsertionSort_sorted (comp : α → α → Bool) (hc : StrictWeakOrder comp) :
    ∀ (r p : List α), SortedBy comp p →
      (∀ r1 x r2, r = r1 ++ x :: r2 → ∃ y, (y ∈ p ∨ y ∈ r1) ∧ comp x y = false) →
      ∃ v', unguardedInsertionSort comp r.length p.length (p ++ r) = some v'
        ∧ v'.Perm (p ++ r) ∧ SortedBy comp v' := by
  intro r
  induction r with
  | nil =>
    intro p hp _
    exact ⟨p, by simp [unguardedInsertionSort], by simp, hp⟩
  | cons x r ih =>
    intro p hp hg
    have hex : ∃ y ∈ p, comp x y = false := by
      obtain ⟨y, hy, hyx⟩ := hg [] x r rfl
      rcases hy with hy | hy
      · exact ⟨y, hy, hyx⟩
      · simp at hy
    obtain ⟨p1, h1, h2, h3, _⟩ := unguardedLinearInsert_sorted comp hc x p hp hex x r
    have hlen1 : p1.length = p.length + 1 := by
      have := h2.length_eq
      simpa using this
    have hg1 : ∀ r1 x' r2, r = r1 ++ x' :: r2 →
        ∃ y, (y ∈ p1 ∨ y ∈ r1) ∧ comp x' y = false := by
      intro r1 x' r2 hr
      obtain ⟨y, hy, hyx⟩ := hg (x :: r1) x' r2 (by rw [hr]; rfl)
      refine ⟨y, ?_, hyx⟩
      rcases hy with hy | hy
      · exact Or.inl (h2.mem_iff.mpr (List.mem_cons_of_mem _ hy))
      · rcases List.mem_cons.mp hy with rfl | hy
        · exact Or.inl (h2.mem_iff.mpr (List.mem_cons_self _ _))
        · exact Or.inr hy
    obtain ⟨v', h4, h5, h6⟩ := ih p1 h3 hg1
    refine ⟨v', ?_, ?_, h6⟩
    · rw [List.length_cons, unguardedInsertionSort, getElem?_append_cons_length]
      simp only [Option.bind_eq_bind, Option.some_bind]
      rw [h1]
      simp only [Option.some_bind]
      rw [← hlen1, h4]
    · refine h5.trans ?_
      exact (List.Perm.append_right _ h2).trans List.perm_middle.symm


/-- On a guarded range `__final_insertion_sort` returns, and returns the range sorted. -/
theorem finalInsertionSort_sorted (comp : α → α → Bool) (hc : StrictWeakOrder comp)
    (v : List α) (hg : Guarded comp v) :
    ∃ v', finalInsertionSort comp v = some v' ∧ v'.Perm v ∧ SortedBy comp v' := by
  unfold finalInsertionSort
  by_cases hlen : v.length > S_threshold
  · rw [if_pos hlen]
    obtain ⟨p', h1, h2, h3, _⟩ := insertionSort_sorted comp hc v S_threshold (Nat.le_of_lt hlen)
    have hp'len : p'.length = S_threshold := by
      rw [h2.length_eq, List.length_take]; omega
    have hguard : ∀ r1 x r2, v.drop S_threshold = r1 ++ x :: r2 →
        ∃ y, (y ∈ p' ∨ y ∈ r1) ∧ comp x y = false := by
      intro r1 x r2 hr
      have hx : v[S_threshold + r1.length]? = some x := by
        rw [← List.getElem?_drop, hr]
        exact getElem?_append_cons_length r1 x r2
      obtain ⟨j, y, hj, hy, hxy⟩ := hg _ x hx (Nat.le_add_right _ _)
      refine ⟨y, ?_, hxy⟩
      by_cases hj16 : j < S_threshold
      · left
        rw [h2.mem_iff, List.mem_iff_getElem?]
        exact ⟨j, by rw [List.getElem?_take_of_lt hj16]; exact hy⟩
      · right
        rw [List.mem_iff_getElem?]
        refine ⟨j - S_threshold, ?_⟩
        have h5 : (v.drop S_threshold)[j - S_threshold]? = some y := by
          rw [List.getElem?_drop]
          rw [show S_threshold + (j - S_threshold) = j by omega]
          exact hy
        rw [hr, List.getElem?_append_left (by omega)] at h5
        exact h5
    obtain ⟨v', h4, h5, h6⟩ :=
      unguardedInsertionSort_sorted comp hc (v.drop S_threshold) p' h3 hguard
    refine ⟨v', ?_, ?_, h6⟩
    · rw [h1]
      simp only [Option.bind_eq_bind, Option.some_bind]
      rw [← h4, hp'len]
      congr 1
      simp only [List.length_append, List.length_drop, hp'len]
      omega
    · refine h5.trans ?_
      refine (List.Perm.append_right _ h2).trans ?_
      rw [List.take_append_drop]
  · rw [if_neg hlen]
    obtain ⟨p', h1, h2, h3, _⟩ := insertionSort_sorted comp hc v v.length (Nat.le_refl _)
    refine ⟨p', ?_, ?_, h3⟩
    · rw [h1]; simp
    · simpa using h2


/-! ### Partition -/

/-- The upward scan stops at the first element that is not less than the pivot, provided
there is one. -/
theorem scanUp_spec (comp : α → α → Bool) (pivot : α) :
    ∀ (l : List α) (first k : Nat) (x : α), l[k]? = some x → comp x pivot = false →
      ∃ m z, m ≤ k ∧ scanUp comp pivot l first = some (first + m) ∧ l[m]? = some z
        ∧ comp z pivot = false ∧ ∀ i w, i < m → l[i]? = some w → comp w pivot = true := by
  intro l
  induction l with
  | nil => intro first k x hk; simp at hk
  | cons a l ih =>
    intro first k x hk hx
    cases ha : comp a pivot with
    | false =>
      refine ⟨0, a, Nat.zero_le _, by simp [scanUp, ha], by simp, ha, ?_⟩
      intro i w hi; omega
    | true =>
      cases k with
      | zero =>
        simp only [List.getElem?_cons_zero, Option.some.injEq] at hk
        subst hk
        rw [ha] at hx
        exact absurd hx (by simp)
      | succ k =>
        rw [List.getElem?_cons_succ] at hk
        obtain ⟨m, z, hm, h1, h2, h3, h4⟩ := ih (first + 1) k x hk hx
        refine ⟨m + 1, z, by omega, ?_, by simpa using h2, h3, ?_⟩
        · simp only [scanUp, ha, if_true]
          rw [h1]
          congr 1
          omega
        · intro i w hi hw
          cases i with
          | zero =>
            simp only [List.getElem?_cons_zero, Option.some.injEq] at hw
            subst hw
            exact ha
          | succ i =>
            rw [List.getElem?_cons_succ] at hw
            exact h4 i w (by omega) hw

/-- The downward scan stops at the last element that the pivot is not less than, provided
there is one. -/
theorem scanDown_spec (comp : α → α → Bool) (pivot : α) (v : List α) (k : Nat) (x : α)
    (hk : v[k]? = some x) (hx : comp pivot x = false) :
    ∀ last, k ≤ last → last < v.length →
      ∃ l z, k ≤ l ∧ l ≤ last ∧ scanDown comp pivot v last = some l ∧ v[l]? = some z
        ∧ comp pivot z = false ∧ ∀ i w, l < i → i ≤ last → v[i]? = some w → comp pivot w = true := by
  intro last
  induction last with
  | zero =>
    intro hkl _
    have hk0 : k = 0 := by omega
    subst hk0
    refine ⟨0, x, Nat.le_refl _, Nat.le_refl _, ?_, hk, hx, ?_⟩
    · simp [scanDown, hk, hx]
    · intro i w h1 h2; omega
  | succ last ih =>
    intro hkl hlen
    have hget : v[last + 1]? = some v[last + 1] := List.getElem?_eq_getElem hlen
    cases hc : comp pivot v[last + 1] with
    | false =>
      refine ⟨last + 1, v[last + 1], hkl, Nat.le_refl _, ?_, hget, hc, ?_⟩
      · simp [scanDown, hget, hc]
      · intro i w h1 h2; omega
    | true =>
      have hkl2 : k ≤ last := by
        by_contra hcon
        have hk1 : k = last + 1 := by omega
        subst hk1
        rw [hget] at hk
        simp only [Option.some.injEq] at hk
        rw [hk, hx] at hc
        exact absurd hc (by simp)
      obtain ⟨l, z, h1, h2, h3, h4, h5, h6⟩ := ih hkl2 (by omega)
      refine ⟨l, z, h1, by omega, ?_, h4, h5, ?_⟩
      · simp only [scanDown, hget, Option.bind_eq_bind, Option.some_bind, hc, if_true]
        exact h3
      · intro i w hi1 hi2 hw
        by_cases hil : i ≤ last
        · exact h6 i w hi1 hil hw
        · have : i = last + 1 := by omega
          subst this
          rw [hget] at hw
          simp only [Option.some.injEq] at hw
          rw [← hw]; exact hc

/-- The loop of `__unguarded_partition`, started in a state in which everything in front of
`first` is not greater than the pivot, everything from `last` on is not less than it, and an
element that is not less than the pivot stands at or behind `first`. -/
theorem unguardedPartition_spec (comp : α → α → Bool) (hc : StrictWeakOrder comp) (p : α) :
    ∀ (rounds : Nat) (v : List α) (first last : Nat),
      last ≤ rounds → v[0]? = some p → 1 ≤ first → first ≤ last → last ≤ v.length →
      (∀ i x, v[i]? = some x → i < first → comp p x = false) →
      (∀ i x, v[i]? = some x → last ≤ i → comp x p = false) →
      (∃ s x, first ≤ s ∧ v[s]? = some x ∧ comp x p = false) →
      ∃ cut v', unguardedPartition comp rounds v first last 0 = some (cut, v')
        ∧ v'.Perm v ∧ 1 ≤ cut ∧ cut < v.length
        ∧ (∀ i x, v'[i]? = some x → i < cut → comp p x = false)
        ∧ (∀ i x, v'[i]? = some x → cut ≤ i → comp x p = false) := by
  intro rounds
  induction rounds with
  | zero => intro v first last h1 _ h3 h4; omega
  | succ rounds ih =>
    intro v first last hr hp0 hf1 hfl hln hleft hright hsent
    obtain ⟨s, xs, hs1, hs2, hs3⟩ := hsent
    have hsn : s < v.length := lt_length_of_getElem? hs2
    -- the upward scan
    have hs2' : (v.drop first)[s - first]? = some xs := by
      rw [List.getElem?_drop, show first + (s - first) = s by omega]; exact hs2
    obtain ⟨m, z, hm, hup, hz1, hz2, hz3⟩ :=
      scanUp_spec comp p (v.drop first) first (s - first) xs hs2' hs3
    rw [List.getElem?_drop] at hz1
    have hz3' : ∀ i w, first ≤ i → i < first + m → v[i]? = some w → comp w p = true := by
      intro i w hi1 hi2 hw
      apply hz3 (i - first) w (by omega)
      rw [List.getElem?_drop, show first + (i - first) = i by omega]; exact hw
    -- the downward scan
    have hl0 : last ≠ 0 := by omega
    obtain ⟨l, w, _, hl2, hdown, hw1, hw2, hw3⟩ :=
      scanDown_spec comp p v 0 p hp0 (hc.irrefl p) (last - 1) (Nat.zero_le _) (by omega)
    have hunfold : unguardedPartition comp (rounds + 1) v first last 0 =
        if !(decide (first + m < l)) then some (first + m, v)
        else (iterSwap v (first + m) l).bind
          (fun v => unguardedPartition comp rounds v (first + m + 1) l 0) := by
      simp only [unguardedPartition, hp0, hup, hdown, Option.bind_eq_bind, Option.some_bind,
        hl0, if_false, pure]
    rw [hunfold]
    have hleft' : ∀ i x, v[i]? = some x → i < first + m → comp p x = false := by
      intro i x hx hi
      by_cases hif : i < first
      · exact hleft i x hx hif
      · exact hc.asymm x p (hz3' i x (by omega) hi hx)
    have hright' : ∀ i x, v[i]? = some x → l < i → comp x p = false := by
      intro i x hx hi
      by_cases hil : last ≤ i
      · exact hright i x hx hil
      · exact hc.asymm p x (hw3 i x hi (by omega) hx)
    by_cases hlt : first + m < l
    · -- swap and go on
      simp only [hlt, decide_True, Bool.not_true, Bool.false_eq_true, if_false]
      rw [iterSwap_eq v (first + m) l z w hz1 hw1]
      simp only [Option.some_bind]
      have hget := fun k => getElem?_swap v (first + m) l k z w hz1 hw1
      obtain ⟨cut, v', h1, h2, h3, h4, h5, h6⟩ :=
        ih ((v.set (first + m) w).set l z) (first + m + 1) l (by omega)
          (by rw [hget 0, if_neg (by omega), if_neg (by omega)]; exact hp0)
          (by omega) (by omega) (by simp; omega)
          (by
            intro i x hx hi
            rw [hget i] at hx
            by_cases hil : i = l
            · omega
            · rw [if_neg hil] at hx
              by_cases hif : i = first + m
              · rw [if_pos hif] at hx
                simp only [Option.some.injEq] at hx
                rw [← hx]; exact hw2
              · rw [if_neg hif] at hx
                exact hleft' i x hx (by omega))
          (by
            intro i x hx hi
            rw [hget i] at hx
            by_cases hil : i = l
            · rw [if_pos hil] at hx
              simp only [Option.some.injEq] at hx
              rw [← hx]; exact hz2
            · rw [if_neg hil, if_neg (by omega)] at hx
              exact hright' i x hx (by omega))
          ⟨l, z, by omega, by rw [hget l, if_pos rfl], hz2⟩
      refine ⟨cut, v', h1, h2.trans (swap_perm v (first + m) l z w hz1 hw1), h3, ?_, h5, h6⟩
      simpa using h4
    · -- the scans have met
      simp only [hlt, decide_False, Bool.not_false, if_true]
      refine ⟨first + m, v, rfl, List.Perm.refl _, by omega, by omega, hleft', ?_⟩
      intro i x hx hi
      by_cases hil : i = l
      · have hfm : first + m = l := by omega
        rw [hil, ← hfm, hz1] at hx
        simp only [Option.some.injEq] at hx
        rw [← hx]; exact hz2
      · exact hright' i x hx (by omega)


/-- Swapping the first element with the one at `k` leaves a sentinel at `s`. -/
theorem iterSwap_first_sentinel (comp : α → α → Bool) (v : List α) (k s : Nat) (v0 vk vs : α)
    (h0 : v[0]? = some v0) (hk : v[k]? = some vk) (hs : v[s]? = some vs)
    (hk1 : 1 ≤ k) (hs1 : 1 ≤ s) (hsk : s ≠ k) (hcomp : comp vs vk = false) :
    ∃ v' p, iterSwap v 0 k = some v' ∧ v'.Perm v ∧ v'[0]? = some p
      ∧ ∃ s x, 1 ≤ s ∧ v'[s]? = some x ∧ comp x p = false := by
  refine ⟨(v.set 0 vk).set k v0, vk, iterSwap_eq v 0 k v0 vk h0 hk,
    swap_perm v 0 k v0 vk h0 hk, ?_, s, vs, hs1, ?_, hcomp⟩
  · rw [getElem?_swap v 0 k 0 v0 vk h0 hk, if_neg (by omega), if_pos rfl]
  · rw [getElem?_swap v 0 k s v0 vk h0 hk, if_neg hsk, if_neg (by omega)]
    exact hs

/-- After `__move_median_to_first` the pivot stands first and some element behind it is not
less than the pivot. -/
theorem moveMedianToFirst_spec (comp : α → α → Bool) (hc : StrictWeakOrder comp) (v : List α)
    (a b c : Nat) (ha : 1 ≤ a) (hb : 1 ≤ b) (hc1 : 1 ≤ c) (hab : a ≠ b) (hac : a ≠ c)
    (hbc : b ≠ c) (hal : a < v.length) (hbl : b < v.length) (hcl : c < v.length) :
    ∃ v' p, moveMedianToFirst comp v 0 a b c = some v' ∧ v'.Perm v ∧ v'[0]? = some p
      ∧ ∃ s x, 1 ≤ s ∧ v'[s]? = some x ∧ comp x p = false := by
  have h0 : v[0]? = some v[0] := List.getElem?_eq_getElem (by omega)
  have hga : v[a]? = some v[a] := List.getElem?_eq_getElem hal
  have hgb : v[b]? = some v[b] := List.getElem?_eq_getElem hbl
  have hgc : v[c]? = some v[c] := List.getElem?_eq_getElem hcl
  unfold moveMedianToFirst
  simp only [hga, hgb, hgc, Option.bind_eq_bind, Option.some_bind]
  cases h1 : comp v[a] v[b] with
  | true =>
    simp only [if_true]
    cases h2 : comp v[b] v[c] with
    | true =>
      simp only [if_true]
      exact iterSwap_first_sentinel comp v b c _ _ _ h0 hgb hgc hb hc1 (Ne.symm hbc)
        (hc.asymm _ _ h2)
    | false =>
      simp only [Bool.false_eq_true, if_false]
      cases h3 : comp v[a] v[c] with
      | true =>
        simp only [if_true]
        exact iterSwap_first_sentinel comp v c b _ _ _ h0 hgc hgb hc1 hb hbc h2
      | false =>
        simp only [Bool.false_eq_true, if_false]
        exact iterSwap_first_sentinel comp v a b _ _ _ h0 hga hgb ha hb (Ne.symm hab)
          (hc.asymm _ _ h1)
  | false =>
    simp only [Bool.false_eq_true, if_false]
    cases h3 : comp v[a] v[c] with
    | true =>
      simp only [if_true]
      exact iterSwap_first_sentinel comp v a c _ _ _ h0 hga hgc ha hc1 (Ne.symm hac)
        (hc.asymm _ _ h3)
    | false =>
      simp only [Bool.false_eq_true, if_false]
      cases h2 : comp v[b] v[c] with
      | true =>
        simp only [if_true]
        exact iterSwap_first_sentinel comp v c a _ _ _ h0 hgc hga hc1 ha hac h3
      | false =>
        simp only [Bool.false_eq_true, if_false]
        exact iterSwap_first_sentinel comp v b a _ _ _ h0 hgb hga hb ha hab h1

/-- On a range of more than three elements `__unguarded_partition_pivot` returns a cut
strictly inside the range; in front of the cut nothing is greater than the pivot and from the
cut on nothing is less. -/
theorem unguardedPartitionPivot_spec (comp : α → α → Bool) (hc : StrictWeakOrder comp)
    (v : List α) (hlen : 3 < v.length) :
    ∃ cut v' p, unguardedPartitionPivot comp v = some (cut, v') ∧ v'.Perm v
      ∧ 1 ≤ cut ∧ cut < v.length
      ∧ (∀ i x, v'[i]? = some x → i < cut → comp p x = false)
      ∧ (∀ i x, v'[i]? = some x → cut ≤ i → comp x p = false) := by
  obtain ⟨w, p, h1, h2, h3, hsent⟩ :=
    moveMedianToFirst_spec comp hc v 1 (v.length / 2) (v.length - 1)
      (Nat.le_refl _) (by omega) (by omega) (by omega) (by omega) (by omega)
      (by omega) (by omega) (by omega)
  have hwl : w.length = v.length := h2.length_eq
  obtain ⟨cut, v', h4, h5, h6, h7, h8, h9⟩ :=
    unguardedPartition_spec comp hc p w.length w 1 w.length (Nat.le_refl _) h3
      (Nat.le_refl _) (by omega) (Nat.le_refl _)
      (by
        intro i x hx hi
        have hi0 : i = 0 := by omega
        subst hi0
        rw [h3] at hx
        simp only [Option.some.injEq] at hx
        rw [← hx]; exact hc.irrefl p)
      (by
        intro i x hx hi
        have := lt_length_of_getElem? hx
        omega)
      hsent
  refine ⟨cut, v', p, ?_, h5.trans h2, h6, by omega, h8, h9⟩
  unfold unguardedPartitionPivot
  simp only [h1, Option.bind_eq_bind, Option.some_bind]
  exact h4


/-! ### Heaps -/

theorem Desc.le {top h : Nat} (hd : Desc top h) : top ≤ h := by
  induction hd with
  | root => exact Nat.le_refl _
  | left _ ih => omega
  | right _ ih => omega

theorem Desc.parent {top h : Nat} (hd : Desc top h) (hne : h ≠ top) :
    0 < h ∧ Desc top ((h - 1) / 2) := by
  cases hd with
  | root => exact absurd rfl hne
  | left hk =>
    rename_i k
    have : (2 * k + 1 - 1) / 2 = k := by omega
    rw [this]
    exact ⟨by omega, hk⟩
  | right hk =>
    rename_i k
    have : (2 * k + 2 - 1) / 2 = k := by omega
    rw [this]
    exact ⟨by omega, hk⟩

theorem Desc.child {top h c : Nat} (hd : Desc top h) (hc0 : 0 < c) (hc : (c - 1) / 2 = h) :
    Desc top c := by
  have : c = 2 * h + 1 ∨ c = 2 * h + 2 := by omega
  rcases this with rfl | rfl
  · exact Desc.left hd
  · exact Desc.right hd

theorem getElem?_set_self_of_lt (v : List α) (i : Nat) (x : α) (h : i < v.length) :
    (v.set i x)[i]? = some x := by
  rw [List.getElem?_set]; simp [h]

theorem assign_eq (v : List α) (i : Nat) (x : α) (h : i < v.length) :
    assign v i x = some (v.set i x) := by
  simp [assign, h]

/-- Moving the hole from `h` to `c` while `value` is held aside keeps the elements. -/
theorem move_hole_perm (v : List α) (h c : Nat) (value xc : α) (hh : h < v.length)
    (hc : v[c]? = some xc) (hne : c ≠ h) :
    ((v.set h xc).set c value).Perm (v.set h value) := by
  have h1 : (v.set h value)[h]? = some value := getElem?_set_self_of_lt v h value hh
  have h2 : (v.set h value)[c]? = some xc := by
    rw [List.getElem?_set_ne (Ne.symm hne)]; exact hc
  have := swap_perm (v.set h value) h c value xc h1 h2
  rwa [List.set_set] at this

/-- The state in which `__adjust_heap` starts. -/
theorem holeInv_init (comp : α → α → Bool) (v0 : List α) (top len : Nat) (value : α)
    (hheap : HeapFrom comp v0 (top + 1) len) (htop : top < len) :
    HoleInv comp v0 top len value v0 top where
  length_eq := rfl
  desc := Desc.root
  lt := htop
  pairs := by
    intro i x y hi0 hil hti _ hpi hx hy
    exact hheap i x y hi0 hil (by omega) hx hy
  above := fun h => absurd rfl h
  perm := List.Perm.refl _
  frame := fun _ _ => rfl

/-- The hole moves down to a child that is not less than the other child. -/
theorem HoleInv.moveDown {comp : α → α → Bool} {v0 : List α} {top len : Nat} {value : α}
    {v : List α} {h : Nat} (inv : HoleInv comp v0 top len value v h) (hlen : len ≤ v0.length)
    (c : Nat) (xc : α) (hc0 : 0 < c) (hcl : c < len) (hch : (c - 1) / 2 = h)
    (hxc : v[c]? = some xc)
    (hother : ∀ c' x', 0 < c' → c' < len → (c' - 1) / 2 = h → c' ≠ c → v[c']? = some x' →
      comp xc x' = false) :
    HoleInv comp v0 top len value (v.set h xc) c where
  length_eq := by rw [List.length_set]; exact inv.length_eq
  desc := inv.desc.child hc0 hch
  lt := hcl
  pairs := by
    intro i x y hi0 hil hti hic hpc hx hy
    have hhl : h < v.length := by have := inv.lt; have := inv.length_eq; omega
    by_cases hih : i = h
    · -- the pair above the old hole
      subst hih
      have hne : i ≠ top := by
        intro heq; omega
      rw [getElem?_set_self_of_lt v i xc hhl] at hx
      simp only [Option.some.injEq] at hx
      subst hx
      rw [List.getElem?_set_ne (by omega)] at hy
      exact inv.above hne c _ y hc0 hcl hch hxc hy
    · rw [List.getElem?_set_ne (Ne.symm hih)] at hx
      by_cases hph : (i - 1) / 2 = h
      · rw [hph, getElem?_set_self_of_lt v h xc hhl] at hy
        simp only [Option.some.injEq] at hy
        subst hy
        exact hother i x hi0 hil hph hic hx
      · rw [List.getElem?_set_ne (Ne.symm hph)] at hy
        exact inv.pairs i x y hi0 hil hti hih hph hx hy
  above := by
    intro _ c' x y hc'0 hc'l hc'c hx hy
    have hhl : h < v.length := by have := inv.lt; have := inv.length_eq; omega
    rw [hch, getElem?_set_self_of_lt v h xc hhl] at hy
    simp only [Option.some.injEq] at hy
    subst hy
    rw [List.getElem?_set_ne (by omega)] at hx
    have hth := inv.desc.le
    exact inv.pairs c' x _ hc'0 hc'l (by omega) (by omega) (by omega) hx (by rw [hc'c]; exact hxc)
  perm := by
    have hhl : h < v.length := by have := inv.lt; have := inv.length_eq; omega
    exact (move_hole_perm v h c value xc hhl hxc (by omega)).trans inv.perm
  frame := by
    intro i hi
    rw [List.getElem?_set_ne (by have := inv.lt; omega)]
    exact inv.frame i hi


/-- The first loop of `__adjust_heap` returns with the hole at a position that has no right
child. -/
theorem adjustHeapDown_spec (comp : α → α → Bool) (hc : StrictWeakOrder comp) (v0 : List α)
    (top len : Nat) (value : α) (hlen : len ≤ v0.length) :
    ∀ (rounds : Nat) (v : List α) (h : Nat), HoleInv comp v0 top len value v h →
      (len - 1) / 2 - h < rounds →
      ∃ v' h', adjustHeapDown comp len rounds v h = some (v', h')
        ∧ HoleInv comp v0 top len value v' h' ∧ ¬ h' < (len - 1) / 2 := by
  intro rounds
  induction rounds with
  | zero => intro v h _ hr; omega
  | succ rounds ih =>
    intro v h inv hr
    rw [adjustHeapDown]
    by_cases hlt : h < (len - 1) / 2
    · rw [if_pos hlt]
      have hvl : v.length = v0.length := inv.length_eq
      have hr2 : 2 * (h + 1) < v.length := by omega
      have hgr : v[2 * (h + 1)]? = some v[2 * (h + 1)] := List.getElem?_eq_getElem hr2
      have hl2 : 2 * (h + 1) - 1 < v.length := by omega
      have hgl : v[2 * (h + 1) - 1]? = some v[2 * (h + 1) - 1] := List.getElem?_eq_getElem hl2
      simp only [hgr, hgl, Option.bind_eq_bind, Option.some_bind]
      cases hcmp : comp v[2 * (h + 1)] v[2 * (h + 1) - 1] with
      | true =>
        simp only [if_true, hgl, Option.some_bind]
        rw [assign_eq v h _ (by omega)]
        simp only [Option.some_bind]
        apply ih
        · apply inv.moveDown hlen (2 * (h + 1) - 1) _ (by omega) (by omega) (by omega) hgl
          intro c' x' hc'0 hc'l hc'h hne hx'
          have : c' = 2 * (h + 1) := by omega
          subst this
          rw [hgr] at hx'
          simp only [Option.some.injEq] at hx'
          rw [← hx']
          exact hc.asymm _ _ hcmp
        · omega
      | false =>
        simp only [Bool.false_eq_true, if_false, hgr, Option.some_bind]
        rw [assign_eq v h _ (by omega)]
        simp only [Option.some_bind]
        apply ih
        · apply inv.moveDown hlen (2 * (h + 1)) _ (by omega) (by omega) (by omega) hgr
          intro c' x' hc'0 hc'l hc'h hne hx'
          have : c' = 2 * (h + 1) - 1 := by omega
          subst this
          rw [hgl] at hx'
          simp only [Option.some.injEq] at hx'
          rw [← hx']
          exact hcmp
        · omega
    · rw [if_neg hlt]
      exact ⟨v, h, rfl, inv, hlt⟩

/-- The hole moves up to its parent when the parent is less than `value`. -/
theorem HoleInv.moveUp {comp : α → α → Bool} (hc : StrictWeakOrder comp) {v0 : List α}
    {top len : Nat} {value : α} {v : List α} {h : Nat}
    (inv : HoleInv comp v0 top len value v h) (hlen : len ≤ v0.length) (hne : h ≠ top)
    (vp : α) (hvp : v[(h - 1) / 2]? = some vp) (hcmp : comp vp value = true)
    (hval : ∀ c x, 0 < c → c < len → (c - 1) / 2 = h → v[c]? = some x → comp value x = false) :
    HoleInv comp v0 top len value (v.set h vp) ((h - 1) / 2)
    ∧ ∀ c x, 0 < c → c < len → (c - 1) / 2 = (h - 1) / 2 → (v.set h vp)[c]? = some x →
        comp value x = false := by
  obtain ⟨hh0, hdp⟩ := inv.desc.parent hne
  have hhl : h < v.length := by have := inv.lt; have := inv.length_eq; omega
  have hpl : (h - 1) / 2 < h := by omega
  constructor
  · exact {
      length_eq := by rw [List.length_set]; exact inv.length_eq
      desc := hdp
      lt := by have := inv.lt; omega
      pairs := by
        intro i x y hi0 hil hti hip hpp hx hy
        by_cases hih : i = h
        · exact absurd (by rw [hih]) hpp
        · rw [List.getElem?_set_ne (Ne.symm hih)] at hx
          by_cases hph : (i - 1) / 2 = h
          · rw [hph, getElem?_set_self_of_lt v h vp hhl] at hy
            simp only [Option.some.injEq] at hy
            subst hy
            exact inv.above hne i x _ hi0 hil hph hx hvp
          · rw [List.getElem?_set_ne (Ne.symm hph)] at hy
            exact inv.pairs i x y hi0 hil hti hih hph hx hy
      above := by
        intro hne2 c x y hc0 hcl hcp hx hy
        rw [List.getElem?_set_ne (by omega)] at hy
        have hpt : top ≤ ((h - 1) / 2 - 1) / 2 := (hdp.parent hne2).2.le
        have hpp0 : 0 < (h - 1) / 2 := (hdp.parent hne2).1
        -- the parent of the new hole is not less than the element at the new hole
        have h1 : comp y vp = false :=
          inv.pairs ((h - 1) / 2) vp y hpp0 (by have := inv.lt; omega) hpt (by omega) (by omega)
            hvp hy
        by_cases hch : c = h
        · subst hch
          rw [getElem?_set_self_of_lt v c vp hhl] at hx
          simp only [Option.some.injEq] at hx
          rw [← hx]; exact h1
        · rw [List.getElem?_set_ne (Ne.symm hch)] at hx
          have h2 : comp vp x = false :=
            inv.pairs c x vp hc0 hcl (by rw [hcp]; exact hdp.le) hch (by omega) hx
              (by rw [hcp]; exact hvp)
          exact hc.negTrans y vp x h1 h2
      perm := by
        exact (move_hole_perm v h ((h - 1) / 2) value vp hhl hvp (by omega)).trans inv.perm
      frame := by
        intro i hi
        rw [List.getElem?_set_ne (by have := inv.lt; omega)]
        exact inv.frame i hi }
  · intro c x hc0 hcl hcp hx
    by_cases hch : c = h
    · subst hch
      rw [getElem?_set_self_of_lt v c vp hhl] at hx
      simp only [Option.some.injEq] at hx
      rw [← hx]; exact hc.asymm vp value hcmp
    · rw [List.getElem?_set_ne (Ne.symm hch)] at hx
      have h2 : comp vp x = false :=
        inv.pairs c x vp hc0 hcl (by rw [hcp]; exact hdp.le) hch (by omega) hx
          (by rw [hcp]; exact hvp)
      cases hvx : comp value x with
      | false => rfl
      | true =>
        have := hc.trans vp value x hcmp hvx
        rw [h2] at this
        exact absurd this (by simp)

/-- Storing `value` into the hole completes the heap. -/
theorem HoleInv.fill {comp : α → α → Bool} {v0 : List α} {top len : Nat} {value : α}
    {v : List α} {h : Nat} (inv : HoleInv comp v0 top len value v h) (hlen : len ≤ v0.length)
    (hval : ∀ c x, 0 < c → c < len → (c - 1) / 2 = h → v[c]? = some x → comp value x = false)
    (hpar : h ≠ top → ∀ y, v[(h - 1) / 2]? = some y → comp y value = false) :
    HeapFrom comp (v.set h value) top len ∧ (v.set h value).Perm (v0.set top value)
      ∧ (∀ i, len ≤ i → (v.set h value)[i]? = v0[i]?)
      ∧ (v.set h value).length = v0.length := by
  have hhl : h < v.length := by have := inv.lt; have := inv.length_eq; omega
  refine ⟨?_, inv.perm, ?_, by rw [List.length_set]; exact inv.length_eq⟩
  · intro i x y hi0 hil hti hx hy
    by_cases hih : i = h
    · subst hih
      rw [getElem?_set_self_of_lt v i value hhl] at hx
      simp only [Option.some.injEq] at hx
      rw [List.getElem?_set_ne (by omega)] at hy
      rw [← hx]
      exact hpar (by omega) y hy
    · rw [List.getElem?_set_ne (Ne.symm hih)] at hx
      by_cases hph : (i - 1) / 2 = h
      · rw [hph, getElem?_set_self_of_lt v h value hhl] at hy
        simp only [Option.some.injEq] at hy
        rw [← hy]
        exact hval i x hi0 hil hph hx
      · rw [List.getElem?_set_ne (Ne.symm hph)] at hy
        exact inv.pairs i x y hi0 hil hti hih hph hx hy
  · intro i hi
    rw [List.getElem?_set_ne (by have := inv.lt; omega)]
    exact inv.frame i hi

/-- The function `__push_heap` completes the heap, given that `value` is not less than the
children of the hole. -/
theorem pushHeap_spec (comp : α → α → Bool) (hc : StrictWeakOrder comp) (v0 : List α)
    (top len : Nat) (value : α) (hlen : len ≤ v0.length) :
    ∀ (rounds : Nat) (v : List α) (h : Nat), HoleInv comp v0 top len value v h → h ≤ rounds →
      (∀ c x, 0 < c → c < len → (c - 1) / 2 = h → v[c]? = some x → comp value x = false) →
      ∃ v', pushHeap comp rounds v h top value = some v'
        ∧ HeapFrom comp v' top len ∧ v'.Perm (v0.set top value)
        ∧ (∀ i, len ≤ i → v'[i]? = v0[i]?) ∧ v'.length = v0.length := by
  intro rounds
  induction rounds with
  | zero =>
    intro v h inv hr hval
    have hh : h = 0 := by omega
    have hhl : h < v.length := by have := inv.lt; have := inv.length_eq; omega
    refine ⟨v.set h value, ?_, inv.fill hlen hval ?_⟩
    · rw [pushHeap, assign_eq v h value hhl]
    · intro hne
      have := inv.desc.le
      omega
  | succ rounds ih =>
    intro v h inv hr hval
    have hhl : h < v.length := by have := inv.lt; have := inv.length_eq; omega
    rw [pushHeap]
    by_cases hgt : h > top
    · have hpl : (h - 1) / 2 < v.length := by omega
      have hgp : v[(h - 1) / 2]? = some v[(h - 1) / 2] := List.getElem?_eq_getElem hpl
      simp only [hgt, if_true, hgp, Option.bind_eq_bind, Option.some_bind]
      cases hcmp : comp v[(h - 1) / 2] value with
      | true =>
        simp only [if_true]
        rw [assign_eq v h _ hhl]
        simp only [Option.some_bind]
        obtain ⟨inv', hval'⟩ := inv.moveUp hc hlen (by omega) _ hgp hcmp hval
        exact ih _ _ inv' (by omega) hval'
      | false =>
        simp only [Bool.false_eq_true, if_false]
        refine ⟨v.set h value, assign_eq v h value hhl, inv.fill hlen hval ?_⟩
        intro _ y hy
        rw [hgp] at hy
        simp only [Option.some.injEq] at hy
        rw [← hy]; exact hcmp
    · simp only [hgt, if_false]
      refine ⟨v.set h value, assign_eq v h value hhl, inv.fill hlen hval ?_⟩
      intro hne
      have := inv.desc.le
      omega


/-- The function `__adjust_heap` turns a range that is a heap below `top` into a heap from
`top` on, with `value` stored in place of the element at `top`. -/
theorem adjustHeap_spec (comp : α → α → Bool) (hc : StrictWeakOrder comp) (v0 : List α)
    (top len : Nat) (value : α) (hlen : len ≤ v0.length) (htop : top < len)
    (hheap : HeapFrom comp v0 (top + 1) len) :
    ∃ v', adjustHeap comp v0 top len value = some v'
      ∧ HeapFrom comp v' top len ∧ v'.Perm (v0.set top value)
      ∧ (∀ i, len ≤ i → v'[i]? = v0[i]?) ∧ v'.length = v0.length := by
  obtain ⟨v, sc, h1, inv, hsc⟩ :=
    adjustHeapDown_spec comp hc v0 top len value hlen (len + 1) v0 top
      (holeInv_init comp v0 top len value hheap htop) (by omega)
  have hscl := inv.lt
  have hvl := inv.length_eq
  unfold adjustHeap
  simp only [h1, Option.bind_eq_bind, Option.some_bind]
  by_cases hcase : len % 2 = 0 ∧ sc = (len - 2) / 2
  · rw [if_pos hcase]
    have hcl : 2 * (sc + 1) - 1 < v.length := by omega
    have hgc : v[2 * (sc + 1) - 1]? = some v[2 * (sc + 1) - 1] := List.getElem?_eq_getElem hcl
    simp only [hgc, Option.some_bind]
    rw [assign_eq v sc _ (by omega)]
    simp only [Option.some_bind]
    apply pushHeap_spec comp hc v0 top len value hlen _ _ _ _ (Nat.le_refl _)
    · intro c x hc0 hcl2 hcp _
      omega
    · apply inv.moveDown hlen (2 * (sc + 1) - 1) _ (by omega) (by omega) (by omega) hgc
      intro c' x' hc'0 hc'l hc'h hne _
      omega
  · rw [if_neg hcase]
    apply pushHeap_spec comp hc v0 top len value hlen _ _ _ inv (Nat.le_refl _)
    intro c x hc0 hcl2 hcp _
    exfalso
    apply hcase
    omega

theorem set_getElem?_self (v : List α) (i : Nat) (x : α) (h : v[i]? = some x) :
    v.set i x = v := by
  apply List.ext_getElem?
  intro k
  rw [List.getElem?_set]
  split
  · rename_i hik
    subst hik
    rw [if_pos (lt_length_of_getElem? h), h]
  · rfl

/-- The loop of `__make_heap` extends the heap property from `parent + 1` down to 0. -/
theorem makeHeapLoop_spec (comp : α → α → Bool) (hc : StrictWeakOrder comp) (len : Nat) :
    ∀ (parent : Nat) (v : List α), len ≤ v.length → parent < len →
      HeapFrom comp v (parent + 1) len →
      ∃ v', makeHeapLoop comp len parent v = some v' ∧ HeapFrom comp v' 0 len ∧ v'.Perm v
        ∧ v'.length = v.length := by
  intro parent
  induction parent with
  | zero =>
    intro v hlen hp hheap
    have hg : v[0]? = some v[0] := List.getElem?_eq_getElem (by omega)
    obtain ⟨v', h1, h2, h3, _, h5⟩ := adjustHeap_spec comp hc v 0 len v[0] hlen hp hheap
    rw [set_getElem?_self v 0 _ hg] at h3
    refine ⟨v', ?_, h2, h3, h5⟩
    simp only [makeHeapLoop, hg, Option.bind_eq_bind, Option.some_bind]
    exact h1
  | succ parent ih =>
    intro v hlen hp hheap
    have hg : v[parent + 1]? = some v[parent + 1] := List.getElem?_eq_getElem (by omega)
    obtain ⟨v1, h1, h2, h3, _, h5⟩ :=
      adjustHeap_spec comp hc v (parent + 1) len v[parent + 1] hlen hp hheap
    rw [set_getElem?_self v _ _ hg] at h3
    obtain ⟨v', h6, h7, h8, h9⟩ := ih v1 (by omega) (by omega) h2
    refine ⟨v', ?_, h7, h8.trans h3, by omega⟩
    simp only [makeHeapLoop, hg, Option.bind_eq_bind, Option.some_bind, h1]
    exact h6

/-- The function `__make_heap` returns a heap. -/
theorem makeHeap_spec (comp : α → α → Bool) (hc : StrictWeakOrder comp) (v : List α) :
    ∃ v', makeHeap comp v = some v' ∧ HeapFrom comp v' 0 v.length ∧ v'.Perm v := by
  unfold makeHeap
  by_cases hlen : v.length < 2
  · rw [if_pos hlen]
    refine ⟨v, rfl, ?_, List.Perm.refl _⟩
    intro i x y hi0 hil _ _ _
    omega
  · rw [if_neg hlen]
    obtain ⟨v', h1, h2, h3, _⟩ :=
      makeHeapLoop_spec comp hc v.length ((v.length - 2) / 2) v (Nat.le_refl _) (by omega)
        (by
          intro i x y hi0 hil hpi _ _
          omega)
    exact ⟨v', h1, h2, h3⟩

/-- In a heap the first element is not less than any other. -/
theorem heap_root_max (comp : α → α → Bool) (hc : StrictWeakOrder comp) (v : List α)
    (len : Nat) (hheap : HeapFrom comp v 0 len) (hlen : len ≤ v.length) (r : α)
    (hr : v[0]? = some r) :
    ∀ i x, i < len → v[i]? = some x → comp r x = false := by
  intro i
  induction i using Nat.strong_induction_on with
  | _ i ih =>
    intro x hil hx
    by_cases hi0 : i = 0
    · subst hi0
      rw [hr] at hx
      simp only [Option.some.injEq] at hx
      rw [← hx]; exact hc.irrefl r
    · have hpl : (i - 1) / 2 < v.length := by omega
      have hgp : v[(i - 1) / 2]? = some v[(i - 1) / 2] := List.getElem?_eq_getElem hpl
      have h1 := ih ((i - 1) / 2) (by omega) _ (by omega) hgp
      have h2 := hheap i x _ (by omega) hil (Nat.zero_le _) hx hgp
      exact hc.negTrans r _ x h1 h2


/-- Two permutations of each other that agree from position `k` on have the same elements in
front of `k`. -/
theorem take_perm_of_frame (v u : List α) (k : Nat) (hp : v.Perm u)
    (hf : ∀ j, k ≤ j → v[j]? = u[j]?) : (v.take k).Perm (u.take k) := by
  have hd : v.drop k = u.drop k := by
    apply List.ext_getElem?
    intro n
    rw [List.getElem?_drop, List.getElem?_drop]
    exact hf _ (by omega)
  have h1 : (v.take k ++ v.drop k).Perm (u.take k ++ v.drop k) := by
    rw [List.take_append_drop, hd, List.take_append_drop]
    exact hp
  exact (List.perm_append_right_iff _).mp h1

/-- The function `__pop_heap` moves the greatest element of the heap behind the heap. -/
theorem popHeap_spec (comp : α → α → Bool) (hc : StrictWeakOrder comp) (v : List α) (k : Nat)
    (hk : 1 ≤ k) (hlen : k < v.length) (hheap : HeapFrom comp v 0 (k + 1))
    (htail : ∀ i j x y, i < k + 1 → k + 1 ≤ j → v[i]? = some x → v[j]? = some y →
      comp y x = false) :
    ∃ v', popHeap comp v k = some v' ∧ HeapFrom comp v' 0 k ∧ v'.Perm v
      ∧ (∀ i j x y, i < k → k ≤ j → v'[i]? = some x → v'[j]? = some y → comp y x = false) := by
  have hgk : v[k]? = some v[k] := List.getElem?_eq_getElem hlen
  have hg0 : v[0]? = some v[0] := List.getElem?_eq_getElem (by omega)
  have hheap1 : HeapFrom comp (v.set k v[0]) 1 k := by
    intro i x y hi0 hil hpi hx hy
    rw [List.getElem?_set_ne (by omega)] at hx hy
    exact hheap i x y hi0 (by omega) (Nat.zero_le _) hx hy
  obtain ⟨v', h1, h2, h3, h4, h5⟩ :=
    adjustHeap_spec comp hc (v.set k v[0]) 0 k v[k] (by rw [List.length_set]; omega) hk hheap1
  have hperm : ((v.set k v[0]).set 0 v[k]).Perm v := swap_perm v k 0 v[k] v[0] hgk hg0
  refine ⟨v', ?_, h2, h3.trans hperm, ?_⟩
  · simp only [popHeap, hgk, hg0, Option.bind_eq_bind, Option.some_bind]
    rw [assign_eq v k _ hlen]
    exact h1
  · intro i j x y hik hkj hx hy
    -- where `x` was before
    have hfr : ∀ j, k ≤ j → v'[j]? = ((v.set k v[0]).set 0 v[k])[j]? := by
      intro j hj
      rw [h4 j hj]
      exact (List.getElem?_set_ne (by omega)).symm
    have htk := take_perm_of_frame v' _ k h3 hfr
    have hxm : x ∈ ((v.set k v[0]).set 0 v[k]).take k := by
      rw [← htk.mem_iff, List.mem_iff_getElem?]
      exact ⟨i, by rw [List.getElem?_take_of_lt hik]; exact hx⟩
    rw [List.mem_iff_getElem?] at hxm
    obtain ⟨i', hi'⟩ := hxm
    have hi'k : i' < k := by
      have := lt_length_of_getElem? hi'
      rw [List.length_take] at this
      omega
    rw [List.getElem?_take_of_lt hi'k] at hi'
    have hxv : ∃ i'', i'' < k + 1 ∧ v[i'']? = some x := by
      by_cases hi0 : i' = 0
      · subst hi0
        rw [getElem?_set_self_of_lt _ 0 _ (by rw [List.length_set]; omega)] at hi'
        simp only [Option.some.injEq] at hi'
        exact ⟨k, by omega, by rw [← hi']; exact hgk⟩
      · rw [List.getElem?_set_ne (by omega), List.getElem?_set_ne (by omega)] at hi'
        exact ⟨i', by omega, hi'⟩
    obtain ⟨i'', hi''k, hi''⟩ := hxv
    -- where `y` was before
    rw [h4 j hkj] at hy
    by_cases hjk : j = k
    · subst hjk
      rw [getElem?_set_self_of_lt v j _ hlen] at hy
      simp only [Option.some.injEq] at hy
      rw [← hy]
      exact heap_root_max comp hc v (j + 1) hheap (by omega) v[0] hg0 i'' x hi''k hi''
    · rw [List.getElem?_set_ne (Ne.symm hjk)] at hy
      exact htail i'' j x y hi''k (by omega) hi'' hy

/-- The function `__sort_heap` leaves a least element in front. -/
theorem sortHeap_spec (comp : α → α → Bool) (hc : StrictWeakOrder comp) :
    ∀ (k : Nat) (v : List α), k + 1 ≤ v.length → HeapFrom comp v 0 (k + 1) →
      (∀ i j x y, i < k + 1 → k + 1 ≤ j → v[i]? = some x → v[j]? = some y →
        comp y x = false) →
      ∃ v', sortHeap comp (k + 1) v = some v' ∧ v'.Perm v
        ∧ ∀ j x y, 0 < j → v'[0]? = some x → v'[j]? = some y → comp y x = false := by
  intro k
  induction k with
  | zero =>
    intro v _ _ htail
    refine ⟨v, by simp [sortHeap], List.Perm.refl _, ?_⟩
    intro j x y hj hx hy
    exact htail 0 j x y (by omega) (by omega) hx hy
  | succ k ih =>
    intro v hlen hheap htail
    obtain ⟨v1, h1, h2, h3, h4⟩ := popHeap_spec comp hc v (k + 1) (by omega) (by omega) hheap htail
    obtain ⟨v', h5, h6, h7⟩ := ih v1 (by rw [h3.length_eq]; omega) h2 h4
    refine ⟨v', ?_, h6.trans h3, h7⟩
    rw [sortHeap, if_pos (by omega)]
    simp only [h1, Option.bind_eq_bind, Option.some_bind]
    exact h5

/-- The heap sort that `__introsort_loop` falls back on returns, with a least element in
front. -/
theorem partialSort_spec (comp : α → α → Bool) (hc : StrictWeakOrder comp) (v : List α)
    (hlen : 1 ≤ v.length) :
    ∃ v', partialSort comp v = some v' ∧ v'.Perm v
      ∧ ∀ j x y, 0 < j → v'[0]? = some x → v'[j]? = some y → comp y x = false := by
  obtain ⟨h, h1, h2, h3⟩ := makeHeap_spec comp hc v
  have hl : h.length = v.length := h3.length_eq
  obtain ⟨v', h4, h5, h6⟩ := sortHeap_spec comp hc (h.length - 1) h (by omega)
    (by rw [show h.length - 1 + 1 = v.length by omega]; exact h2)
    (by
      intro i j x y _ hj _ hy
      have := lt_length_of_getElem? hy
      omega)
  refine ⟨v', ?_, h5.trans h3, h6⟩
  unfold partialSort
  simp only [h1, Option.bind_eq_bind, Option.some_bind]
  rw [← h4]
  congr 1
  omega


/-! ### Introsort -/

/-- The function `__introsort_loop` returns, and leaves the range guarded for the final
insertion sort. -/
theorem introsortLoop_spec (comp : α → α → Bool) (hc : StrictWeakOrder comp) :
    ∀ (depthLimit : Nat) (v : List α),
      ∃ v', introsortLoop comp depthLimit v = some v' ∧ v'.Perm v ∧ Guarded comp v' := by
  have hshort : ∀ v : List α, ¬ v.length > S_threshold → Guarded comp v := by
    intro v hlen i x hx hi
    have := lt_length_of_getElem? hx
    omega
  intro depthLimit
  induction depthLimit with
  | zero =>
    intro v
    rw [introsortLoop]
    by_cases hlen : v.length > S_threshold
    · rw [if_pos hlen]
      obtain ⟨v', h1, h2, h3⟩ := partialSort_spec comp hc v (by omega)
      refine ⟨v', h1, h2, ?_⟩
      intro i x hx hi
      have hl : 0 < v'.length := by rw [h2.length_eq]; omega
      have h0 : v'[0]? = some v'[0] := List.getElem?_eq_getElem hl
      have hi16 : 0 < i := by unfold S_threshold at hi; omega
      exact ⟨0, v'[0], hi16, h0, h3 i _ x hi16 h0 hx⟩
    · rw [if_neg hlen]
      exact ⟨v, rfl, List.Perm.refl _, hshort v hlen⟩
  | succ depthLimit ih =>
    intro v
    rw [introsortLoop]
    by_cases hlen : v.length > S_threshold
    · rw [if_pos hlen]
      obtain ⟨cut, w, p, h1, h2, h3, h4, h5, h6⟩ :=
        unguardedPartitionPivot_spec comp hc v (by unfold S_threshold at hlen; omega)
      obtain ⟨right, hr1, hr2, _⟩ := ih (w.drop cut)
      obtain ⟨left, hl1, hl2, hl3⟩ := ih (w.take cut)
      have hwl : w.length = v.length := h2.length_eq
      have hll : left.length = cut := by
        rw [hl2.length_eq, List.length_take]; omega
      refine ⟨left ++ right, ?_, ?_, ?_⟩
      · simp only [h1, Option.bind_eq_bind, Option.some_bind, hr1, hl1, pure]
      · refine (List.Perm.append hl2 hr2).trans ?_
        rw [List.take_append_drop]
        exact h2
      · intro i x hx hi
        by_cases hil : i < left.length
        · rw [List.getElem?_append_left hil] at hx
          obtain ⟨j, y, hj, hy, hxy⟩ := hl3 i x hx hi
          exact ⟨j, y, hj, by rw [List.getElem?_append_left (by omega)]; exact hy, hxy⟩
        · rw [List.getElem?_append_right (by omega)] at hx
          -- `x` stands behind the cut, the first element in front of it
          have hxr : x ∈ w.drop cut := hr2.mem_iff.mp (mem_of_getElem? hx)
          obtain ⟨n, hn⟩ := List.mem_iff_getElem?.mp hxr
          rw [List.getElem?_drop] at hn
          have hxp : comp x p = false := h6 _ x hn (by omega)
          have hl0 : left[0]? = some left[0] := List.getElem?_eq_getElem (by omega)
          have hyl : left[0] ∈ w.take cut := hl2.mem_iff.mp (mem_of_getElem? hl0)
          obtain ⟨m, hm⟩ := List.mem_iff_getElem?.mp hyl
          have hmc : m < cut := by
            have := lt_length_of_getElem? hm
            rw [List.length_take] at this
            omega
          rw [List.getElem?_take_of_lt hmc] at hm
          have hpy : comp p left[0] = false := h5 _ _ hm hmc
          refine ⟨0, left[0], by unfold S_threshold at hi; omega, ?_, hc.negTrans x p _ hxp hpy⟩
          rw [List.getElem?_append_left (by omega)]
          exact hl0
    · rw [if_neg hlen]
      exact ⟨v, rfl, List.Perm.refl _, hshort v hlen⟩

/-- The function `std::sort` returns for every range and every strict weak ordering, and what
it returns is a sorted permutation of the range. -/
theorem stdSort_spec (comp : α → α → Bool) (hc : StrictWeakOrder comp) (v : List α) :
    ∃ v', stdSort comp v = some v' ∧ v'.Perm v ∧ SortedBy comp v' := by
  unfold stdSort
  by_cases hlen : v.length = 0
  · rw [if_pos hlen]
    have : v = [] := List.length_eq_zero.mp hlen
    subst this
    exact ⟨[], rfl, List.Perm.refl _, by simp [SortedBy]⟩
  · rw [if_neg hlen]
    obtain ⟨w, h1, h2, h3⟩ := introsortLoop_spec comp hc (lg v.length v.length * 2) v
    obtain ⟨v', h4, h5, h6⟩ := finalInsertionSort_sorted comp hc w h3
    refine ⟨v', ?_, h5.trans h2, h6⟩
    simp only [h1, Option.bind_eq_bind, Option.some_bind]
    exact h4

/-- On a range of at most `S_threshold` elements `std::sort` is a plain insertion sort, which
keeps the order of the elements of every class of equivalent elements. -/
theorem stdSort_stable_of_short (comp : α → α → Bool) (hc : StrictWeakOrder comp) (v : List α)
    (hlen : v.length ≤ S_threshold) :
    ∃ v', stdSort comp v = some v' ∧ ∀ q, EquivClass comp q → v'.filter q = v.filter q := by
  have hloop : ∀ d, introsortLoop comp d v = some v := by
    intro d
    cases d with
    | zero => rw [introsortLoop, if_neg (by omega)]
    | succ d => rw [introsortLoop, if_neg (by omega)]
  unfold stdSort
  by_cases h0 : v.length = 0
  · rw [if_pos h0]
    exact ⟨v, rfl, fun _ _ => rfl⟩
  · rw [if_neg h0]
    obtain ⟨p', h1, _, _, h4⟩ := insertionSort_sorted comp hc v v.length (Nat.le_refl _)
    refine ⟨p', ?_, ?_⟩
    · simp only [hloop, Option.bind_eq_bind, Option.some_bind]
      unfold finalInsertionSort
      rw [if_neg (by omega), h1]
      simp
    · intro q hq
      rw [h4 q hq]
      simp


end SortLemmas

/-! ## Lemmas on the comparisons of the sort operations -/

/-- The comparison `stringLess` is the lexicographic order of byte sequences. -/
theorem stringLess_iff_lt (a b : CppString) : stringLess a b = true ↔ a < b := by
  induction a generalizing b with
  | nil =>
    cases b with
    | nil => simp [stringLess]
    | cons y ys => simp [stringLess]; exact List.Lex.nil
  | cons x xs ih =>
    cases b with
    | nil =>
      simp only [stringLess, Bool.false_eq_true, false_iff]
      exact List.Lex.not_nil_right _ _
    | cons y ys =>
      simp only [stringLess]
      by_cases hxy : x < y
      · simp only [hxy, if_true, true_iff]
        exact List.Lex.rel hxy
      · by_cases hyx : y < x
        · simp only [hxy, hyx, if_false, if_true, Bool.false_eq_true, false_iff]
          intro h
          cases h with
          | cons h => exact absurd hyx (lt_irrefl _)
          | rel h => exact hxy h
        · have heq : x = y := le_antisymm (not_lt.mp hyx) (not_lt.mp hxy)
          subst heq
          simp only [hxy, if_false, ih ys]
          exact (List.Lex.cons_iff).symm

theorem stringLess_eq_false_iff (a b : CppString) : stringLess a b = false ↔ b ≤ a := by
  rw [← not_lt, ← stringLess_iff_lt]
  simp

/-- A comparison of keys that are linearly ordered is a strict weak ordering. -/
theorem strictWeakOrder_of_key {α κ : Type} [LinearOrder κ] (key : α → κ)
    (comp : α → α → Bool) (h : ∀ a b, comp a b = true ↔ key a < key b) :
    StrictWeakOrder comp where
  irrefl := by
    intro a
    cases hc : comp a a with
    | false => rfl
    | true => exact absurd ((h a a).mp hc) (lt_irrefl _)
  trans := by
    intro a b c hab hbc
    exact (h a c).mpr (lt_trans ((h a b).mp hab) ((h b c).mp hbc))
  negTrans := by
    intro a b c hab hbc
    have h1 : key b ≤ key a := not_lt.mp (fun hlt => by rw [(h a b).mpr hlt] at hab; simp at hab)
    have h2 : key c ≤ key b := not_lt.mp (fun hlt => by rw [(h b c).mpr hlt] at hbc; simp at hbc)
    cases hc : comp a c with
    | false => rfl
    | true => exact absurd ((h a c).mp hc) (not_lt.mpr (le_trans h2 h1))

theorem sortedBy_of_key {α κ : Type} [LinearOrder κ] (key : α → κ)
    (comp : α → α → Bool) (h : ∀ a b, comp a b = true ↔ key a < key b) (v : List α)
    (hs : SortedBy comp v) : v.Pairwise (fun a b => key a ≤ key b) := by
  unfold SortedBy at hs
  refine hs.imp ?_
  intro a b hba
  apply not_lt.mp
  intro hlt
  rw [(h b a).mpr hlt] at hba
  simp at hba

/-- A sort operation of the store returns, and returns a permutation of the vector that is
in ascending order of the key. -/
theorem sortBy_key_spec {κ : Type} [LinearOrder κ] (key : Book → κ)
    (comp : Book → Book → Bool) (h : ∀ a b, comp a b = true ↔ key a < key b)
    (books : List Book) :
    ∃ sorted, stdSort comp books = some sorted ∧ sorted.Perm books
      ∧ sorted.Pairwise (fun a b => key a ≤ key b) := by
  obtain ⟨v', h1, h2, h3⟩ := stdSort_spec comp (strictWeakOrder_of_key key comp h) books
  exact ⟨v', h1, h2, sortedBy_of_key key comp h v' h3⟩

theorem sortByTitle_spec (books : List Book) :
    ∃ sorted, sortByTitle books = some sorted ∧ sorted.Perm books
      ∧ sorted.Pairwise (fun a b => a.title ≤ b.title) :=
  sortBy_key_spec (fun b => b.title) _ (fun a b => stringLess_iff_lt a.title b.title) books

theorem sortByAuthor_spec (books : List Book) :
    ∃ sorted, sortByAuthor books = some sorted ∧ sorted.Perm books
      ∧ sorted.Pairwise (fun a b => a.author ≤ b.author) :=
  sortBy_key_spec (fun b => b.author) _ (fun a b => stringLess_iff_lt a.author b.author) books

theorem sortByYear_spec (books : List Book) :
    ∃ sorted, sortByYear books = some sorted ∧ sorted.Perm books
      ∧ sorted.Pairwise (fun a b => a.year ≤ b.year) :=
  sortBy_key_spec (fun b => b.year) _ (fun a b => by simp) books

/-- The records with one given title are a class of equivalent elements for the comparison
of `sortByTitle`. -/
theorem equivClass_title (t : CppString) :
    EquivClass (fun a b : Book => stringLess a.title b.title)
      (fun b => decide (b.title = t)) := by
  intro a b ha hb
  simp only [decide_eq_true_eq] at ha hb
  show stringLess a.title b.title = false
  rw [ha, hb, stringLess_eq_false_iff]

/-! ## Lemmas on the ids and ISBNs of the vector -/

theorem map_modify_of_eq {α β : Type} (f : α → α) (g : α → β) (h : ∀ a, g (f a) = g a)
    (l : List α) (n : Nat) : (l.modify f n).map g = l.map g := by
  induction l generalizing n with
  | nil => cases n <;> rfl
  | cons a l ih =>
    cases n with
    | zero => simp [h]
    | succ n => simp [ih]

theorem map_ite_modify {α β : Type} (c : Prop) [Decidable c] (f : α → α) (g : α → β)
    (h : ∀ a, g (f a) = g a) (l : List α) (n : Nat) :
    (if c then l.modify f n else l).map g = l.map g := by
  split
  · exact map_modify_of_eq f g h l n
  · rfl

theorem deleteRecord_sublist (books : List Book) (id : Int) :
    (deleteRecord books id).2.Sublist books := by
  unfold deleteRecord
  split
  · exact List.eraseIdx_sublist _ _
  · exact List.Sublist.refl _

theorem updateRecord_map_id (books : List Book) (id : Int) (newTitle newAuthor : CppString)
    (newYear : Int) (newIsbn newCategory : CppString) :
    (updateRecord books id newTitle newAuthor newYear newIsbn newCategory).2.map Book.id
      = books.map Book.id := by
  unfold updateRecord
  split
  · rfl
  · simp only
    refine (map_ite_modify _ _ Book.id ?_ _ _).trans ?_
    · intro _; rfl
    refine (map_ite_modify _ _ Book.id ?_ _ _).trans ?_
    · intro _; rfl
    refine (map_ite_modify _ _ Book.id ?_ _ _).trans ?_
    · intro _; rfl
    refine (map_ite_modify _ _ Book.id ?_ _ _).trans ?_
    · intro _; rfl
    refine (map_ite_modify _ _ Book.id ?_ _ _).trans ?_
    · intro _; rfl
    rfl

theorem borrowBook_map (books : List Book) (id : Int) {β : Type} (g : Book → β)
    (h : ∀ b v, g { b with isAvailable := v } = g b) :
    (borrowBook books id).2.map g = books.map g := by
  unfold borrowBook
  split
  · rfl
  · split
    · rfl
    · exact map_modify_of_eq _ g (fun b => h b false) _ _

theorem returnBook_map (books : List Book) (id : Int) {β : Type} (g : Book → β)
    (h : ∀ b v, g { b with isAvailable := v } = g b) :
    (returnBook books id).2.map g = books.map g := by
  unfold returnBook
  split
  · rfl
  · split
    · rfl
    · exact map_modify_of_eq _ g (fun b => h b true) _ _

theorem addRecord_ids_nodup (books : List Book) (title author : CppString) (year : Int)
    (isbn category : CppString) (hnd : (books.map Book.id).Nodup)
    (hmax : ∀ b ∈ books, b.id < INT_MAX) :
    ((addRecord books title author year isbn category).2.map Book.id).Nodup := by
  rw [addRecord_eq]
  repeat' split
  all_goals try exact hnd
  rw [List.map_append, List.nodup_append]
  refine ⟨hnd, by simp, ?_⟩
  intro a ha hb
  simp only [List.map_cons, List.map_nil, List.mem_singleton] at hb
  rw [List.mem_map] at ha
  obtain ⟨x, hx, rfl⟩ := ha
  have := (generateNextId_spec books hmax).1 x hx
  omega

theorem addRecord_isbns_nodup (books : List Book) (title author : CppString) (year : Int)
    (isbn category : CppString) (hnd : (books.map Book.isbn).Nodup) :
    ((addRecord books title author year isbn category).2.map Book.isbn).Nodup := by
  rw [addRecord_eq]
  repeat' split
  all_goals try exact hnd
  rename_i hdup
  rw [List.map_append, List.nodup_append]
  refine ⟨hnd, by simp, ?_⟩
  intro a ha hb
  simp only [List.map_cons, List.map_nil, List.mem_singleton] at hb
  rw [List.mem_map] at ha
  obtain ⟨x, hx, rfl⟩ := ha
  exact hdup ⟨x, hx, hb⟩

/-- A sort operation keeps a key of the records free of duplicates. -/
theorem nodup_map_of_perm {β : Type} (g : Book → β) (books sorted : List Book)
    (hp : sorted.Perm books) (hnd : (books.map g).Nodup) : (sorted.map g).Nodup :=
  (hp.map g).nodup_iff.mpr hnd

/-- Every operation of the store except `updateRecord` keeps the ISBNs pairwise distinct. -/
theorem isbns_stay_distinct_without_update (books : List Book)
    (hnd : (books.map Book.isbn).Nodup) :
    (∀ title author year isbn category,
        ((addRecord books title author year isbn category).2.map Book.isbn).Nodup)
    ∧ (∀ id, ((deleteRecord books id).2.map Book.isbn).Nodup)
    ∧ (∀ id, ((borrowBook books id).2.map Book.isbn).Nodup)
    ∧ (∀ id, ((returnBook books id).2.map Book.isbn).Nodup)
    ∧ (∃ sorted, sortByTitle books = some sorted ∧ (sorted.map Book.isbn).Nodup)
    ∧ (∃ sorted, sortByAuthor books = some sorted ∧ (sorted.map Book.isbn).Nodup)
    ∧ (∃ sorted, sortByYear books = some sorted ∧ (sorted.map Book.isbn).Nodup) := by
  refine ⟨?_, ?_, ?_, ?_, ?_, ?_, ?_⟩
  · intro title author year isbn category
    exact addRecord_isbns_nodup books title author year isbn category hnd
  · intro id
    exact hnd.sublist ((deleteRecord_sublist books id).map Book.isbn)
  · intro id
    rw [borrowBook_map books id Book.isbn (fun _ _ => rfl)]; exact hnd
  · intro id
    rw [returnBook_map books id Book.isbn (fun _ _ => rfl)]; exact hnd
  · obtain ⟨s, h1, h2, _⟩ := sortByTitle_spec books
    exact ⟨s, h1, nodup_map_of_perm Book.isbn books s h2 hnd⟩
  · obtain ⟨s, h1, h2, _⟩ := sortByAuthor_spec books
    exact ⟨s, h1, nodup_map_of_perm Book.isbn books s h2 hnd⟩
  · obtain ⟨s, h1, h2, _⟩ := sortByYear_spec books
    exact ⟨s, h1, nodup_map_of_perm Book.isbn books s h2 hnd⟩

/-! ## Lemmas on lookup and delete -/

theorem searchRecordByID_eq_none (books : List Book) (id : Int) :
    searchRecordByID books id = none ↔ ∀ b ∈ books, b.id ≠ id := by
  unfold searchRecordByID
  rw [findIf_eq_none]
  simp

theorem searchRecordByID_eq_some (books : List Book) (id : Int) (p : Nat)
    (h : searchRecordByID books id = some p) :
    ∃ pre b post, books = pre ++ b :: post ∧ pre.length = p ∧ b.id = id
      ∧ ∀ x ∈ pre, x.id ≠ id := by
  obtain ⟨pre, b, post, h1, h2, h3, h4⟩ := findIf_eq_some _ books p h
  exact ⟨pre, b, post, h1, h2, by simpa using h3, fun x hx => by simpa using h4 x hx⟩

theorem recordByID_append_cons (pre : List Book) (b : Book) (post : List Book) (id : Int)
    (hb : b.id = id) (hpre : ∀ x ∈ pre, x.id ≠ id) :
    recordByID (pre ++ b :: post) id = some b := by
  unfold recordByID
  rw [searchRecordByID_append_cons pre b post id hb hpre]
  exact getElem?_append_cons_length pre b post

theorem recordByID_eq_none (books : List Book) (id : Int) (h : ∀ b ∈ books, b.id ≠ id) :
    recordByID books id = none := by
  unfold recordByID
  rw [(searchRecordByID_eq_none books id).mpr h]
  rfl

/-- With pairwise distinct ids the lookup finds a record exactly when it is in the vector
under that id. -/
theorem recordByID_eq_some_iff (books : List Book) (hnd : (books.map Book.id).Nodup) (id : Int)
    (b : Book) : recordByID books id = some b ↔ b ∈ books ∧ b.id = id := by
  constructor
  · intro h
    by_cases hex : ∃ x ∈ books, x.id = id
    · obtain ⟨pre, x, post, rfl, hx, hpre⟩ := exists_first_id books id hex
      rw [recordByID_append_cons pre x post id hx hpre] at h
      simp only [Option.some.injEq] at h
      subst h
      exact ⟨by simp, hx⟩
    · rw [recordByID_eq_none books id (fun x hx hxid => hex ⟨x, hx, hxid⟩)] at h
      simp at h
  · rintro ⟨hb, hid⟩
    obtain ⟨pre, x, post, rfl, hx, hpre⟩ := exists_first_id books id ⟨b, hb, hid⟩
    rw [recordByID_append_cons pre x post id hx hpre]
    -- `b` and `x` carry the same id, so they are the same record
    rw [List.map_append, List.map_cons, List.nodup_append] at hnd
    obtain ⟨_, h2, _⟩ := hnd
    rw [List.nodup_cons] at h2
    simp only [List.mem_append, List.mem_cons] at hb
    rcases hb with hb | rfl | hb
    · exact absurd hid (hpre b hb)
    · rfl
    · exact absurd (List.mem_map.mpr ⟨b, hb, by rw [hid, hx]⟩) h2.1

/-- With pairwise distinct ids the lookup does not depend on the order of the vector. -/
theorem recordByID_of_perm (books sorted : List Book) (hp : sorted.Perm books)
    (hnd : (books.map Book.id).Nodup) (id : Int) : recordByID sorted id = recordByID books id := by
  have hnd2 : (sorted.map Book.id).Nodup := (hp.map Book.id).nodup_iff.mpr hnd
  cases h : recordByID books id with
  | some b =>
    rw [recordByID_eq_some_iff books hnd] at h
    rw [recordByID_eq_some_iff sorted hnd2]
    exact ⟨hp.mem_iff.mpr h.1, h.2⟩
  | none =>
    cases h2 : recordByID sorted id with
    | none => rfl
    | some b =>
      rw [recordByID_eq_some_iff sorted hnd2] at h2
      have := (recordByID_eq_some_iff books hnd id b).mpr ⟨hp.mem_iff.mp h2.1, h2.2⟩
      rw [h] at this
      simp at this

theorem deleteRecord_append_cons (pre : List Book) (b : Book) (post : List Book) (id : Int)
    (hb : b.id = id) (hpre : ∀ x ∈ pre, x.id ≠ id) :
    deleteRecord (pre ++ b :: post) id = (true, pre ++ post) := by
  have h := searchRecordByID_append_cons pre b post id hb hpre
  unfold searchRecordByID at h
  unfold deleteRecord
  rw [h]
  simp only [eraseIdx_append_cons]

theorem deleteRecord_not_found (books : List Book) (id : Int) (h : ∀ b ∈ books, b.id ≠ id) :
    deleteRecord books id = (false, books) := by
  have h2 := (searchRecordByID_eq_none books id).mpr h
  unfold searchRecordByID at h2
  unfold deleteRecord
  rw [h2]

theorem borrowBook_not_found (books : List Book) (id : Int) (h : ∀ b ∈ books, b.id ≠ id) :
    borrowBook books id = (LendResult.notFound, books) := by
  unfold borrowBook
  rw [(searchRecordByID_eq_none books id).mpr h]

/-! ## Lemmas on update -/

theorem ite_modify_append_cons {α : Type} (c : Bool) (f : α → α) (pre : List α) (x : α)
    (post : List α) :
    (if c = true then (pre ++ x :: post).modify f pre.length else pre ++ x :: post)
      = pre ++ (if c = true then f x else x) :: post := by
  cases c
  · simp
  · simp only [if_true, modify_append_cons]

/-- The vector after `updateRecord` of `LibraryManager.cpp`, when the first record with the
id is `b`. -/
theorem updateRecord_append_cons (pre : List Book) (b : Book) (post : List Book) (id : Int)
    (newTitle newAuthor : CppString) (newYear : Int) (newIsbn newCategory : CppString)
    (hb : b.id = id) (hpre : ∀ x ∈ pre, x.id ≠ id) :
    updateRecord (pre ++ b :: post) id newTitle newAuthor newYear newIsbn newCategory =
      (true, pre ++
        { id := b.id,
          title := if newTitle = [] then b.title else newTitle,
          author := if newAuthor = [] then b.author else newAuthor,
          year := if 0 < newYear ∧ isValidYear newYear = true then newYear else b.year,
          isbn := if newIsbn ≠ [] ∧ isValidISBN newIsbn = true then newIsbn else b.isbn,
          category := if newCategory = [] then b.category else newCategory,
          isAvailable := b.isAvailable } :: post) := by
  unfold updateRecord
  rw [searchRecordByID_append_cons pre b post id hb hpre]
  simp only [ite_modify_append_cons]
  congr 2
  clear hb hpre
  by_cases h1 : newTitle = [] <;> by_cases h2 : newAuthor = [] <;>
    by_cases h3 : newCategory = [] <;> by_cases h4 : newIsbn = [] <;>
    by_cases hy : 0 < newYear <;> cases hv : isValidYear newYear <;>
    cases hi : isValidISBN newIsbn <;>
    simp [h1, h2, h3, h4, hy, hv, hi, List.isEmpty_iff]

/-- The vector after `updateRecord` of `library_manager_single.cpp`, when the first record
with the id is `b`. -/
theorem updateRecordSingle_append_cons (pre : List Book) (b : Book) (post : List Book)
    (id : Int) (newTitle newAuthor : CppString) (newYear : Int)
    (newIsbn newCategory : CppString) (hb : b.id = id) (hpre : ∀ x ∈ pre, x.id ≠ id) :
    updateRecordSingle (pre ++ b :: post) id newTitle newAuthor newYear newIsbn newCategory =
      (true, pre ++
        { id := b.id,
          title := if newTitle = [] then b.title else newTitle,
          author := if newAuthor = [] then b.author else newAuthor,
          year := if 0 < newYear then newYear else b.year,
          isbn := if newIsbn = [] then b.isbn else newIsbn,
          category := if newCategory = [] then b.category else newCategory,
          isAvailable := b.isAvailable } :: post) := by
  unfold updateRecordSingle
  rw [searchRecordByID_append_cons pre b post id hb hpre]
  simp only [ite_modify_append_cons]
  congr 2
  clear hb hpre
  by_cases h1 : newTitle = [] <;> by_cases h2 : newAuthor = [] <;>
    by_cases h3 : newCategory = [] <;> by_cases h4 : newIsbn = [] <;>
    by_cases hy : 0 < newYear <;>
    simp [h1, h2, h3, h4, hy, List.isEmpty_iff]

theorem updateRecord_not_found (books : List Book) (id : Int)
    (newTitle newAuthor : CppString) (newYear : Int) (newIsbn newCategory : CppString)
    (h : ∀ b ∈ books, b.id ≠ id) :
    updateRecord books id newTitle newAuthor newYear newIsbn newCategory = (false, books) := by
  unfold updateRecord
  rw [(searchRecordByID_eq_none books id).mpr h]

theorem updateRecordSingle_not_found (books : List Book) (id : Int)
    (newTitle newAuthor : CppString) (newYear : Int) (newIsbn newCategory : CppString)
    (h : ∀ b ∈ books, b.id ≠ id) :
    updateRecordSingle books id newTitle newAuthor newYear newIsbn newCategory
      = (false, books) := by
  unfold updateRecordSingle
  rw [(searchRecordByID_eq_none books id).mpr h]

/-! ## Lemmas on the substring searches -/

theorem startsWith_iff (s str : CppString) : startsWith s str = true ↔ ∃ r, s = str ++ r := by
  induction s generalizing str with
  | nil =>
    cases str with
    | nil => simp [startsWith]
    | cons y ys => simp [startsWith]
  | cons x xs ih =>
    cases str with
    | nil => simp [startsWith]
    | cons y ys =>
      simp only [startsWith, Bool.and_eq_true, decide_eq_true_eq, ih ys, List.cons_append,
        List.cons.injEq]
      constructor
      · rintro ⟨h1, r, h2⟩
        exact ⟨r, h1, h2⟩
      · rintro ⟨r, h1, h2⟩
        exact ⟨h1, r, h2⟩

/-- The function `find` reports a position exactly when `str` occurs in the string as a
contiguous run of characters. -/
theorem stringFind_isSome_iff (s str : CppString) :
    (stringFind s str).isSome = true ↔ ∃ front back, s = front ++ str ++ back := by
  induction s with
  | nil =>
    cases str with
    | nil => simp [stringFind]
    | cons y ys => simp [stringFind]
  | cons x xs ih =>
    rw [stringFind]
    by_cases hsw : startsWith (x :: xs) str = true
    · rw [if_pos hsw]
      obtain ⟨r, hr⟩ := (startsWith_iff _ _).mp hsw
      simp only [Option.isSome_some, true_iff]
      exact ⟨[], r, by simpa using hr⟩
    · rw [if_neg hsw]
      simp only [Option.isSome_map', ih]
      constructor
      · rintro ⟨front, back, h⟩
        exact ⟨x :: front, back, by rw [h]; simp⟩
      · rintro ⟨front, back, h⟩
        cases front with
        | nil =>
          exact absurd ((startsWith_iff _ _).mpr ⟨back, by simpa using h⟩) hsw
        | cons f front =>
          simp only [List.cons_append, List.cons.injEq] at h
          exact ⟨front, back, h.2⟩

theorem stringFind_empty (s : CppString) : stringFind s [] = some 0 := by
  cases s <;> simp [stringFind, startsWith]

theorem mem_collectMatches (test : Book → Bool) (books : List Book) (i0 j : Nat) :
    j ∈ collectMatches test books i0
      ↔ ∃ k b, j = i0 + k ∧ books[k]? = some b ∧ test b = true := by
  induction books generalizing i0 with
  | nil => simp [collectMatches]
  | cons a books ih =>
    have hrest : j ∈ collectMatches test books (i0 + 1)
        ↔ ∃ k b, j = i0 + (k + 1) ∧ (a :: books)[k + 1]? = some b ∧ test b = true := by
      rw [ih]
      constructor
      · rintro ⟨k, b, h1, h2, h3⟩
        exact ⟨k, b, by omega, by simpa using h2, h3⟩
      · rintro ⟨k, b, h1, h2, h3⟩
        exact ⟨k, b, by omega, by simpa using h2, h3⟩
    constructor
    · intro h
      rw [collectMatches] at h
      by_cases ha : test a = true
      · rw [if_pos ha] at h
        rcases List.mem_cons.mp h with rfl | h
        · exact ⟨0, a, rfl, by simp, ha⟩
        · obtain ⟨k, b, h1, h2, h3⟩ := hrest.mp h
          exact ⟨k + 1, b, h1, h2, h3⟩
      · rw [if_neg ha] at h
        obtain ⟨k, b, h1, h2, h3⟩ := hrest.mp h
        exact ⟨k + 1, b, h1, h2, h3⟩
    · rintro ⟨k, b, h1, h2, h3⟩
      rw [collectMatches]
      cases k with
      | zero =>
        simp only [List.getElem?_cons_zero, Option.some.injEq] at h2
        subst h2
        rw [if_pos h3]
        simp [h1]
      | succ k =>
        have := hrest.mpr ⟨k, b, h1, h2, h3⟩
        by_cases ha : test a = true
        · rw [if_pos ha]; exact List.mem_cons_of_mem _ this
        · rw [if_neg ha]; exact this

theorem collectMatches_increasing (test : Book → Bool) (books : List Book) (i0 : Nat) :
    (collectMatches test books i0).Pairwise (fun i j => i < j) := by
  induction books generalizing i0 with
  | nil => simp [collectMatches]
  | cons a books ih =>
    rw [collectMatches]
    split
    · rw [List.pairwise_cons]
      refine ⟨?_, ih (i0 + 1)⟩
      intro j hj
      obtain ⟨k, _, h1, _, _⟩ := (mem_collectMatches test books (i0 + 1) j).mp hj
      omega
    · exact ih (i0 + 1)

/-- The records that the collected pointers designate are the matching records, in the order
of the vector. -/
theorem collectMatches_records (test : Book → Bool) (books : List Book) (pre : List Book) :
    (collectMatches test books pre.length).filterMap (fun j => (pre ++ books)[j]?)
      = books.filter test := by
  induction books generalizing pre with
  | nil => simp [collectMatches]
  | cons a books ih =>
    have h := ih (pre ++ [a])
    simp only [List.length_append, List.length_singleton, List.append_assoc,
      List.singleton_append] at h
    rw [collectMatches]
    by_cases ha : test a = true
    · rw [if_pos ha, List.filterMap_cons, getElem?_append_cons_length, h, List.filter_cons,
        if_pos ha]
    · rw [if_neg ha, h, List.filter_cons, if_neg ha]

theorem collectMatches_all (test : Book → Bool) (books : List Book) (i0 : Nat)
    (h : ∀ b ∈ books, test b = true) :
    collectMatches test books i0 = List.range' i0 books.length := by
  induction books generalizing i0 with
  | nil => simp [collectMatches]
  | cons a books ih =>
    rw [collectMatches, if_pos (h a (List.mem_cons_self _ _)),
      ih (i0 + 1) (fun b hb => h b (List.mem_cons_of_mem _ hb))]
    simp [List.range']

/-- In `LibraryManager.cpp` a patch year outside 1000..2030 and a patch ISBN that does not
match the pattern are dropped, and the rest of the patch is applied. -/
theorem updateRecord_ignores_invalid (pre : List Book) (b : Book) (post : List Book) (id : Int)
    (newTitle newAuthor : CppString) (newYear : Int) (newIsbn newCategory : CppString)
    (hb : b.id = id) (hpre : ∀ x ∈ pre, x.id ≠ id) :
    ∃ new, updateRecord (pre ++ b :: post) id newTitle newAuthor newYear newIsbn newCategory
        = (true, pre ++ new :: post)
      ∧ KeepsAbsentFields newTitle newAuthor newYear newIsbn newCategory b new
      ∧ (¬ (1000 ≤ newYear ∧ newYear ≤ 2030) → new.year = b.year)
      ∧ (1000 ≤ newYear ∧ newYear ≤ 2030 → new.year = newYear)
      ∧ (isValidISBN newIsbn = false → new.isbn = b.isbn)
      ∧ (newIsbn ≠ [] → isValidISBN newIsbn = true → new.isbn = newIsbn) := by
  refine ⟨_, updateRecord_append_cons pre b post id newTitle newAuthor newYear newIsbn
    newCategory hb hpre, ⟨rfl, rfl, rfl, rfl, rfl, ?_, ?_⟩, ?_, ?_, ?_, ?_⟩
  · intro h; simp [h]
  · intro h; simp [h]
  · intro h
    have : isValidYear newYear = false := by
      simp only [isValidYear, Bool.and_eq_false_iff, decide_eq_false_iff_not]
      omega
    simp [this]
  · intro h
    have : isValidYear newYear = true := by
      simp only [isValidYear, Bool.and_eq_true, decide_eq_true_eq]
      omega
    have h0 : 0 < newYear := by omega
    simp [this, h0]
  · intro h; simp [h]
  · intro h1 h2; simp [h1, h2]

/-- In `library_manager_single.cpp` every positive patch year and every non-empty patch ISBN
is applied. -/
theorem updateRecordSingle_applies (pre : List Book) (b : Book) (post : List Book) (id : Int)
    (newTitle newAuthor : CppString) (newYear : Int) (newIsbn newCategory : CppString)
    (hb : b.id = id) (hpre : ∀ x ∈ pre, x.id ≠ id) :
    ∃ new, updateRecordSingle (pre ++ b :: post) id newTitle newAuthor newYear newIsbn
        newCategory = (true, pre ++ new :: post)
      ∧ KeepsAbsentFields newTitle newAuthor newYear newIsbn newCategory b new
      ∧ (0 < newYear → new.year = newYear)
      ∧ (newIsbn ≠ [] → new.isbn = newIsbn) := by
  refine ⟨_, updateRecordSingle_append_cons pre b post id newTitle newAuthor newYear newIsbn
    newCategory hb hpre, ⟨rfl, rfl, rfl, rfl, rfl, ?_, ?_⟩, ?_, ?_⟩
  · intro h; simp [h]
  · intro h; simp [h]
  · intro h; simp [h]
  · intro h; simp [h]

/-! ## Lemmas on the lending flag -/

theorem returnBook_not_found (books : List Book) (id : Int) (h : ∀ b ∈ books, b.id ≠ id) :
    returnBook books id = (LendResult.notFound, books) := by
  unfold returnBook
  rw [(searchRecordByID_eq_none books id).mpr h]

theorem updateRecord_map_flag (books : List Book) (id : Int)
    (newTitle newAuthor : CppString) (newYear : Int) (newIsbn newCategory : CppString) :
    (updateRecord books id newTitle newAuthor newYear newIsbn newCategory).2.map
        (fun b => (b.id, b.isAvailable)) = books.map (fun b => (b.id, b.isAvailable)) := by
  unfold updateRecord
  split
  · rfl
  · simp only
    refine (map_ite_modify _ _ (fun b : Book => (b.id, b.isAvailable)) ?_ _ _).trans ?_
    · intro _; rfl
    refine (map_ite_modify _ _ (fun b : Book => (b.id, b.isAvailable)) ?_ _ _).trans ?_
    · intro _; rfl
    refine (map_ite_modify _ _ (fun b : Book => (b.id, b.isAvailable)) ?_ _ _).trans ?_
    · intro _; rfl
    refine (map_ite_modify _ _ (fun b : Book => (b.id, b.isAvailable)) ?_ _ _).trans ?_
    · intro _; rfl
    refine (map_ite_modify _ _ (fun b : Book => (b.id, b.isAvailable)) ?_ _ _).trans ?_
    · intro _; rfl
    rfl

theorem updateRecordSingle_map_flag (books : List Book) (id : Int)
    (newTitle newAuthor : CppString) (newYear : Int) (newIsbn newCategory : CppString) :
    (updateRecordSingle books id newTitle newAuthor newYear newIsbn newCategory).2.map
        (fun b => (b.id, b.isAvailable)) = books.map (fun b => (b.id, b.isAvailable)) := by
  unfold updateRecordSingle
  split
  · rfl
  · simp only
    refine (map_ite_modify _ _ (fun b : Book => (b.id, b.isAvailable)) ?_ _ _).trans ?_
    · intro _; rfl
    refine (map_ite_modify _ _ (fun b : Book => (b.id, b.isAvailable)) ?_ _ _).trans ?_
    · intro _; rfl
    refine (map_ite_modify _ _ (fun b : Book => (b.id, b.isAvailable)) ?_ _ _).trans ?_
    · intro _; rfl
    refine (map_ite_modify _ _ (fun b : Book => (b.id, b.isAvailable)) ?_ _ _).trans ?_
    · intro _; rfl
    refine (map_ite_modify _ _ (fun b : Book => (b.id, b.isAvailable)) ?_ _ _).trans ?_
    · intro _; rfl
    rfl

theorem addRecord_appends (books : List Book) (title author : CppString) (year : Int)
    (isbn category : CppString) :
    ∃ added, (addRecord books title author year isbn category).2 = books ++ added
      ∧ ∀ b ∈ added, b.isAvailable = true := by
  rw [addRecord_eq]
  split_ifs <;>
    first
    | (refine ⟨[], ?_, ?_⟩ <;> simp <;> done)
    | (refine ⟨[_], rfl, ?_⟩; simp)

theorem borrowBook_flag (books : List Book) (id : Int) :
    (borrowBook books id).2 = books ∨ FlagMoved true false books (borrowBook books id).2 := by
  by_cases hex : ∃ x ∈ books, x.id = id
  · obtain ⟨pre, b, post, rfl, hb, hpre⟩ := exists_first_id books id hex
    rw [borrowBook_append_cons pre b post id hb hpre]
    cases hav : b.isAvailable
    · left; simp
    · right; exact ⟨pre, b, post, rfl, hav, by simp⟩
  · left
    rw [borrowBook_not_found books id (fun x hx hxid => hex ⟨x, hx, hxid⟩)]

theorem returnBook_flag (books : List Book) (id : Int) :
    (returnBook books id).2 = books ∨ FlagMoved false true books (returnBook books id).2 := by
  by_cases hex : ∃ x ∈ books, x.id = id
  · obtain ⟨pre, b, post, rfl, hb, hpre⟩ := exists_first_id books id hex
    rw [returnBook_append_cons pre b post id hb hpre]
    cases hav : b.isAvailable
    · right; exact ⟨pre, b, post, rfl, hav, by simp⟩
    · left; simp
  · left
    rw [returnBook_not_found books id (fun x hx hxid => hex ⟨x, hx, hxid⟩)]

/-! ## Lemmas on the counts -/

theorem getTotalBooks_eq (books : List Book) (h : (books.length : Int) ≤ INT_MAX) :
    getTotalBooks books = books.length := by
  unfold getTotalBooks
  unfold INT_MAX at h
  unfold wrapInt32
  omega

theorem getAvailableBooks_eq (books : List Book) (h : (books.length : Int) ≤ INT_MAX) :
    getAvailableBooks books = (books.countP fun book => book.isAvailable) := by
  have hle : List.countP (fun book : Book => book.isAvailable) books ≤ books.length :=
    List.countP_le_length _
  unfold getAvailableBooks
  unfold INT_MAX at h
  unfold wrapInt32
  omega

theorem getBorrowedBooks_eq (books : List Book) (h : (books.length : Int) ≤ INT_MAX) :
    getBorrowedBooks books = (books.countP fun book => !book.isAvailable) := by
  have hsum := List.length_eq_countP_add_countP (fun book : Book => book.isAvailable) books
  have hc : List.countP (fun a => decide ¬(a.isAvailable = true)) books
      = List.countP (fun book => !book.isAvailable) books := by
    congr 1; funext a; cases a.isAvailable <;> rfl
  rw [hc] at hsum
  unfold getBorrowedBooks
  rw [getAvailableBooks_eq books h]
  unfold INT_MAX at h
  unfold wrapInt32 sizeofSizeT
  omega

/-! ## Lemmas on the CSV export -/

theorem digitByte_val (d : Nat) : (digitByte d).val = 48 + d % 10 := by
  unfold digitByte
  show (48 + d % 10) % 256 = 48 + d % 10
  omega

theorem isDigit_digitByte (d : Nat) : isDigit (digitByte d) = true := by
  unfold isDigit
  rw [digitByte_val]
  simp
  omega

theorem digitsAux_append (fuel n : Nat) (acc : CppString) :
    digitsAux fuel n acc = digitsAux fuel n [] ++ acc := by
  induction fuel generalizing n acc with
  | zero => simp [digitsAux]
  | succ fuel ih =>
    unfold digitsAux
    split
    · simp
    · rw [ih (n / 10) (digitByte n :: acc), ih (n / 10) [digitByte n]]
      simp

theorem digitsAux_isDigit (fuel n : Nat) : ∀ b ∈ digitsAux fuel n [], isDigit b = true := by
  induction fuel generalizing n with
  | zero => simp [digitsAux]
  | succ fuel ih =>
    unfold digitsAux
    split
    · simp [isDigit_digitByte]
    · rw [digitsAux_append]
      intro b hb
      rcases List.mem_append.mp hb with hb | hb
      · exact ih _ b hb
      · simp at hb; subst hb; exact isDigit_digitByte n

theorem decimalValue_append_singleton (s : CppString) (b : Byte) :
    decimalValue (s ++ [b]) = 10 * decimalValue s + (b.val - 48) := by
  simp [decimalValue, List.foldl_append]

/-- The fuel of `natDigits` is enough: the digits produced denote the number, there is at least
one of them, and the first is `0` only for the number 0. -/
theorem digitsAux_value (fuel n : Nat) (h : n < fuel) :
    decimalValue (digitsAux fuel n []) = n ∧ digitsAux fuel n [] ≠ []
      ∧ ((digitsAux fuel n []).head? = some 48 → n = 0) := by
  induction fuel generalizing n with
  | zero => omega
  | succ fuel ih =>
    unfold digitsAux
    split
    · rename_i hn
      refine ⟨?_, by simp, ?_⟩
      · simp [decimalValue, digitByte_val]; omega
      · intro h0
        simp only [List.head?_cons, Option.some.injEq] at h0
        have : 48 + n % 10 = 48 := by rw [← digitByte_val, h0]; rfl
        omega
    · rename_i hn
      rw [digitsAux_append]
      obtain ⟨h1, h2, h3⟩ := ih (n / 10) (by omega)
      refine ⟨?_, by simp, ?_⟩
      · rw [decimalValue_append_singleton, h1, digitByte_val]; omega
      · intro h0
        cases hd : digitsAux fuel (n / 10) [] with
        | nil => exact absurd hd h2
        | cons x xs =>
          rw [hd] at h0 h3
          have := h3 (by simpa using h0)
          omega

theorem natDigits_spec (n : Nat) :
    (∀ b ∈ natDigits n, isDigit b = true) ∧ decimalValue (natDigits n) = n
      ∧ natDigits n ≠ [] ∧ ((natDigits n).head? = some 48 → n = 0) :=
  ⟨digitsAux_isDigit _ _, digitsAux_value _ _ (Nat.lt_succ_self n)⟩

theorem commas_append (s t : CppString) : commas (s ++ t) = commas s + commas t := by
  simp [commas]

theorem commas_eq_zero (s : CppString) (h : ∀ b ∈ s, b ≠ 44) : commas s = 0 := by
  unfold commas
  rw [List.count_eq_zero]
  intro hmem
  exact h _ hmem rfl

theorem commas_pos (s : CppString) (h : (44 : Byte) ∈ s) : 0 < commas s := by
  unfold commas
  exact List.count_pos_iff.mpr h

theorem ne_comma_of_isDigit (b : Byte) (h : isDigit b = true) : b ≠ 44 := by
  intro hb
  subst hb
  revert h
  decide

theorem commas_decimal (n : Int) : commas (decimal n) = 0 := by
  apply commas_eq_zero
  intro b hb
  unfold decimal at hb
  split at hb
  · rcases List.mem_cons.mp hb with hb | hb
    · subst hb; decide
    · exact ne_comma_of_isDigit b ((natDigits_spec _).1 b hb)
  · exact ne_comma_of_isDigit b ((natDigits_spec _).1 b hb)

theorem commas_toCSV (b : Book) :
    commas (toCSV b) = 6 + commas b.title + commas b.author + commas b.isbn
      + commas b.category := by
  have h1 : commas (lit ",") = 1 := by decide
  have h2 : commas (lit "Available") = 0 := by decide
  have h3 : commas (lit "Borrowed") = 0 := by decide
  unfold toCSV
  simp only [commas_append, commas_decimal, h1]
  split <;> simp only [h2, h3] <;> omega

theorem exportToCSV_foldl (books : List Book) (file : CppString) :
    books.foldl (fun file book => file ++ toCSV book ++ lit "\n") file
      = file ++ (books.map fun book => toCSV book ++ lit "\n").flatten := by
  induction books generalizing file with
  | nil => simp
  | cons b bs ih =>
    simp only [List.foldl_cons, List.map_cons, List.flatten_cons]
    rw [ih]
    simp only [List.append_assoc]

/-! ## Lemmas on the ISBN pattern -/

theorem nil_mem_repeatFrom_cls (p : Byte → Bool) (max min : Nat) (s : CppString) :
    [] ∈ repeatFrom (Regex.cls p).remainders max min s
      ↔ min ≤ s.length ∧ s.length ≤ max ∧ ∀ b ∈ s, p b = true := by
  induction max generalizing min s with
  | zero =>
    unfold repeatFrom
    cases s with
    | nil => by_cases h : min = 0 <;> simp [h]
    | cons c rest => by_cases h : min = 0 <;> simp [h]
  | succ max ih =>
    unfold repeatFrom
    cases s with
    | nil =>
      by_cases h : min = 0 <;> simp [h, Regex.remainders]
    | cons c rest =>
      have h1 : ([] : CppString) ∉ (if min = 0 then [c :: rest] else []) := by
        by_cases h : min = 0 <;> simp [h]
      rw [List.mem_append]
      simp only [h1, false_or]
      cases hp : p c
      · have hstep : (Regex.cls p).remainders (c :: rest) = [] := by
          simp [Regex.remainders, hp]
        rw [hstep]
        simp [hp]
      · have hstep : (Regex.cls p).remainders (c :: rest) = [rest] := by
          simp [Regex.remainders, hp]
        rw [hstep]
        simp only [List.flatMap_cons, List.flatMap_nil, List.append_nil]
        rw [ih]
        simp only [List.length_cons, List.mem_cons, forall_eq_or_imp, hp, true_and]
        constructor
        · rintro ⟨h2, h3, h4⟩; exact ⟨by omega, by omega, h4⟩
        · rintro ⟨h2, h3, h4⟩; exact ⟨by omega, by omega, h4⟩

theorem regexMatch_rep_cls (p : Byte → Bool) (min max : Nat) (s : CppString) :
    regexMatch (.rep (.cls p) min max) s
      = (decide (min ≤ s.length) && decide (s.length ≤ max) && s.all p) := by
  rw [Bool.eq_iff_iff]
  unfold regexMatch
  rw [List.any_eq_true]
  simp only [Bool.and_eq_true, decide_eq_true_eq, List.all_eq_true, ← nil_mem_repeatFrom_cls,
    and_assoc]
  constructor
  · rintro ⟨x, hx, hx2⟩
    rw [List.isEmpty_iff] at hx2
    subst hx2
    exact hx
  · intro h
    exact ⟨[], h, rfl⟩

theorem regexMatch_alt (r t : Regex) (s : CppString) :
    regexMatch (.alt r t) s = (regexMatch r s || regexMatch t s) := by
  simp [regexMatch, Regex.remainders, List.any_append]

/-- The three disjuncts of `isValidISBN` are what `std::regex_match` computes for the
pattern. -/
theorem regexMatch_isbnPattern (s : CppString) : regexMatch isbnPattern s = isValidISBN s := by
  unfold isbnPattern isValidISBN
  rw [regexMatch_alt, regexMatch_alt, regexMatch_rep_cls, regexMatch_rep_cls,
    regexMatch_rep_cls]
  rw [Bool.eq_iff_iff]
  simp only [Bool.or_eq_true, Bool.and_eq_true, decide_eq_true_eq, Bool.or_assoc]
  constructor
  · rintro (⟨⟨h1, h2⟩, h3⟩ | ⟨⟨h1, h2⟩, h3⟩ | h)
    · exact Or.inl ⟨by omega, h3⟩
    · exact Or.inr (Or.inl ⟨by omega, h3⟩)
    · exact Or.inr (Or.inr h)
  · rintro (⟨h1, h3⟩ | ⟨h1, h3⟩ | h)
    · exact Or.inl ⟨⟨by omega, by omega⟩, h3⟩
    · exact Or.inr (Or.inl ⟨⟨by omega, by omega⟩, h3⟩)
    · exact Or.inr (Or.inr h)

theorem isDigit_iff (b : Byte) : isDigit b = true ↔ 48 ≤ b.val ∧ b.val ≤ 57 := by
  simp [isDigit]

theorem isDigitOrHyphen_iff (b : Byte) :
    isDigitOrHyphen b = true ↔ (48 ≤ b.val ∧ b.val ≤ 57) ∨ b.val = 45 := by
  simp [isDigitOrHyphen, isDigit]

theorem isValidISBN_iff (s : CppString) :
    isValidISBN s = true
      ↔ (s.length = 10 ∧ ∀ b ∈ s, 48 ≤ b.val ∧ b.val ≤ 57)
        ∨ (s.length = 13 ∧ ∀ b ∈ s, 48 ≤ b.val ∧ b.val ≤ 57)
        ∨ (13 ≤ s.length ∧ s.length ≤ 17 ∧ ∀ b ∈ s, (48 ≤ b.val ∧ b.val ≤ 57) ∨ b.val = 45) := by
  unfold isValidISBN
  simp only [Bool.or_eq_true, Bool.and_eq_true, decide_eq_true_eq, List.all_eq_true,
    isDigit_iff, isDigitOrHyphen_iff, or_assoc, and_assoc]

/-! ## Lemmas on field validity and on the two copies of `updateRecord` -/

theorem valid_of_flag (b : Book) (v : Bool) (h : b.Valid) :
    Book.Valid { id := b.id, title := b.title, author := b.author, year := b.year,
                 isbn := b.isbn, category := b.category, isAvailable := v } := h

theorem valid_of_flagMoved (old new : Bool) (before after : List Book)
    (hv : ∀ b ∈ before, b.Valid) (h : FlagMoved old new before after) :
    ∀ b ∈ after, b.Valid := by
  obtain ⟨pre, x, post, rfl, _, rfl⟩ := h
  intro b hb
  rcases List.mem_append.mp hb with hb | hb
  · exact hv b (List.mem_append_left _ hb)
  · rcases List.mem_cons.mp hb with hb | hb
    · subst hb
      exact valid_of_flag x new (hv x (by simp))
    · exact hv b (by simp [hb])

/-- Every operation of `LibraryManager.cpp` keeps the constraints on the fields: when every
record of the vector satisfies them, so does every record of the vector that `addRecord`,
`updateRecord`, `deleteRecord`, `borrowBook`, `returnBook` or one of the sorts leaves. -/
theorem fields_stay_valid (books : List Book) (hv : ∀ b ∈ books, b.Valid) (id : Int)
    (title author : CppString) (year : Int) (isbn category : CppString) :
    (∀ b ∈ (addRecord books title author year isbn category).2, b.Valid)
    ∧ (∀ b ∈ (updateRecord books id title author year isbn category).2, b.Valid)
    ∧ (∀ b ∈ (deleteRecord books id).2, b.Valid)
    ∧ (∀ b ∈ (borrowBook books id).2, b.Valid)
    ∧ (∀ b ∈ (returnBook books id).2, b.Valid)
    ∧ (∀ sorted, sortByTitle books = some sorted → ∀ b ∈ sorted, b.Valid)
    ∧ (∀ sorted, sortByAuthor books = some sorted → ∀ b ∈ sorted, b.Valid)
    ∧ (∀ sorted, sortByYear books = some sorted → ∀ b ∈ sorted, b.Valid) := by
  refine ⟨?_, ?_, ?_, ?_, ?_, ?_, ?_, ?_⟩
  · rw [addRecord_eq]
    by_cases h1 : title = []
    · rw [if_pos h1]; exact hv
    rw [if_neg h1]
    by_cases h2 : author = []
    · rw [if_pos h2]; exact hv
    rw [if_neg h2]
    by_cases h3 : ¬ (1000 ≤ year ∧ year ≤ 2030)
    · rw [if_pos h3]; exact hv
    rw [if_neg h3]
    by_cases h4 : isValidISBN isbn = false
    · rw [if_pos h4]; exact hv
    rw [if_neg h4]
    by_cases h5 : ∃ b ∈ books, b.isbn = isbn
    · rw [if_pos h5]; exact hv
    rw [if_neg h5]
    intro b hb
    rcases List.mem_append.mp hb with hb | hb
    · exact hv b hb
    · simp only [List.mem_singleton] at hb
      subst hb
      exact ⟨h1, h2, not_not.mp h3, by simpa using h4⟩
  · by_cases hex : ∃ x ∈ books, x.id = id
    · obtain ⟨pre, x, post, rfl, hx, hpre⟩ := exists_first_id books id hex
      rw [updateRecord_append_cons pre x post id _ _ _ _ _ hx hpre]
      intro b hb
      rcases List.mem_append.mp hb with hb | hb
      · exact hv b (List.mem_append_left _ hb)
      · rcases List.mem_cons.mp hb with hb | hb
        · subst hb
          obtain ⟨hx1, hx2, hx3, hx4⟩ := hv x (by simp)
          refine ⟨?_, ?_, ?_, ?_⟩
          · show (if title = [] then x.title else title) ≠ []
            split
            · exact hx1
            · assumption
          · show (if author = [] then x.author else author) ≠ []
            split
            · exact hx2
            · assumption
          · show 1000 ≤ (if 0 < year ∧ isValidYear year = true then year else x.year)
              ∧ (if 0 < year ∧ isValidYear year = true then year else x.year) ≤ 2030
            split
            · rename_i h
              simpa [isValidYear] using h.2
            · exact hx3
          · show isValidISBN (if isbn ≠ [] ∧ isValidISBN isbn = true then isbn else x.isbn)
              = true
            split
            · rename_i h
              exact h.2
            · exact hx4
        · exact hv b (by simp [hb])
    · rw [updateRecord_not_found books id _ _ _ _ _ (fun x hx hxid => hex ⟨x, hx, hxid⟩)]
      exact hv
  · intro b hb
    exact hv b ((deleteRecord_sublist books id).subset hb)
  · rcases borrowBook_flag books id with h | h
    · rw [h]; exact hv
    · exact valid_of_flagMoved _ _ _ _ hv h
  · rcases returnBook_flag books id with h | h
    · rw [h]; exact hv
    · exact valid_of_flagMoved _ _ _ _ hv h
  · intro sorted hs b hb
    obtain ⟨s, h1, h2, _⟩ := sortByTitle_spec books
    rw [h1] at hs
    cases hs
    exact hv b (h2.subset hb)
  · intro sorted hs b hb
    obtain ⟨s, h1, h2, _⟩ := sortByAuthor_spec books
    rw [h1] at hs
    cases hs
    exact hv b (h2.subset hb)
  · intro sorted hs b hb
    obtain ⟨s, h1, h2, _⟩ := sortByYear_spec books
    rw [h1] at hs
    cases hs
    exact hv b (h2.subset hb)

/-- The two copies of `updateRecord` return the same value, and leave the same vector when
the year of the patch is not positive or is valid and the ISBN of the patch is empty or
matches the pattern. -/
theorem updateRecord_eq_single (books : List Book) (id : Int) (newTitle newAuthor : CppString)
    (newYear : Int) (newIsbn newCategory : CppString) :
    (updateRecord books id newTitle newAuthor newYear newIsbn newCategory).1
      = (updateRecordSingle books id newTitle newAuthor newYear newIsbn newCategory).1
    ∧ ((newYear ≤ 0 ∨ isValidYear newYear = true) →
        (newIsbn = [] ∨ isValidISBN newIsbn = true) →
        updateRecord books id newTitle newAuthor newYear newIsbn newCategory
          = updateRecordSingle books id newTitle newAuthor newYear newIsbn newCategory) := by
  by_cases hex : ∃ x ∈ books, x.id = id
  · obtain ⟨pre, x, post, rfl, hx, hpre⟩ := exists_first_id books id hex
    rw [updateRecord_append_cons pre x post id _ _ _ _ _ hx hpre,
      updateRecordSingle_append_cons pre x post id _ _ _ _ _ hx hpre]
    refine ⟨rfl, ?_⟩
    intro hy hi
    have h1 : (if 0 < newYear ∧ isValidYear newYear = true then newYear else x.year)
        = (if 0 < newYear then newYear else x.year) := by
      by_cases h : 0 < newYear
      · have : isValidYear newYear = true := by
          rcases hy with hy | hy
          · omega
          · exact hy
        simp [h, this]
      · simp [h]
    have h2 : (if newIsbn ≠ [] ∧ isValidISBN newIsbn = true then newIsbn else x.isbn)
        = (if newIsbn = [] then x.isbn else newIsbn) := by
      by_cases h : newIsbn = []
      · simp [h]
      · have : isValidISBN newIsbn = true := by
          rcases hi with hi | hi
          · exact absurd hi h
          · exact hi
        simp [h, this]
    rw [h1, h2]
  · have hno : ∀ x ∈ books, x.id ≠ id := fun x hx hxid => hex ⟨x, hx, hxid⟩
    rw [updateRecord_not_found books id _ _ _ _ _ hno,
      updateRecordSingle_not_found books id _ _ _ _ _ hno]
    exact ⟨rfl, fun _ _ => rfl⟩

/-! ## Lemmas on loading a truncated file -/

theorem isEmpty_eq_false_of_length_pos {α : Type} (l : List α) (h : 0 < l.length) :
    l.isEmpty = false := by
  cases l with
  | nil => simp at h
  | cons _ _ => rfl

/-- Loading goes through the complete records at the front of the file and continues with
what follows them. -/
theorem loadLoop_saved_then (books acc : List Book) (rest : List Byte) (rounds : Nat)
    (hb : ∀ b ∈ books, b.Representable) :
    loadLoop (books.length + rounds)
        { bytes := (books.map writeToFile).flatten ++ rest, good := true } acc
      = loadLoop rounds { bytes := rest, good := true } (acc ++ books) := by
  induction books generalizing acc with
  | nil => simp
  | cons b bs ih =>
    have hlen : (b :: bs).length + rounds = (bs.length + rounds) + 1 := by
      simp only [List.length_cons]; omega
    rw [hlen, List.map_cons, List.flatten_cons, loadLoop, List.append_assoc]
    have hpeek : IStream.peekNotEOF
        { bytes := writeToFile b ++ ((bs.map writeToFile).flatten ++ rest), good := true }
          = true := by
      rw [IStream.peekNotEOF, isEmpty_eq_false_of_length_pos]
      · rfl
      · have : 0 < (writeToFile b).length := List.length_pos.mpr (writeToFile_ne_nil b)
        simp only [List.length_append]
        omega
    rw [if_pos hpeek, readFromFile_writeToFile _ b _ (hb b (List.mem_cons_self _ _))]
    simp only [if_true]
    rw [ih (acc ++ [b]) (fun x hx => hb x (List.mem_cons_of_mem _ hx))]
    simp

/-- A record of which fewer than 12 bytes are left in the file: the size of the title is not
extracted in full, and `readFromFile` resizes the title with an indeterminate value. -/
theorem readFromFile_short (old : Book) (rest : List Byte) (h : rest.length < 12) :
    readFromFile old { bytes := rest, good := true } = none := by
  unfold readFromFile
  simp only [readInt32, IStream.read, if_true]
  by_cases h4 : 4 ≤ rest.length
  · simp only [h4, if_true, bind, Option.bind]
    have : readString { bytes := List.drop 4 rest, good := true } = none := by
      unfold readString
      simp only [IStream.read, if_true, sizeofSizeT]
      have h8 : ¬ 8 ≤ (List.drop 4 rest).length := by
        rw [List.length_drop]; omega
      simp only [h8, if_false]
      rw [if_neg]
      rw [List.length_drop]; omega
    rw [this]
  · simp only [h4, if_false, bind, Option.bind]
    have : readString { bytes := [], good := false } = none := by decide
    rw [this]

theorem loadLoop_short (rounds : Nat) (rest : List Byte) (acc : List Book)
    (h1 : 0 < rest.length) (h2 : rest.length < 12) :
    loadLoop rounds { bytes := rest, good := true } acc = none := by
  cases rounds with
  | zero => rfl
  | succ r =>
    rw [loadLoop]
    have hpeek : IStream.peekNotEOF { bytes := rest, good := true } = true := by
      rw [IStream.peekNotEOF, isEmpty_eq_false_of_length_pos _ h1]; rfl
    rw [if_pos hpeek, readFromFile_short _ _ h2]

theorem length_writeToFile (b : Book) :
    (writeToFile b).length
      = 41 + b.title.length + b.author.length + b.isbn.length + b.category.length := by
  simp only [writeToFile, writeString, encodeInt32, List.length_append, encodeLE_length,
    sizeofSizeT, List.length_singleton]
  omega

/-- A file that ends within the first 12 bytes of a record, after any number of complete
records: the run of `loadBooksFromFile` has undefined behaviour. -/
theorem loadBooksFromFile_cut_in_header (books : List Book) (b : Book) (more : List Book)
    (n : Nat) (hb : ∀ x ∈ books, x.Representable) (h1 : 0 < n) (h2 : n < 12) :
    loadBooksFromFile
        ((saveBooksToFile (books ++ b :: more)).take ((saveBooksToFile books).length + n))
      = none := by
  have hcut : (saveBooksToFile (books ++ b :: more)).take ((saveBooksToFile books).length + n)
      = (books.map writeToFile).flatten ++ (writeToFile b).take n := by
    rw [saveBooksToFile_eq, saveBooksToFile_eq, List.map_append, List.flatten_append,
      List.map_cons, List.flatten_cons, List.take_append, List.take_append_of_le_length]
    rw [length_writeToFile]; omega
  have hlen : ((writeToFile b).take n).length = n := by
    rw [List.length_take, length_writeToFile]; omega
  rw [hcut]
  unfold loadBooksFromFile
  have hr : ((books.map writeToFile).flatten ++ (writeToFile b).take n).length + 1
      = books.length
        + (((books.map writeToFile).flatten ++ (writeToFile b).take n).length + 1
            - books.length) := by
    have := length_le_length_join_writeToFile books
    simp only [List.length_append]
    omega
  rw [hr, loadLoop_saved_then _ _ _ _ hb]
  exact loadLoop_short _ _ _ (by omega) (by omega)

/-! ## Lemmas on a file cut in the last text of a record -/

/-- A record cut after the size of its category, within the category or just before the
lending flag: every size is extracted, the stream fails on the missing bytes, and the
stream is not good when `readFromFile` returns. -/
theorem readFromFile_cut_in_category (old b : Book) (m : Nat) (hb : b.Representable)
    (hm : m ≤ b.category.length) :
    ∃ book s, readFromFile old
        { bytes := encodeInt32 b.id ++ (writeString b.title ++ (writeString b.author
            ++ (encodeInt32 b.year ++ (writeString b.isbn
            ++ (encodeLE sizeofSizeT b.category.length ++ b.category.take m))))),
          good := true } = some (book, s) ∧ s.good = false := by
  obtain ⟨⟨hi1, hi2⟩, ⟨hy1, hy2⟩, ht, ha, hs, hc⟩ := hb
  unfold readFromFile
  rw [readInt32_append _ _ _ hi1 hi2]
  simp only [bind, Option.bind, pure]
  rw [readString_append _ _ ht]
  simp only
  rw [readString_append _ _ ha]
  simp only
  rw [readInt32_append _ _ _ hy1 hy2]
  simp only
  rw [readString_append _ _ hs]
  simp only
  have h := IStream.read_append (encodeLE sizeofSizeT b.category.length) (b.category.take m)
  rw [encodeLE_length] at h
  unfold readString
  rw [h]
  simp only [encodeLE_length, if_true, decodeLE_encodeLE_of_lt _ _ hc]
  by_cases hfull : b.category.length ≤ m
  · have hmm : m = b.category.length := by omega
    subst hmm
    rw [List.take_length]
    have h2 := IStream.read_append b.category []
    rw [List.append_nil] at h2
    rw [h2]
    refine ⟨_, _, rfl, ?_⟩
    simp [readBool, IStream.read]
  · refine ⟨_, _, rfl, ?_⟩
    have : ¬ b.category.length ≤ (List.take m b.category).length := by
      rw [List.length_take]; omega
    simp [readBool, IStream.read, hfull]

/-- A file that ends within the category of a record or just before its lending flag, after
any number of complete records: `loadBooksFromFile` yields the complete records. -/
theorem loadBooksFromFile_cut_in_category (books : List Book) (b : Book) (m : Nat)
    (hbs : ∀ x ∈ books, x.Representable) (hb : b.Representable)
    (hm : m ≤ b.category.length) :
    loadBooksFromFile
        (saveBooksToFile books ++ (encodeInt32 b.id ++ (writeString b.title
          ++ (writeString b.author ++ (encodeInt32 b.year ++ (writeString b.isbn
          ++ (encodeLE sizeofSizeT b.category.length ++ b.category.take m)))))))
      = some books := by
  obtain ⟨book, s, hread, hgood⟩ := readFromFile_cut_in_category Book.default b m hb hm
  unfold loadBooksFromFile
  rw [saveBooksToFile_eq]
  generalize hrest : encodeInt32 b.id ++ (writeString b.title
          ++ (writeString b.author ++ (encodeInt32 b.year ++ (writeString b.isbn
          ++ (encodeLE sizeofSizeT b.category.length ++ b.category.take m))))) = rest at hread
  have hlen : 4 ≤ rest.length := by
    rw [← hrest, List.length_append, encodeInt32_length]; omega
  have hr : ((books.map writeToFile).flatten ++ rest).length + 1
      = books.length + ((((books.map writeToFile).flatten ++ rest).length - 1 - books.length)
          + 1 + 1) := by
    have := length_le_length_join_writeToFile books
    simp only [List.length_append]
    omega
  rw [hr, loadLoop_saved_then _ _ _ _ hbs, loadLoop]
  have hpeek : IStream.peekNotEOF { bytes := rest, good := true } = true := by
    rw [IStream.peekNotEOF, isEmpty_eq_false_of_length_pos rest (by omega)]; rfl
  rw [if_pos hpeek, hread]
  simp only [hgood, Bool.false_eq_true, if_false, List.nil_append]
  rw [loadLoop]
  have hpeek2 : IStream.peekNotEOF s = false := by
    rw [IStream.peekNotEOF, hgood]; rfl
  rw [hpeek2]
  rfl

/-! ## Lemmas on the size of the vector after delete -/

theorem tolower_val (b : Byte) :
    (tolower b).val = if 65 ≤ b.val ∧ b.val ≤ 90 then b.val + 32 else b.val := by
  unfold tolower
  split
  · rename_i h
    show (b.val + 32) % 256 = b.val + 32
    omega
  · rfl

theorem lowerCase_getElem? (s : CppString) (i : Nat) :
    (lowerCase s)[i]? = (s[i]?).map tolower := by
  unfold lowerCase
  rw [List.getElem?_map]

/-! ## The claims on create -/

/-- C1: `addRecord` tests, in this order, that the title is non-empty, that the author is
non-empty, that the year lies in 1000..2030, that the ISBN matches the pattern and that no
record already carries the ISBN; it reports the error of the first test that fails, and
whenever it returns `false` the vector is exactly as it was. -/
theorem addRecord_checks_in_order (books : List Book) (title author : CppString) (year : Int)
    (isbn category : CppString) :
    addRecord books title author year isbn category =
      (if title = [] then (AddResult.emptyTitleOrAuthor, books)
       else if author = [] then (AddResult.emptyTitleOrAuthor, books)
       else if ¬ (1000 ≤ year ∧ year ≤ 2030) then (AddResult.invalidYear, books)
       else if isValidISBN isbn = false then (AddResult.invalidIsbn, books)
       else if ∃ b ∈ books, b.isbn = isbn then (AddResult.duplicateIsbn, books)
       else (AddResult.added (generateNextId books),
             books ++ [{ id := generateNextId books, title := title, author := author,
                         year := year, isbn := isbn, category := category,
                         isAvailable := true }]))
    ∧ ((addRecord books title author year isbn category).1.returned = false →
        (addRecord books title author year isbn category).2 = books) :=
  ⟨addRecord_eq books title author year isbn category,
   addRecord_unchanged_of_false books title author year isbn category⟩

/-- C2 (as stated, refuted): on a vector whose only record has id -5, `addRecord` with valid
arguments succeeds and gives the new record the id 1, which is not the largest existing id
plus one (that would be -4). -/
theorem addRecord_id_not_max_plus_one :
    addRecord [emma (-5)] (lit "Dune") (lit "Herbert") 1965 (lit "9780441013593") (lit "SciFi")
      = (AddResult.added 1, [emma (-5)] ++ [dune 1])
    ∧ ¬ ∃ b ∈ [emma (-5)], (∀ x ∈ [emma (-5)], x.id ≤ b.id) ∧
        (addRecord [emma (-5)] (lit "Dune") (lit "Herbert") 1965 (lit "9780441013593")
          (lit "SciFi")).1 = AddResult.added (b.id + 1) := by
  decide

/-- C2 (amended): when the arguments pass the five tests and every id of the vector is below
`INT_MAX`, `addRecord` returns `true` and the new vector is the old one followed by one
record with the given title, author, year, ISBN and category, `isAvailable = true`, and an id
that exceeds every existing id; that id is 1 when the vector is empty or holds no positive
id, and is the largest existing id plus one as soon as some existing id is at least 0. -/
theorem addRecord_appends_next_id (books : List Book) (title author : CppString) (year : Int)
    (isbn category : CppString)
    (htitle : title ≠ []) (hauthor : author ≠ []) (hyear : 1000 ≤ year ∧ year ≤ 2030)
    (hisbn : isValidISBN isbn = true) (hfresh : ∀ b ∈ books, b.isbn ≠ isbn)
    (hmax : ∀ b ∈ books, b.id < INT_MAX) :
    ∃ newId : Int,
      addRecord books title author year isbn category =
        (AddResult.added newId,
         books ++ [{ id := newId, title := title, author := author, year := year,
                     isbn := isbn, category := category, isAvailable := true }])
      ∧ (∀ b ∈ books, b.id < newId)
      ∧ (books = [] → newId = 1)
      ∧ ((∀ b ∈ books, b.id ≤ 0) → newId = 1)
      ∧ ((∃ b ∈ books, 0 ≤ b.id) →
          ∃ b ∈ books, (∀ x ∈ books, x.id ≤ b.id) ∧ newId = b.id + 1) := by
  obtain ⟨h1, _, h3, h4⟩ := generateNextId_spec books hmax
  refine ⟨generateNextId books, ?_, h1, ?_, h3, ?_⟩
  · have hnd : ¬ ∃ b ∈ books, b.isbn = isbn := by
      rintro ⟨b, hb, hb2⟩
      exact hfresh b hb hb2
    rw [addRecord_eq books title author year isbn category]
    simp [htitle, hauthor, hyear, hisbn, hnd]
  · intro he
    subst he
    simp [generateNextId]
  · intro hex
    obtain ⟨b, hb, hb2⟩ := h4 hex
    refine ⟨b, hb, ?_, hb2⟩
    intro x hx
    have := h1 x hx
    omega

/-- Witness for `addRecord_appends_next_id`: "Dune" added to a vector that holds "Emma" with
id 1. -/
theorem addRecord_appends_next_id_witness :
    ∃ newId : Int,
      addRecord [emma 1] (lit "Dune") (lit "Herbert") 1965 (lit "9780441013593") (lit "SciFi") =
        (AddResult.added newId,
         [emma 1] ++ [{ id := newId, title := lit "Dune", author := lit "Herbert", year := 1965,
                        isbn := lit "9780441013593", category := lit "SciFi",
                        isAvailable := true }])
      ∧ (∀ b ∈ [emma 1], b.id < newId)
      ∧ ([emma 1] = [] → newId = 1)
      ∧ ((∀ b ∈ [emma 1], b.id ≤ 0) → newId = 1)
      ∧ ((∃ b ∈ [emma 1], 0 ≤ b.id) →
          ∃ b ∈ [emma 1], (∀ x ∈ [emma 1], x.id ≤ b.id) ∧ newId = b.id + 1) :=
  addRecord_appends_next_id [emma 1] (lit "Dune") (lit "Herbert") 1965 (lit "9780441013593")
    (lit "SciFi") (by decide) (by decide) (by decide) (by decide) (by decide) (by decide)

/-- C6: when some record of the vector carries the ISBN `isbn`, `addRecord` with that ISBN
returns `false` and leaves the vector as it was, whatever the other four arguments are. -/
theorem addRecord_duplicate_isbn_rejected (books : List Book) (title author : CppString)
    (year : Int) (isbn category : CppString) (h : ∃ b ∈ books, b.isbn = isbn) :
    (addRecord books title author year isbn category).1.returned = false ∧
    (addRecord books title author year isbn category).2 = books := by
  have hany : (books.any fun book => decide (book.isbn = isbn)) = true := by simpa using h
  unfold addRecord
  split
  · simp [AddResult.returned]
  split
  · simp [AddResult.returned]
  split
  · simp [AddResult.returned]
  simp [hany, AddResult.returned]

/-- Witness for `addRecord_duplicate_isbn_rejected`: "Dune" offered a second time, under
another title. -/
theorem addRecord_duplicate_isbn_rejected_witness :
    (∃ b ∈ [dune 1], b.isbn = lit "9780441013593") ∧
    (addRecord [dune 1] (lit "Emma") (lit "Austen") 1815 (lit "9780441013593") []).1.returned
      = false ∧
    (addRecord [dune 1] (lit "Emma") (lit "Austen") 1815 (lit "9780441013593") []).2
      = [dune 1] :=
  ⟨by decide,
   addRecord_duplicate_isbn_rejected [dune 1] (lit "Emma") (lit "Austen") 1815
     (lit "9780441013593") [] (by decide)⟩

/-- C5 (as stated, refuted): create, delete 1, create assigns the id 1 twice, so the ids
assigned in a session are not strictly increasing. -/
theorem assignedIds_not_increasing :
    assignedIds [] [Op.create (lit "Dune") (lit "Herbert") 1965 (lit "9780441013593") [],
                    Op.delete 1,
                    Op.create (lit "Emma") (lit "Austen") 1815 (lit "1234567890") []] = [1, 1]
    ∧ ¬ (assignedIds [] [Op.create (lit "Dune") (lit "Herbert") 1965 (lit "9780441013593") [],
                    Op.delete 1,
                    Op.create (lit "Emma") (lit "Austen") 1815 (lit "1234567890") []]).Pairwise
          (fun earlier later => earlier < later) := by
  decide

/-- C5 (amended): after any sequence of fewer than `INT_MAX` create and delete requests that
starts from the empty vector, the id given by a successful `addRecord` is strictly greater
than the id of every record that is in the vector at that moment. -/
theorem addRecord_id_above_live_ids (ops : List Op) (title author : CppString) (year : Int)
    (isbn category : CppString) (newId : Int) (hlen : (ops.length : Int) < INT_MAX)
    (hadd : (addRecord (runOps [] ops) title author year isbn category).1
        = AddResult.added newId) :
    ∀ b ∈ runOps [] ops, b.id < newId := by
  have hb : ∀ b ∈ runOps [] ops, b.id ≤ 0 + ops.length :=
    runOps_bound ops [] 0 (by omega) (by omega) (by simp)
  have hmax : ∀ b ∈ runOps [] ops, b.id < INT_MAX := fun b h => by have := hb b h; omega
  obtain ⟨h1, _⟩ := generateNextId_spec _ hmax
  have hid : newId = generateNextId (runOps [] ops) := by
    rw [addRecord_eq] at hadd
    split at hadd
    · simp at hadd
    split at hadd
    · simp at hadd
    split at hadd
    · simp at hadd
    split at hadd
    · simp at hadd
    split at hadd
    · simp at hadd
    · simp at hadd; exact hadd.symm
  rw [hid]; exact h1

/-- Witness for `addRecord_id_above_live_ids`: after create, create, delete 1 the next create
receives the id 3, above the id 2 of the record that is left. -/
theorem addRecord_id_above_live_ids_witness :
    (addRecord (runOps [] [Op.create (lit "Dune") (lit "Herbert") 1965 (lit "9780441013593") [],
                     Op.create (lit "Emma") (lit "Austen") 1815 (lit "1234567890") [],
                     Op.delete 1]) (lit "Ulysses") (lit "Joyce") 1922 (lit "0-000-00000-0") []).1
      = AddResult.added 3
    ∧ ∀ b ∈ runOps [] [Op.create (lit "Dune") (lit "Herbert") 1965 (lit "9780441013593") [],
                     Op.create (lit "Emma") (lit "Austen") 1815 (lit "1234567890") [],
                     Op.delete 1], b.id < 3 :=
  ⟨by decide,
   addRecord_id_above_live_ids
    [Op.create (lit "Dune") (lit "Herbert") 1965 (lit "9780441013593") [],
     Op.create (lit "Emma") (lit "Austen") 1815 (lit "1234567890") [], Op.delete 1]
    (lit "Ulysses") (lit "Joyce") 1922 (lit "0-000-00000-0") [] 3 (by decide) (by decide)⟩

/-! ## The claim on lending -/

/-- C7: when the vector holds a record with the id, `borrowBook` followed by `returnBook` on
that id yields the same vector except that the record found by the id (the first one that
carries it) has `isAvailable = true`: its id, title, author, year, ISBN and category, every
other record and the order of the vector are unchanged. -/
theorem borrow_then_return (books : List Book) (id : Int) (h : ∃ b ∈ books, b.id = id) :
    ∃ pre b post, books = pre ++ b :: post ∧ b.id = id ∧ (∀ x ∈ pre, x.id ≠ id) ∧
      (returnBook (borrowBook books id).2 id).2 =
        pre ++ { id := b.id, title := b.title, author := b.author, year := b.year,
                 isbn := b.isbn, category := b.category, isAvailable := true } :: post := by
  obtain ⟨pre, b, post, rfl, hb, hpre⟩ := exists_first_id books id h
  refine ⟨pre, b, post, rfl, hb, hpre, ?_⟩
  rw [borrowBook_append_cons pre b post id hb hpre]
  cases hav : b.isAvailable
  · simp only [Bool.false_eq_true, if_false]
    rw [returnBook_append_cons pre b post id hb hpre]
    simp [hav]
  · simp only [if_true]
    rw [returnBook_append_cons pre _ post id (by simpa using hb) hpre]
    simp

/-- Witness for `borrow_then_return`: the second of three records is borrowed and returned. -/
theorem borrow_then_return_witness :
    ∃ pre b post, [emma 1, dune 2, emma 3] = pre ++ b :: post ∧ b.id = 2 ∧
      (∀ x ∈ pre, x.id ≠ 2) ∧
      (returnBook (borrowBook [emma 1, dune 2, emma 3] 2).2 2).2 =
        pre ++ { id := b.id, title := b.title, author := b.author, year := b.year,
                 isbn := b.isbn, category := b.category, isAvailable := true } :: post :=
  borrow_then_return [emma 1, dune 2, emma 3] 2 (by decide)

/-! ## The claim on save and load -/

/-- C10: for every vector of records that `Book` objects can hold (ids and years fit an
`int`, text sizes fit a `size_t`), including the empty vector and records with empty texts,
`loadBooksFromFile` run on the bytes that `saveBooksToFile` writes returns the same records
in the same order, equal in every field. -/
theorem load_save_roundtrip (books : List Book) (hb : ∀ b ∈ books, b.Representable) :
    loadBooksFromFile (saveBooksToFile books) = some books := by
  unfold loadBooksFromFile
  rw [saveBooksToFile_eq]
  have := loadLoop_saved books [] ((books.map writeToFile).flatten.length + 1)
    (by have := length_le_length_join_writeToFile books; omega) hb
  simpa using this

/-- Witness for `load_save_roundtrip`: three records, one of them borrowed and with every
text empty. -/
theorem load_save_roundtrip_witness :
    loadBooksFromFile (saveBooksToFile
        [emma (-2), dune 7, { Book.default with isAvailable := false }])
      = some [emma (-2), dune 7, { Book.default with isAvailable := false }] :=
  load_save_roundtrip [emma (-2), dune 7, { Book.default with isAvailable := false }]
    (by
      intro b hb
      simp only [List.mem_cons, List.mem_singleton, List.not_mem_nil, or_false] at hb
      rcases hb with rfl | rfl | rfl <;> decide)

/-! ## The claims on the uniqueness invariants -/

/-- C3: when the ids of the vector are pairwise distinct and below `INT_MAX`, they are
pairwise distinct again after any one of `addRecord`, `updateRecord`, `deleteRecord`,
`borrowBook`, `returnBook`, `sortByTitle`, `sortByAuthor` and `sortByYear` (each sort
operation returns). -/
theorem ids_stay_distinct (books : List Book) (hnd : (books.map Book.id).Nodup)
    (hmax : ∀ b ∈ books, b.id < INT_MAX) :
    (∀ title author year isbn category,
        ((addRecord books title author year isbn category).2.map Book.id).Nodup)
    ∧ (∀ id newTitle newAuthor newYear newIsbn newCategory,
        ((updateRecord books id newTitle newAuthor newYear newIsbn newCategory).2.map
          Book.id).Nodup)
    ∧ (∀ id, ((deleteRecord books id).2.map Book.id).Nodup)
    ∧ (∀ id, ((borrowBook books id).2.map Book.id).Nodup)
    ∧ (∀ id, ((returnBook books id).2.map Book.id).Nodup)
    ∧ (∃ sorted, sortByTitle books = some sorted ∧ (sorted.map Book.id).Nodup)
    ∧ (∃ sorted, sortByAuthor books = some sorted ∧ (sorted.map Book.id).Nodup)
    ∧ (∃ sorted, sortByYear books = some sorted ∧ (sorted.map Book.id).Nodup) := by
  refine ⟨?_, ?_, ?_, ?_, ?_, ?_, ?_, ?_⟩
  · intro title author year isbn category
    exact addRecord_ids_nodup books title author year isbn category hnd hmax
  · intro id newTitle newAuthor newYear newIsbn newCategory
    rw [updateRecord_map_id]; exact hnd
  · intro id
    exact hnd.sublist ((deleteRecord_sublist books id).map Book.id)
  · intro id
    rw [borrowBook_map books id Book.id (fun _ _ => rfl)]; exact hnd
  · intro id
    rw [returnBook_map books id Book.id (fun _ _ => rfl)]; exact hnd
  · obtain ⟨s, h1, h2, _⟩ := sortByTitle_spec books
    exact ⟨s, h1, nodup_map_of_perm Book.id books s h2 hnd⟩
  · obtain ⟨s, h1, h2, _⟩ := sortByAuthor_spec books
    exact ⟨s, h1, nodup_map_of_perm Book.id books s h2 hnd⟩
  · obtain ⟨s, h1, h2, _⟩ := sortByYear_spec books
    exact ⟨s, h1, nodup_map_of_perm Book.id books s h2 hnd⟩

/-- Witness for `ids_stay_distinct`: the vector that holds "Emma" with id 1 and "Dune" with
id 2. -/
theorem ids_stay_distinct_witness :
    (([emma 1, dune 2].map Book.id).Nodup ∧ ∀ b ∈ [emma 1, dune 2], b.id < INT_MAX)
    ∧ (∀ title author year isbn category,
        ((addRecord [emma 1, dune 2] title author year isbn category).2.map Book.id).Nodup)
    ∧ (∀ id newTitle newAuthor newYear newIsbn newCategory,
        ((updateRecord [emma 1, dune 2] id newTitle newAuthor newYear newIsbn newCategory).2.map
          Book.id).Nodup)
    ∧ (∀ id, ((deleteRecord [emma 1, dune 2] id).2.map Book.id).Nodup)
    ∧ (∀ id, ((borrowBook [emma 1, dune 2] id).2.map Book.id).Nodup)
    ∧ (∀ id, ((returnBook [emma 1, dune 2] id).2.map Book.id).Nodup)
    ∧ (∃ sorted, sortByTitle [emma 1, dune 2] = some sorted ∧ (sorted.map Book.id).Nodup)
    ∧ (∃ sorted, sortByAuthor [emma 1, dune 2] = some sorted ∧ (sorted.map Book.id).Nodup)
    ∧ (∃ sorted, sortByYear [emma 1, dune 2] = some sorted ∧ (sorted.map Book.id).Nodup) :=
  ⟨⟨by decide, by decide⟩, ids_stay_distinct [emma 1, dune 2] (by decide) (by decide)⟩

/-- C4 (the code at the failing input): in a vector whose ISBNs are pairwise distinct,
`updateRecord` on the record with id 2 accepts the ISBN of the record with id 1, returns
`true`, and leaves two records with the same ISBN. -/
theorem updateRecord_duplicates_isbn :
    ([dune 1, emma 2].map Book.isbn).Nodup
    ∧ updateRecord [dune 1, emma 2] 2 [] [] 0 (lit "9780441013593") []
        = (true, [dune 1, { emma 2 with isbn := lit "9780441013593" }])
    ∧ ¬ ((updateRecord [dune 1, emma 2] 2 [] [] 0 (lit "9780441013593") []).2.map
          Book.isbn).Nodup := by
  decide

/-! ## The claims on the sort operations -/

/-- C8 (as stated, refuted): seventeen records with the same title are already in year
order, so `sortByYear` returns them as they are; `sortByTitle` then returns them in another
order (the record with id 9 first, the record with id 1 tenth), so records with equal titles
do not keep the relative order they had after the year sort. -/
theorem sortByTitle_after_sortByYear_not_stable :
    ∃ byYear byTitle, sortByYear shelf = some byYear ∧ sortByTitle byYear = some byTitle
      ∧ byYear.map Book.id = [1, 2, 3, 4, 5, 6, 7, 8, 9, 10, 11, 12, 13, 14, 15, 16, 17]
      ∧ byTitle.map Book.id = [9, 17, 16, 15, 14, 13, 12, 11, 10, 1, 8, 7, 6, 5, 4, 3, 2]
      ∧ ¬ KeepsOrderOfEqualTitles byYear byTitle := by
  refine ⟨shelf, (sortByTitle shelf).getD [], by decide, by decide, by decide, by decide, ?_⟩
  intro h
  exact absurd (h (lit "Dune")) (by decide)

/-- C8 (amended): for every vector, `sortByYear` followed by `sortByTitle` returns a
permutation of the vector in ascending order of title; when the vector holds at most 16
records, records with equal titles keep the relative order they had after the year sort. -/
theorem sortByTitle_after_sortByYear (books : List Book) :
    ∃ byYear byTitle, sortByYear books = some byYear ∧ sortByTitle byYear = some byTitle
      ∧ byTitle.Perm books
      ∧ byTitle.Pairwise (fun a b => a.title ≤ b.title)
      ∧ (books.length ≤ 16 → KeepsOrderOfEqualTitles byYear byTitle) := by
  obtain ⟨y, h1, h2, _⟩ := sortByYear_spec books
  obtain ⟨t, h3, h4, h5⟩ := sortByTitle_spec y
  refine ⟨y, t, h1, h3, h4.trans h2, h5, ?_⟩
  intro hlen t'
  have hc : StrictWeakOrder (fun a b : Book => stringLess a.title b.title) :=
    strictWeakOrder_of_key (fun b => b.title) _ (fun a b => stringLess_iff_lt a.title b.title)
  obtain ⟨t2, h6, h7⟩ := stdSort_stable_of_short _ hc y (by rw [h2.length_eq]; exact hlen)
  have : t2 = t := by
    have h8 : sortByTitle y = some t2 := h6
    rw [h3] at h8
    exact (Option.some.inj h8).symm
  subst this
  exact h7 _ (equivClass_title t')

/-- C9: each of `sortByTitle`, `sortByAuthor` and `sortByYear` returns, and what it returns
is a permutation of the vector (the same records with the same multiplicities, no field
changed) in ascending order of its key: the lexicographic order of the bytes of the title or
of the author, the numeric order of the year. -/
theorem sort_operations_sorted_permutation (books : List Book) :
    (∃ sorted, sortByTitle books = some sorted ∧ sorted.Perm books
      ∧ sorted.Pairwise (fun a b => a.title ≤ b.title))
    ∧ (∃ sorted, sortByAuthor books = some sorted ∧ sorted.Perm books
      ∧ sorted.Pairwise (fun a b => a.author ≤ b.author))
    ∧ (∃ sorted, sortByYear books = some sorted ∧ sorted.Perm books
      ∧ sorted.Pairwise (fun a b => a.year ≤ b.year)) :=
  ⟨sortByTitle_spec books, sortByAuthor_spec books, sortByYear_spec books⟩

/-! ## The claim on the layout of the data file -/

/-- C11: the bytes that `saveBooksToFile` writes are the encodings of the records one after
the other in the order of the vector, with nothing in front, between or behind (the empty
vector gives the empty file). The encoding of a record is the id, the title, the author, the
year, the ISBN, the category and the flag in this order; an `int` takes 4 bytes, a text is
its size in `sizeof(size_t)` bytes followed by exactly its bytes, the flag is one byte. -/
theorem save_layout (books : List Book) :
    saveBooksToFile books = (books.map writeToFile).flatten
    ∧ saveBooksToFile [] = []
    ∧ (∀ b : Book, writeToFile b =
        encodeInt32 b.id ++ writeString b.title ++ writeString b.author ++ encodeInt32 b.year
          ++ writeString b.isbn ++ writeString b.category ++ [if b.isAvailable then 1 else 0])
    ∧ (∀ n : Int, (encodeInt32 n).length = 4 ∧ decodeInt32 (encodeInt32 n) = wrapInt32 n)
    ∧ (∀ s : CppString, ∃ size, writeString s = size ++ s ∧ size.length = sizeofSizeT
        ∧ decodeLE size = s.length % 256 ^ sizeofSizeT)
    ∧ (∀ b : Book, (writeToFile b).length =
        4 + (sizeofSizeT + b.title.length) + (sizeofSizeT + b.author.length) + 4
          + (sizeofSizeT + b.isbn.length) + (sizeofSizeT + b.category.length) + 1) := by
  refine ⟨saveBooksToFile_eq books, rfl, fun _ => rfl, ?_, ?_, ?_⟩
  · intro n
    exact ⟨encodeInt32_length n, decodeInt32_encodeInt32_wrap n⟩
  · intro s
    exact ⟨encodeLE sizeofSizeT s.length, rfl, encodeLE_length _ _, decodeLE_encodeLE _ _⟩
  · intro b
    simp only [writeToFile, writeString, List.length_append, encodeInt32_length,
      encodeLE_length, List.length_singleton]

/-! ## The claims on lookup, search and delete -/

/-- C12: `searchRecordByID` returns `nullptr` exactly when no record of the vector has the
id; otherwise the pointer it returns designates a record of the vector with that id, the
first one in the order of the vector. The function only reads the vector. -/
theorem searchRecordByID_spec (books : List Book) (id : Int) :
    (searchRecordByID books id = none ↔ ∀ b ∈ books, b.id ≠ id)
    ∧ (recordByID books id = none ↔ ∀ b ∈ books, b.id ≠ id)
    ∧ (∀ p, searchRecordByID books id = some p →
        ∃ pre b post, books = pre ++ b :: post ∧ pre.length = p ∧ b.id = id
          ∧ (∀ x ∈ pre, x.id ≠ id) ∧ recordByID books id = some b) := by
  refine ⟨searchRecordByID_eq_none books id, ?_, ?_⟩
  · constructor
    · intro h b hb hid
      obtain ⟨pre, x, post, rfl, hx, hpre⟩ := exists_first_id books id ⟨b, hb, hid⟩
      rw [recordByID_append_cons pre x post id hx hpre] at h
      simp at h
    · exact recordByID_eq_none books id
  · intro p hp
    obtain ⟨pre, b, post, h1, h2, h3, h4⟩ := searchRecordByID_eq_some books id p hp
    refine ⟨pre, b, post, h1, h2, h3, h4, ?_⟩
    rw [h1]
    exact recordByID_append_cons pre b post id h3 h4

/-- C13: when the ids of the vector are pairwise distinct, each of `sortByTitle`,
`sortByAuthor` and `sortByYear` returns a vector in which `searchRecordByID` finds, for every
id, the same record as before the sort (or `nullptr` as before). -/
theorem lookup_unchanged_by_sort (books : List Book) (hnd : (books.map Book.id).Nodup) :
    (∃ sorted, sortByTitle books = some sorted
      ∧ ∀ id, recordByID sorted id = recordByID books id)
    ∧ (∃ sorted, sortByAuthor books = some sorted
      ∧ ∀ id, recordByID sorted id = recordByID books id)
    ∧ (∃ sorted, sortByYear books = some sorted
      ∧ ∀ id, recordByID sorted id = recordByID books id) := by
  refine ⟨?_, ?_, ?_⟩
  · obtain ⟨s, h1, h2, _⟩ := sortByTitle_spec books
    exact ⟨s, h1, recordByID_of_perm books s h2 hnd⟩
  · obtain ⟨s, h1, h2, _⟩ := sortByAuthor_spec books
    exact ⟨s, h1, recordByID_of_perm books s h2 hnd⟩
  · obtain ⟨s, h1, h2, _⟩ := sortByYear_spec books
    exact ⟨s, h1, recordByID_of_perm books s h2 hnd⟩

/-- Witness for `lookup_unchanged_by_sort`: "Emma" with id 1 and "Dune" with id 2, which the
sort by title exchanges. -/
theorem lookup_unchanged_by_sort_witness :
    ([emma 1, dune 2].map Book.id).Nodup
    ∧ sortByTitle [emma 1, dune 2] = some [dune 2, emma 1]
    ∧ (∃ sorted, sortByTitle [emma 1, dune 2] = some sorted
      ∧ ∀ id, recordByID sorted id = recordByID [emma 1, dune 2] id)
    ∧ (∃ sorted, sortByAuthor [emma 1, dune 2] = some sorted
      ∧ ∀ id, recordByID sorted id = recordByID [emma 1, dune 2] id)
    ∧ (∃ sorted, sortByYear [emma 1, dune 2] = some sorted
      ∧ ∀ id, recordByID sorted id = recordByID [emma 1, dune 2] id) :=
  ⟨by decide, by decide, lookup_unchanged_by_sort [emma 1, dune 2] (by decide)⟩

/-- C14: `searchRecordsByTitle` returns pointers in the order of the vector, each once, and
a pointer is returned exactly when it designates a record whose lower-cased title contains
the lower-cased query as a contiguous run of characters; the records designated are the
matching records of the vector in their order. `searchRecordsByAuthor` does the same with the
author. Lower-casing keeps the length of a text and replaces each character by `tolower` of
it, which turns the letters `A` to `Z` (65 to 90) into `a` to `z` (97 to 122) and keeps every
other character; so the query `DUNE` finds the title `Dune` and the query `aUs` the author
`Austen`. -/
theorem substring_search_spec (books : List Book) (q : CppString) :
    ((searchRecordsByTitle books q).Pairwise (fun i j => i < j)
      ∧ (∀ i, i ∈ searchRecordsByTitle books q ↔
          ∃ b, books[i]? = some b ∧ ∃ front back,
            lowerCase b.title = front ++ lowerCase q ++ back)
      ∧ (searchRecordsByTitle books q).filterMap (fun i => books[i]?)
          = books.filter (fun b => (stringFind (lowerCase b.title) (lowerCase q)).isSome))
    ∧ ((searchRecordsByAuthor books q).Pairwise (fun i j => i < j)
      ∧ (∀ i, i ∈ searchRecordsByAuthor books q ↔
          ∃ b, books[i]? = some b ∧ ∃ front back,
            lowerCase b.author = front ++ lowerCase q ++ back)
      ∧ (searchRecordsByAuthor books q).filterMap (fun i => books[i]?)
          = books.filter (fun b => (stringFind (lowerCase b.author) (lowerCase q)).isSome))
    ∧ ((∀ s : CppString, (lowerCase s).length = s.length
          ∧ ∀ i : Nat, (lowerCase s)[i]? = (s[i]?).map tolower)
      ∧ (∀ c : Byte, (tolower c).val
          = if 65 ≤ c.val ∧ c.val ≤ 90 then c.val + 32 else c.val)
      ∧ lowerCase (lit "Dune: A-Z [1965]") = lit "dune: a-z [1965]"
      ∧ searchRecordsByTitle [dune 1, emma 2] (lit "DUNE") = [0]
      ∧ searchRecordsByAuthor [dune 1, emma 2] (lit "aUs") = [1]
      ∧ searchRecordsByTitle [dune 1, emma 2] (lit "m") = [1]
      ∧ searchRecordsByTitle [dune 1, emma 2] (lit "E") = [0, 1]) := by
  refine ⟨⟨collectMatches_increasing _ books 0, ?_, collectMatches_records _ books []⟩,
    ⟨collectMatches_increasing _ books 0, ?_, collectMatches_records _ books []⟩,
    ⟨fun s => ⟨by simp [lowerCase], lowerCase_getElem? s⟩, tolower_val, by decide, by decide,
      by decide, by decide, by decide⟩⟩
  · intro i
    unfold searchRecordsByTitle
    rw [mem_collectMatches]
    constructor
    · rintro ⟨k, b, h1, h2, h3⟩
      exact ⟨b, by rw [h1, Nat.zero_add]; exact h2, (stringFind_isSome_iff _ _).mp h3⟩
    · rintro ⟨b, h1, h2⟩
      exact ⟨i, b, by omega, h1, (stringFind_isSome_iff _ _).mpr h2⟩
  · intro i
    unfold searchRecordsByAuthor
    rw [mem_collectMatches]
    constructor
    · rintro ⟨k, b, h1, h2, h3⟩
      exact ⟨b, by rw [h1, Nat.zero_add]; exact h2, (stringFind_isSome_iff _ _).mp h3⟩
    · rintro ⟨b, h1, h2⟩
      exact ⟨i, b, by omega, h1, (stringFind_isSome_iff _ _).mpr h2⟩

/-- C15: with the empty query `searchRecordsByTitle` and `searchRecordsByAuthor` return a
pointer to every record of the vector, in the order of the vector. -/
theorem empty_query_returns_all (books : List Book) :
    searchRecordsByTitle books [] = List.range books.length
    ∧ searchRecordsByAuthor books [] = List.range books.length
    ∧ (searchRecordsByTitle books []).filterMap (fun i => books[i]?) = books
    ∧ (searchRecordsByAuthor books []).filterMap (fun i => books[i]?) = books := by
  have ht : searchRecordsByTitle books [] = List.range books.length := by
    unfold searchRecordsByTitle
    rw [collectMatches_all _ books 0 (fun b _ => by simp [lowerCase, stringFind_empty]),
      List.range_eq_range']
  have ha : searchRecordsByAuthor books [] = List.range books.length := by
    unfold searchRecordsByAuthor
    rw [collectMatches_all _ books 0 (fun b _ => by simp [lowerCase, stringFind_empty]),
      List.range_eq_range']
  have hall : (List.range books.length).filterMap (fun i => books[i]?) = books := by
    rw [← ht]
    have := collectMatches_records
      (fun b => (stringFind (lowerCase b.title) (lowerCase [])).isSome) books []
    simp only [List.length_nil, List.nil_append] at this
    rw [show searchRecordsByTitle books [] = collectMatches
      (fun b => (stringFind (lowerCase b.title) (lowerCase [])).isSome) books 0 from rfl, this]
    rw [List.filter_eq_self]
    intro b _
    simp [lowerCase, stringFind_empty]
  exact ⟨ht, ha, by rw [ht]; exact hall, by rw [ha]; exact hall⟩

/-- C16: when some record has the id, `deleteRecord` returns `true` and the vector loses
exactly one record, the first one with that id, while the records in front of it and behind
it stay as they are and in their order; when no record has the id, `deleteRecord` returns
`false` and the vector is unchanged. -/
theorem deleteRecord_spec (books : List Book) (id : Int) :
    ((∃ b ∈ books, b.id = id) →
      ∃ pre b post, books = pre ++ b :: post ∧ b.id = id ∧ (∀ x ∈ pre, x.id ≠ id)
        ∧ deleteRecord books id = (true, pre ++ post))
    ∧ ((∀ b ∈ books, b.id ≠ id) → deleteRecord books id = (false, books)) := by
  constructor
  · intro h
    obtain ⟨pre, b, post, rfl, hb, hpre⟩ := exists_first_id books id h
    exact ⟨pre, b, post, rfl, hb, hpre, deleteRecord_append_cons pre b post id hb hpre⟩
  · exact deleteRecord_not_found books id

/-! ## The claims on update and borrow -/

/-- C17: when the id is present, `updateRecord` (in `LibraryManager.cpp` and in
`library_manager_single.cpp`) returns `true` and rewrites only the first record with that
id: a title, author or category that is empty in the patch is kept and one that is not empty
is stored, the year is kept when the patch year is 0, the ISBN is kept when the patch ISBN
is empty, and the id and the lending flag are kept. When the id is not present,
`updateRecord` returns `false` and the vector is unchanged. -/
theorem updateRecord_keeps_absent_fields (books : List Book) (id : Int)
    (newTitle newAuthor : CppString) (newYear : Int) (newIsbn newCategory : CppString) :
    ((∃ b ∈ books, b.id = id) →
      ∃ pre b post new newSingle, books = pre ++ b :: post ∧ b.id = id
        ∧ (∀ x ∈ pre, x.id ≠ id)
        ∧ updateRecord books id newTitle newAuthor newYear newIsbn newCategory
            = (true, pre ++ new :: post)
        ∧ KeepsAbsentFields newTitle newAuthor newYear newIsbn newCategory b new
        ∧ updateRecordSingle books id newTitle newAuthor newYear newIsbn newCategory
            = (true, pre ++ newSingle :: post)
        ∧ KeepsAbsentFields newTitle newAuthor newYear newIsbn newCategory b newSingle)
    ∧ ((∀ b ∈ books, b.id ≠ id) →
        updateRecord books id newTitle newAuthor newYear newIsbn newCategory = (false, books)
        ∧ updateRecordSingle books id newTitle newAuthor newYear newIsbn newCategory
            = (false, books)) := by
  constructor
  · intro h
    obtain ⟨pre, b, post, rfl, hb, hpre⟩ := exists_first_id books id h
    obtain ⟨new, h1, h2, _⟩ := updateRecord_ignores_invalid pre b post id newTitle newAuthor
      newYear newIsbn newCategory hb hpre
    obtain ⟨newSingle, h3, h4, _⟩ := updateRecordSingle_applies pre b post id newTitle
      newAuthor newYear newIsbn newCategory hb hpre
    exact ⟨pre, b, post, new, newSingle, rfl, hb, hpre, h1, h2, h3, h4⟩
  · intro h
    exact ⟨updateRecord_not_found books id _ _ _ _ _ h,
      updateRecordSingle_not_found books id _ _ _ _ _ h⟩

/-- C18 (the code at the failing input): `updateRecord` of `library_manager_single.cpp`,
answered with the year 500 and the ISBN `abc`, returns `true` and stores both in the
record, although 500 is not a valid year and `abc` does not match the ISBN pattern. -/
theorem updateRecordSingle_applies_invalid :
    isValidYear 500 = false ∧ isValidISBN (lit "abc") = false
    ∧ updateRecordSingle [emma 1] 1 [] [] 500 (lit "abc") []
        = (true, [{ emma 1 with year := 500, isbn := lit "abc" }])
    ∧ updateRecord [emma 1] 1 [] [] 500 (lit "abc") [] = (true, [emma 1]) := by
  decide

/-- C19 (the code at the failing input): `updateRecord` on the record with id 1, answered
with the well-formed ISBN that the record with id 2 already has, returns `true` and stores
it; the single-file version does the same. -/
theorem updateRecord_takes_isbn_of_other_record :
    isValidISBN (lit "9780441013593") = true
    ∧ (dune 2).isbn = lit "9780441013593"
    ∧ updateRecord [emma 1, dune 2] 1 [] [] 0 (lit "9780441013593") []
        = (true, [{ emma 1 with isbn := lit "9780441013593" }, dune 2])
    ∧ updateRecordSingle [emma 1, dune 2] 1 [] [] 0 (lit "9780441013593") []
        = (true, [{ emma 1 with isbn := lit "9780441013593" }, dune 2]) := by
  decide

/-- C20: `borrowBook` reports "not found" and leaves the vector unchanged when no record has
the id; when the first record with the id is `b`, it returns `true` and rewrites only the
lending flag of that record to `false` if `b` is available, and reports "already borrowed"
and leaves the vector unchanged if `b` is lent out. It returns `true` exactly when the
record found by the id is available. -/
theorem borrowBook_spec (books : List Book) (id : Int) :
    ((∀ b ∈ books, b.id ≠ id) → borrowBook books id = (LendResult.notFound, books))
    ∧ (∀ pre b post, books = pre ++ b :: post → b.id = id → (∀ x ∈ pre, x.id ≠ id) →
        (b.isAvailable = true →
          borrowBook books id =
            (LendResult.ok,
             pre ++ { id := b.id, title := b.title, author := b.author, year := b.year,
                      isbn := b.isbn, category := b.category, isAvailable := false } :: post))
        ∧ (b.isAvailable = false → borrowBook books id = (LendResult.alreadyBorrowed, books)))
    ∧ ((borrowBook books id).1.returned = true
        ↔ ∃ b, recordByID books id = some b ∧ b.isAvailable = true) := by
  refine ⟨borrowBook_not_found books id, ?_, ?_⟩
  · intro pre b post hbooks hb hpre
    subst hbooks
    rw [borrowBook_append_cons pre b post id hb hpre]
    constructor
    · intro h; simp [h]
    · intro h; simp [h]
  · by_cases hex : ∃ x ∈ books, x.id = id
    · obtain ⟨pre, b, post, rfl, hb, hpre⟩ := exists_first_id books id hex
      rw [borrowBook_append_cons pre b post id hb hpre,
        recordByID_append_cons pre b post id hb hpre]
      cases hav : b.isAvailable <;> simp [LendResult.returned, hav]
    · have hno : ∀ x ∈ books, x.id ≠ id := fun x hx hxid => hex ⟨x, hx, hxid⟩
      rw [borrowBook_not_found books id hno, recordByID_eq_none books id hno]
      simp [LendResult.returned]

/-! ## The claims on return and on the lending flag -/

/-- C21: `returnBook` reports "not found" and leaves the vector unchanged when no record has
the id; when the first record with the id is `b`, it returns `true` and rewrites only the
lending flag of that record to `true` if `b` is lent out, and reports "already available"
and leaves the vector unchanged if `b` is on the shelf. It returns `true` exactly when the
record found by the id is lent out. -/
theorem returnBook_spec (books : List Book) (id : Int) :
    ((∀ b ∈ books, b.id ≠ id) → returnBook books id = (LendResult.notFound, books))
    ∧ (∀ pre b post, books = pre ++ b :: post → b.id = id → (∀ x ∈ pre, x.id ≠ id) →
        (b.isAvailable = false →
          returnBook books id =
            (LendResult.ok,
             pre ++ { id := b.id, title := b.title, author := b.author, year := b.year,
                      isbn := b.isbn, category := b.category, isAvailable := true } :: post))
        ∧ (b.isAvailable = true → returnBook books id = (LendResult.alreadyAvailable, books)))
    ∧ ((returnBook books id).1.returned = true
        ↔ ∃ b, recordByID books id = some b ∧ b.isAvailable = false) := by
  refine ⟨returnBook_not_found books id, ?_, ?_⟩
  · intro pre b post hbooks hb hpre
    subst hbooks
    rw [returnBook_append_cons pre b post id hb hpre]
    constructor
    · intro h; simp [h]
    · intro h; simp [h]
  · by_cases hex : ∃ x ∈ books, x.id = id
    · obtain ⟨pre, b, post, rfl, hb, hpre⟩ := exists_first_id books id hex
      rw [returnBook_append_cons pre b post id hb hpre,
        recordByID_append_cons pre b post id hb hpre]
      cases hav : b.isAvailable <;> simp [LendResult.returned, hav]
    · have hno : ∀ x ∈ books, x.id ≠ id := fun x hx hxid => hex ⟨x, hx, hxid⟩
      rw [returnBook_not_found books id hno, recordByID_eq_none books id hno]
      simp [LendResult.returned]

/-- C22: the lending flag is changed by `borrowBook` and `returnBook` only. `addRecord` keeps
the vector and at most appends to it; `updateRecord` (in both copies of the code) keeps the
id and the lending flag at every position; `deleteRecord` leaves a subsequence of the
records; the three sorts leave a permutation of the records. `borrowBook` either keeps the
vector or rewrites one record's flag from `true` to `false`, and `returnBook` either keeps
the vector or rewrites one record's flag from `false` to `true`. -/
theorem available_changed_by_lending_only (books : List Book) (id : Int)
    (title author : CppString) (year : Int) (isbn category : CppString) :
    (∃ added, (addRecord books title author year isbn category).2 = books ++ added)
    ∧ ((updateRecord books id title author year isbn category).2.map
          (fun b => (b.id, b.isAvailable)) = books.map (fun b => (b.id, b.isAvailable)))
    ∧ ((updateRecordSingle books id title author year isbn category).2.map
          (fun b => (b.id, b.isAvailable)) = books.map (fun b => (b.id, b.isAvailable)))
    ∧ (deleteRecord books id).2.Sublist books
    ∧ (∃ sorted, sortByTitle books = some sorted ∧ sorted.Perm books)
    ∧ (∃ sorted, sortByAuthor books = some sorted ∧ sorted.Perm books)
    ∧ (∃ sorted, sortByYear books = some sorted ∧ sorted.Perm books)
    ∧ ((borrowBook books id).2 = books ∨ FlagMoved true false books (borrowBook books id).2)
    ∧ ((returnBook books id).2 = books
        ∨ FlagMoved false true books (returnBook books id).2) := by
  refine ⟨?_, ?_, ?_, deleteRecord_sublist books id, ?_, ?_, ?_, borrowBook_flag books id,
    returnBook_flag books id⟩
  · obtain ⟨added, h, _⟩ := addRecord_appends books title author year isbn category
    exact ⟨added, h⟩
  · exact updateRecord_map_flag books id title author year isbn category
  · exact updateRecordSingle_map_flag books id title author year isbn category
  · obtain ⟨s, h1, h2, _⟩ := sortByTitle_spec books
    exact ⟨s, h1, h2⟩
  · obtain ⟨s, h1, h2, _⟩ := sortByAuthor_spec books
    exact ⟨s, h1, h2⟩
  · obtain ⟨s, h1, h2, _⟩ := sortByYear_spec books
    exact ⟨s, h1, h2⟩

/-! ## The claims on the counts and on lookup after delete -/

/-- C23 (counterexample): for a vector of 2147483648 available records, one more than an
`int` can hold, `getTotalBooks` and `getAvailableBooks` return -2147483648: not the number of
records, and negative. -/
theorem counts_wrap_beyond_int :
    (List.replicate 2147483648 (emma 1)).length = 2147483648
    ∧ ((List.replicate 2147483648 (emma 1)).filter fun b => b.isAvailable).length = 2147483648
    ∧ getTotalBooks (List.replicate 2147483648 (emma 1)) = -2147483648
    ∧ getAvailableBooks (List.replicate 2147483648 (emma 1)) = -2147483648 := by
  have hc : (List.replicate 2147483648 (emma 1)).countP (fun b => b.isAvailable)
      = 2147483648 := by
    rw [List.countP_eq_length.mpr, List.length_replicate]
    intro b hb
    rw [List.eq_of_mem_replicate hb]
    rfl
  refine ⟨List.length_replicate _ _, ?_, ?_, ?_⟩
  · rw [← List.countP_eq_length_filter, hc]
  · unfold getTotalBooks
    rw [List.length_replicate]
    decide
  · unfold getAvailableBooks
    rw [hc]
    decide

/-- C23 (amended): for a vector whose size an `int` can hold, `getTotalBooks` is the number of records,
`getAvailableBooks` the number of records that are available and `getBorrowedBooks` the
number of records that are lent out; the two add up to the total and neither is negative. -/
theorem counts_spec (books : List Book) (h : (books.length : Int) ≤ INT_MAX) :
    getTotalBooks books = books.length
    ∧ getAvailableBooks books = (books.filter fun b => b.isAvailable).length
    ∧ getBorrowedBooks books = (books.filter fun b => !b.isAvailable).length
    ∧ getAvailableBooks books + getBorrowedBooks books = getTotalBooks books
    ∧ 0 ≤ getAvailableBooks books ∧ 0 ≤ getBorrowedBooks books := by
  have hsum := List.length_eq_countP_add_countP (fun book : Book => book.isAvailable) books
  have hc : List.countP (fun a => decide ¬(a.isAvailable = true)) books
      = List.countP (fun book => !book.isAvailable) books := by
    congr 1; funext a; cases a.isAvailable <;> rfl
  rw [hc] at hsum
  rw [getTotalBooks_eq books h, getAvailableBooks_eq books h, getBorrowedBooks_eq books h,
    ← List.countP_eq_length_filter, ← List.countP_eq_length_filter]
  refine ⟨rfl, rfl, rfl, ?_, ?_, ?_⟩ <;> omega

theorem counts_spec_witness :
    (([emma 1, { dune 2 with isAvailable := false }, dune 3].length : Int) ≤ INT_MAX)
    ∧ getTotalBooks [emma 1, { dune 2 with isAvailable := false }, dune 3] = 3
    ∧ getAvailableBooks [emma 1, { dune 2 with isAvailable := false }, dune 3] = 2
    ∧ getBorrowedBooks [emma 1, { dune 2 with isAvailable := false }, dune 3] = 1 := by
  have h := counts_spec [emma 1, { dune 2 with isAvailable := false }, dune 3] (by decide)
  exact ⟨by decide, h.1, h.2.1, h.2.2.1⟩

/-- C24: the text `exportToCSV` writes to a file it could create is the header
`ID,Title,Author,Year,ISBN,Category,Status` and a line feed, followed for each record in
vector order by `toCSV` of the record and a line feed. `toCSV` joins the decimal id, the
title, the author, the decimal year, the ISBN, the category and the status `Available` or
`Borrowed` with single commas, the texts being copied as they are. A number is written as
its decimal digits without leading zeros, after a minus sign when negative. The line of a
record has six commas and those of its texts, so more than six when a text has a comma. -/
theorem exportToCSV_spec (books : List Book) :
    exportToCSV books true
      = (true, lit "ID,Title,Author,Year,ISBN,Category,Status" ++ lit "\n"
          ++ (books.map fun b => toCSV b ++ lit "\n").flatten)
    ∧ (∀ b : Book, toCSV b
        = decimal b.id ++ lit "," ++ b.title ++ lit "," ++ b.author ++ lit ","
          ++ decimal b.year ++ lit "," ++ b.isbn ++ lit "," ++ b.category ++ lit ","
          ++ (if b.isAvailable = true then lit "Available" else lit "Borrowed"))
    ∧ (∀ n : Int, ∃ digits, decimal n = (if n < 0 then lit "-" else []) ++ digits
        ∧ (∀ d ∈ digits, isDigit d = true) ∧ decimalValue digits = n.natAbs
        ∧ digits ≠ [] ∧ (digits.head? = some 48 → n = 0))
    ∧ (∀ b : Book, commas (toCSV b)
        = 6 + commas b.title + commas b.author + commas b.isbn + commas b.category)
    ∧ (∀ b : Book, (44 ∈ b.title ∨ 44 ∈ b.author ∨ 44 ∈ b.isbn ∨ 44 ∈ b.category) →
        6 < commas (toCSV b)) := by
  refine ⟨?_, fun b => rfl, ?_, commas_toCSV, ?_⟩
  · unfold exportToCSV
    simp only [Bool.not_true, Bool.false_eq_true, if_false]
    rw [exportToCSV_foldl]
    rfl
  · intro n
    obtain ⟨h1, h2, h3, h4⟩ := natDigits_spec n.natAbs
    refine ⟨natDigits n.natAbs, ?_, h1, h2, h3, ?_⟩
    · unfold decimal
      split <;> rfl
    · intro h0
      have := h4 h0
      omega
  · intro b hb
    rw [commas_toCSV]
    rcases hb with hb | hb | hb | hb
    · have := commas_pos _ hb; omega
    · have := commas_pos _ hb; omega
    · have := commas_pos _ hb; omega
    · have := commas_pos _ hb; omega

/-! ## The claims on the ISBN check -/

/-- C25: `isValidISBN`, which is the whole-string match of the pattern
`^(?:\d{10}|\d{13}|[\d-]{13,17})$`, accepts a string exactly when it is 10 decimal digits, or
13 decimal digits, or 13 to 17 characters each of which is a decimal digit or a hyphen. The
empty string and every string of length 11 or 12 are rejected. -/
theorem isValidISBN_spec (s : CppString) :
    isValidISBN s = regexMatch isbnPattern s
    ∧ (isValidISBN s = true
        ↔ (s.length = 10 ∧ ∀ b ∈ s, 48 ≤ b.val ∧ b.val ≤ 57)
          ∨ (s.length = 13 ∧ ∀ b ∈ s, 48 ≤ b.val ∧ b.val ≤ 57)
          ∨ (13 ≤ s.length ∧ s.length ≤ 17
              ∧ ∀ b ∈ s, (48 ≤ b.val ∧ b.val ≤ 57) ∨ b.val = 45))
    ∧ isValidISBN [] = false
    ∧ (s.length = 11 ∨ s.length = 12 → isValidISBN s = false) := by
  refine ⟨(regexMatch_isbnPattern s).symm, isValidISBN_iff s, by decide, ?_⟩
  intro h
  rw [← Bool.not_eq_true, isValidISBN_iff]
  omega

/-- C30: the string of 13 hyphens has no digit and `isValidISBN` accepts it; `addRecord` with
a title and an author that are not empty, a year from 1000 to 2030 and this ISBN, on a vector
in which no record has this ISBN, returns `true` and appends a record with this ISBN. -/
theorem addRecord_stores_isbn_without_digit (books : List Book) (title author : CppString)
    (year : Int) (category : CppString) (ht : title ≠ []) (ha : author ≠ [])
    (hy : 1000 ≤ year ∧ year ≤ 2030) (hu : ∀ b ∈ books, b.isbn ≠ lit "-------------") :
    isValidISBN (lit "-------------") = true
    ∧ regexMatch isbnPattern (lit "-------------") = true
    ∧ (∀ b ∈ lit "-------------", isDigit b = false)
    ∧ addRecord books title author year (lit "-------------") category
        = (AddResult.added (generateNextId books),
           books ++ [{ id := generateNextId books, title := title, author := author,
                       year := year, isbn := lit "-------------", category := category,
                       isAvailable := true }]) := by
  have h0 : (lit "-------------").any isDigit = false := by decide
  refine ⟨by decide, by rw [regexMatch_isbnPattern]; decide, ?_, ?_⟩
  · intro b hb
    have := List.any_eq_false.mp h0 b hb
    simpa using this
  rw [addRecord_eq]
  have h1 : isValidISBN (lit "-------------") = true := by decide
  have h2 : ¬ ∃ b ∈ books, b.isbn = lit "-------------" := fun ⟨b, hb, hb2⟩ => hu b hb hb2
  simp only [ht, ha, hy, h1, h2, if_false, not_true_eq_false, and_self, Bool.true_eq_false]

theorem addRecord_stores_isbn_without_digit_witness :
    (∀ b ∈ lit "-------------", isDigit b = false) ∧
    addRecord [emma 1] (lit "Dune") (lit "Herbert") 1965 (lit "-------------") (lit "SciFi")
      = (AddResult.added 2,
         [emma 1, { id := 2, title := lit "Dune", author := lit "Herbert", year := 1965,
                    isbn := lit "-------------", category := lit "SciFi",
                    isAvailable := true }]) := by
  have h := addRecord_stores_isbn_without_digit [emma 1] (lit "Dune") (lit "Herbert") 1965
    (lit "SciFi") (by decide) (by decide) (by decide) (by decide)
  exact ⟨h.2.2.1, h.2.2.2⟩

/-! ## The claims on field validity and on the two copies of the code -/

/-- C26 (the code at the failing input): every record of the vector with the one record
`dune 1` satisfies the constraints on the fields, and 999 is a year that
`getValidatedIntInput("", 0, 2030)` returns; `updateRecord` of `library_manager_single.cpp`,
answered with the year 999 and the ISBN `x`, returns `true` and leaves a record whose year is
below 1000 and whose ISBN `isValidISBN` rejects. The `updateRecord` of `LibraryManager.cpp`
leaves the record as it was. -/
theorem updateRecordSingle_breaks_validity :
    (∀ b ∈ [dune 1], b.Valid)
    ∧ getValidatedIntInputReturns 0 2030 999
    ∧ updateRecordSingle [dune 1] 1 [] [] 999 (lit "x") []
        = (true, [{ dune 1 with year := 999, isbn := lit "x" }])
    ∧ ¬ Book.Valid { dune 1 with year := 999, isbn := lit "x" }
    ∧ isValidYear 999 = false ∧ isValidISBN (lit "x") = false
    ∧ updateRecord [dune 1] 1 [] [] 999 (lit "x") [] = (true, [dune 1]) := by
  decide

/-- C27 (the code at the failing input): answered with the year 7 and the ISBN `12` for the
record with id 1, `updateRecord` of `LibraryManager.cpp` keeps the year and the ISBN of the
record, while `updateRecord` of `library_manager_single.cpp` stores 7 and `12`: the two
copies leave different vectors. -/
theorem updateRecord_copies_differ :
    updateRecord [emma 1] 1 (lit "Emma II") [] 7 (lit "12") []
        = (true, [{ emma 1 with title := lit "Emma II" }])
    ∧ updateRecordSingle [emma 1] 1 (lit "Emma II") [] 7 (lit "12") []
        = (true, [{ emma 1 with title := lit "Emma II", year := 7, isbn := lit "12" }])
    ∧ updateRecord [emma 1] 1 (lit "Emma II") [] 7 (lit "12") []
        ≠ updateRecordSingle [emma 1] 1 (lit "Emma II") [] 7 (lit "12") [] := by
  decide

/-! ## The claim on loading a truncated file -/

/-- C29 (the code at the failing input): the file saved for the vector with the one record
`emma 1`, cut to its first two bytes, is a prefix of the saved file within which no record
lies completely; the run of `loadBooksFromFile` on it does not yield the empty vector but has
undefined behaviour, since the size of the title is not extracted and the title is resized
with an indeterminate value. The same holds for the file saved for `emma 1` and `dune 2` cut
after 70 bytes, within which the first record lies completely. -/
theorem load_of_truncated_file_undefined :
    (saveBooksToFile [emma 1]).take 2 = [1, 0]
    ∧ loadBooksFromFile ((saveBooksToFile [emma 1]).take 2) = none
    ∧ (saveBooksToFile [emma 1, dune 2]).take 70 = saveBooksToFile [emma 1] ++ [2, 0, 0, 0, 4, 0, 0, 0, 0]
    ∧ loadBooksFromFile ((saveBooksToFile [emma 1, dune 2]).take 70) = none := by
  decide

end LibraryManagement
